import Mathlib

/-!
Verification of the seam-carving engine (`src/cost.rs`, `src/sobel.rs`,
`src/seam.rs`) against its natural-language specification.

Modelling conventions (shallow embedding):
* `f32` values are modelled as exact rationals (`ℚ`).  No claim under
  verification depends on floating-point rounding of additions or
  comparisons; the one place the source rounds a value (the final
  `sqrt(..).round()` of the Sobel kernel) is modelled explicitly as
  rounding the exact square root to the nearest integer.
* `usize` arithmetic is modelled as `Nat`; Rust's panicking subtraction
  underflow corresponds to Lean's saturating subtraction, and a Rust
  panicking out-of-bounds read corresponds to `List.getD _ _ default`.
  Every positive theorem below carries hypotheses under which the source
  performs no underflow and no out-of-bounds access, so the models agree
  with the source there; counterexamples are annotated where the source
  would panic instead.
* In-place `Vec` mutation is modelled by `List.set`; `Vec::resize` to a
  smaller length is `List.take` followed by padding (the pad is empty in
  every reachable case).
-/

namespace SeamCarving

/-- Removal axis, from `src/cost.rs`.  `Row` removes one cell per image
row (a vertical seam, shrinking the width); `Column` removes one cell per
image column (a horizontal seam, shrinking the height). -/
inductive Direction where
  | Row : Direction
  | Column : Direction
deriving DecidableEq, Repr

/-- Traversal geometry, from `MapState` in `src/cost.rs`: `outer` lines
are scanned, each holding `inner` cells; consecutive cells of a line are
`offset` apart in the flat buffer and consecutive lines are `stride`
apart. -/
structure MapState where
  outer : Nat
  inner : Nat
  stride : Nat
  offset : Nat
deriving Repr

/-- `MapState::from_dir` in `src/cost.rs`. -/
def MapState.from_dir (width height : Nat) (dir : Direction) : MapState :=
  match dir with
  | Direction.Column => { outer := width, inner := height, stride := 1, offset := width }
  | Direction.Row => { outer := height, inner := width, stride := width, offset := 1 }

/-- `min2` in `src/cost.rs`: `if v1 < v2 { v1 } else { v2 }`. -/
def min2 (v1 v2 : ℚ) : ℚ := if v1 < v2 then v1 else v2

/-- `min3` in `src/cost.rs`: `min2(v1, min2(v2, v3))`. -/
def min3 (v1 v2 v3 : ℚ) : ℚ := min2 v1 (min2 v2 v3)

/-- The far-boundary copy loop of `build_cost_matrix`
(`for _ in 0..state.inner { res[idx] = energy[idx]; idx += state.offset }`). -/
def farCopy (energy : List ℚ) (offset : Nat) : Nat → Nat → List ℚ → List ℚ
  | 0, _, res => res
  | n + 1, idx, res => farCopy energy offset n (idx + offset) (res.set idx (energy.getD idx 0))

/-- The interior-cell loop of `build_cost_matrix`
(`for _ in 1..(state.inner - 1)`), carrying the running write index `idx`
and read index `eIdx` exactly as the source does. -/
def innerCells (energy : List ℚ) (offset : Nat) : Nat → Nat → Nat → List ℚ → List ℚ
  | 0, _, _, res => res
  | n + 1, idx, eIdx, res =>
      innerCells energy offset n (idx + offset) (eIdx + offset)
        (res.set idx (energy.getD idx 0 +
          min3 (res.getD eIdx 0) (res.getD (eIdx + offset) 0) (res.getD (eIdx + 2 * offset) 0)))

/-- One iteration of the outer loop of `build_cost_matrix` processes one
whole line (first cell with two candidates, interior cells with three,
last cell with two); `idxIn` is the index of the last cell of the
previously processed line, as in the source. -/
def lineLoop (energy : List ℚ) (offset stride inner : Nat) : Nat → Nat → List ℚ → List ℚ
  | 0, _, res => res
  | n + 1, idxIn, res =>
      let first := idxIn - (inner - 1) * offset - stride
      let eIdx0 := first + stride
      let res1 := res.set first (energy.getD first 0 +
        min2 (res.getD eIdx0 0) (res.getD (eIdx0 + offset) 0))
      let res2 := innerCells energy offset (inner - 1 - 1) (first + offset) eIdx0 res1
      let idxL := first + offset + (inner - 1 - 1) * offset
      let eIdxL := eIdx0 + (inner - 1 - 1) * offset
      let res3 := res2.set idxL (energy.getD idxL 0 +
        min2 (res2.getD eIdxL 0) (res2.getD (eIdxL + offset) 0))
      lineLoop energy offset stride inner n idxL res3

/-- `build_cost_matrix` in `src/cost.rs`: copy the far-boundary line from
the energy buffer, then walk the remaining lines toward the near boundary
filling each cell with `energy + min(far-side neighbour costs)`. -/
def build_cost_matrix (energy : List ℚ) (width height : Nat) (dir : Direction) : List ℚ :=
  let st := MapState.from_dir width height dir
  let res := List.replicate energy.length 0
  let start := (st.outer - 1) * st.stride
  let res := farCopy energy st.offset st.inner start res
  let idx := start + st.inner * st.offset - st.offset
  lineLoop energy st.offset st.stride st.inner (st.outer - 1) idx res

/-- The value Rust's `f32::MAX` denotes, as an exact rational; the first
scan of `find_shortest_path` starts from it. -/
def f32MAX : ℚ := (2 ^ 24 - 1) * 2 ^ 104

/-- The near-boundary scan of `find_shortest_path`: walk the `inner`
cells of the first line keeping the first strict minimum. -/
def scanMin (cost : List ℚ) (offset : Nat) : Nat → Nat → Nat → ℚ → Nat
  | 0, _, minIdx, _ => minIdx
  | n + 1, idx, minIdx, curMin =>
      let val := cost.getD idx 0
      if curMin > val then scanMin cost offset n (idx + offset) idx val
      else scanMin cost offset n (idx + offset) minIdx curMin

/-- The body of one iteration of the walk loop of `find_shortest_path`:
starting from the same-secondary cell of the next line (`idx = prev +
stride`), the `-1` neighbour and then the `+1` neighbour take over only
with a strictly smaller cost; the boundary guards test the secondary
coordinate `(idx / offset) % inner`. -/
def stepChoice (cost : List ℚ) (offset stride inner : Nat) (prev : Nat) : Nat :=
  let idx := prev + stride
  let c0 := cost.getD idx 0
  let pair1 :=
    if (idx / offset) % inner ≠ 0 then
      let o := idx - offset
      let v := cost.getD o 0
      if c0 > v then (o, v) else (idx, c0)
    else (idx, c0)
  if (idx / offset) % inner ≠ inner - 1 then
    let o := idx + offset
    let v := cost.getD o 0
    if pair1.2 > v then o else pair1.1
  else pair1.1

/-- The walk phase of `find_shortest_path`: apply `stepChoice` once per
remaining line, appending each chosen index. -/
def stepLoop (cost : List ℚ) (offset stride inner : Nat) : Nat → Nat → List Nat
  | 0, _ => []
  | n + 1, prev =>
      let chosen := stepChoice cost offset stride inner prev
      chosen :: stepLoop cost offset stride inner n chosen

/-- `find_shortest_path` in `src/cost.rs`. -/
def find_shortest_path (cost : List ℚ) (width height : Nat) (dir : Direction) : List Nat :=
  let st := MapState.from_dir width height dir
  let first := scanMin cost st.offset st.inner 0 0 f32MAX
  first :: stepLoop cost st.offset st.stride st.inner (st.outer - 1) first

/-- Line (outer) coordinate of a flat index under a direction. -/
def lineOf (width : Nat) (dir : Direction) (idx : Nat) : Nat :=
  match dir with
  | Direction.Row => idx / width
  | Direction.Column => idx % width

/-- Secondary (inner) coordinate of a flat index under a direction. -/
def secOf (width : Nat) (dir : Direction) (idx : Nat) : Nat :=
  match dir with
  | Direction.Row => idx % width
  | Direction.Column => idx / width

/-- Flat index of the cell on line `k` with secondary coordinate `s`. -/
def cellIdx (st : MapState) (k s : Nat) : Nat := k * st.stride + s * st.offset

-- Model validation against the unit tests of `src/cost.rs`.
example :
    build_cost_matrix [1, 0, 0, 0, 1, 0, 0, 0, 1, 2, 1, 3] 3 4 Direction.Row
      = [2, 1, 1, 1, 2, 1, 1, 1, 2, 2, 1, 3] := by
  norm_num [build_cost_matrix, MapState.from_dir, farCopy, innerCells, lineLoop, min2, min3]
  decide

example :
    build_cost_matrix [1, 0, 0, 0, 1, 0, 0, 0, 1, 2, 1, 3] 3 4 Direction.Column
      = [1, 0, 0, 0, 1, 0, 0, 0, 1, 2, 2, 3] := by
  norm_num [build_cost_matrix, MapState.from_dir, farCopy, innerCells, lineLoop, min2, min3]
  decide

example :
    build_cost_matrix [1, 2, 3, 4, 5, 10, 9, 8, 7, 6] 5 2 Direction.Row
      = [10, 10, 10, 10, 11, 10, 9, 8, 7, 6] := by
  norm_num [build_cost_matrix, MapState.from_dir, farCopy, innerCells, lineLoop, min2, min3]
  decide

example :
    find_shortest_path [7, 2, 3, 4, 5, 6, 9, 4, 2, 6, 5, 2, 5, 5, 1, 1, 3, 9, 8, 7] 5 4
      Direction.Row = [1, 7, 11, 15] := by
  norm_num [find_shortest_path, MapState.from_dir, scanMin, stepLoop, stepChoice, f32MAX]

example :
    find_shortest_path [7, 2, 3, 4, 5, 6, 9, 4, 2, 6, 5, 2, 5, 5, 1, 1, 3, 9, 8, 7] 5 4
      Direction.Column = [15, 11, 7, 8, 14] := by
  norm_num [find_shortest_path, MapState.from_dir, scanMin, stepLoop, stepChoice, f32MAX]

example :
    find_shortest_path [1, 8, 3, 4, 7, 6, 2, 8, 12, 6, 5, 7, 2, 13, 11, 4, 5, 9, 1, 7,
      5, 4, 6, 7, 2] 5 5 Direction.Row = [0, 6, 12, 18, 24] := by
  norm_num [find_shortest_path, MapState.from_dir, scanMin, stepLoop, stepChoice, f32MAX]

example :
    find_shortest_path [7, 8, 3, 4, 1, 6, 9, 8, 2, 6, 5, 2, 2, 5, 11, 4, 2, 9, 8, 7,
      1, 4, 6, 7, 9] 5 5 Direction.Column = [20, 16, 12, 8, 4] := by
  norm_num [find_shortest_path, MapState.from_dir, scanMin, stepLoop, stepChoice, f32MAX]

/-! ## Seam removal (`src/seam.rs`) -/

/-- Copy loop `for i in a..a+n { img[i] = img[i+inc] }`, shared by both
removal shapes of `src/seam.rs` (there with `inc` the accumulated shift
for the row shape, and `inc = width*channels`, `n = channels` for one
block move of the column shape). -/
def copyRange {α : Type} [Inhabited α] (inc : Nat) : Nat → Nat → List α → List α
  | _, 0, img => img
  | a, n + 1, img => copyRange inc (a + 1) n (img.set a (img.getD (a + inc) default))

/-- The `while let Some(next_idx) = path.pop()` loop of
`remove_path_from_image_dir_row`, followed by the final
`for i in idx..new_len` sweep.  `path` here is the ascending tail of the
sorted seam (the source sorts descending and pops from the back). -/
def rowLoop {α : Type} [Inhabited α] (C newLen : Nat) :
    List Nat → Nat → Nat → List α → List α
  | [], idx, inc, img => copyRange inc idx (newLen - idx) img
  | q :: rest, idx, inc, img =>
      rowLoop C newLen rest (q * C - inc) (inc + C)
        (copyRange inc idx (q * C - inc - idx) img)

/-- `remove_path_from_image_dir_row` in `src/seam.rs`.  The source
`path.pop().unwrap()` panics on an empty seam, modelled as `none`;
`Vec::resize` to the smaller `new_len` is take-then-pad. -/
def remove_path_from_image_dir_row {α : Type} [Inhabited α]
    (img : List α) (path : List Nat) (no_channels : Nat) : Option (List α) :=
  match path.mergeSort (fun a b => decide (a ≤ b)) with
  | [] => none
  | p :: rest =>
      let newLen := img.length - path.length * no_channels
      let res := rowLoop no_channels newLen rest (p * no_channels) no_channels img
      some (res.take newLen ++ List.replicate (newLen - res.length) default)

/-- The `while idx + width * no_channels < img.len()` loop of
`remove_path_from_image_dir_col`: shift the tail of one column up by one
line, block by block.  `fuel` bounds the iteration count; the caller
passes `img.length + 1`, which the step bound `step ≥ 1` makes
sufficient. -/
def colShift {α : Type} [Inhabited α] (step C : Nat) : Nat → Nat → List α → List α
  | 0, _, img => img
  | fuel + 1, idx, img =>
      if idx + step < img.length then
        colShift step C fuel (idx + step) (copyRange step idx C img)
      else img

/-- `remove_path_from_image_dir_col` in `src/seam.rs`. -/
def remove_path_from_image_dir_col {α : Type} [Inhabited α]
    (img : List α) (path : List Nat) (no_channels width : Nat) : List α :=
  let newLen := img.length - path.length * no_channels
  let res := path.foldl
    (fun im p => colShift (width * no_channels) no_channels (im.length + 1) (p * no_channels) im)
    img
  res.take newLen ++ List.replicate (newLen - res.length) default

/-- `remove_path_from_image` in `src/seam.rs`: dispatch on the direction. -/
def remove_path_from_image {α : Type} [Inhabited α] (img : List α) (path : List Nat)
    (no_channels : Nat) (dir : Direction) (width : Nat) : Option (List α) :=
  match dir with
  | Direction.Row => remove_path_from_image_dir_row img path no_channels
  | Direction.Column => some (remove_path_from_image_dir_col img path no_channels width)

-- Model validation against the unit tests of `src/seam.rs`.
example :
    remove_path_from_image ([0, 1, 2, 3, 4, 5, 6, 7, 8, 9, 10] : List ℚ) [2, 4, 7, 9] 1
      Direction.Row 11 = some [0, 1, 3, 5, 6, 8, 10] := by
  norm_num [remove_path_from_image, remove_path_from_image_dir_row, List.mergeSort,
    rowLoop, copyRange]

example :
    remove_path_from_image ([0, 1, 2, 3, 4, 5, 6, 7, 8, 9, 10] : List ℚ) [0, 2, 4, 7, 9, 10] 1
      Direction.Row 11 = some [1, 3, 5, 6, 8] := by
  norm_num [remove_path_from_image, remove_path_from_image_dir_row, List.mergeSort,
    rowLoop, copyRange]

example :
    remove_path_from_image ([0, 0, 1, 1, 2, 2, 3, 3, 4, 4, 5, 5, 6, 6, 7, 7, 8, 8, 9, 9,
      10, 10] : List ℚ) [0, 2, 4, 7, 9, 10] 2 Direction.Row 22
      = some [1, 1, 3, 3, 5, 5, 6, 6, 8, 8] := by
  norm_num [remove_path_from_image, remove_path_from_image_dir_row, List.mergeSort,
    rowLoop, copyRange]

set_option maxHeartbeats 2000000 in
example :
    remove_path_from_image ([0, 0, 0, 0, 0, 1, 1, 1, 1, 1, 2, 2, 2, 2, 2,
      3, 3, 3, 3, 3] : List ℚ) [0, 1, 2, 3, 4] 1 Direction.Column 5
      = some [1, 1, 1, 1, 1, 2, 2, 2, 2, 2, 3, 3, 3, 3, 3] := by
  norm_num [remove_path_from_image, remove_path_from_image_dir_col, colShift, copyRange]

/-! ## Energy estimation (`src/sobel.rs`) -/

/-- Kernel sizes, from `src/sobel.rs` (`KernelType`; the copy of the enum
imported by `src/seam.rs` under the name `Kernel` is the same type). -/
inductive KernelType where
  | X5 : KernelType
  | X3 : KernelType
deriving DecidableEq, Repr

/-- `KernelType::size` in `src/sobel.rs`. -/
def KernelType.size : KernelType → Nat
  | KernelType.X5 => 5
  | KernelType.X3 => 3

/-- The 25-entry `kernel_x` table of `Kernel::new` for each kernel type. -/
def kernelX : KernelType → List ℤ
  | KernelType.X5 =>
      [2, 2, 4, 2, 2, 1, 1, 2, 1, 1, 0, 0, 0, 0, 0, -1, -1, -2, -1, -1, -2, -2, -4, -2, -2]
  | KernelType.X3 =>
      [-1, -2, -1, 0, 0, 0, 1, 2, 1, 0, 0, 0, 0, 0, 0, 0, 0, 0, 0, 0, 0, 0, 0, 0, 0]

/-- The 25-entry `kernel_y` table of `Kernel::new` for each kernel type. -/
def kernelY : KernelType → List ℤ
  | KernelType.X5 =>
      [2, 1, 0, -1, -2, 2, 1, 0, -1, -2, 4, 2, 0, -2, -4, 2, 1, 0, -1, -2, 2, 1, 0, -1, -2]
  | KernelType.X3 =>
      [-1, 0, 1, -2, 0, 2, -1, 0, 1, 0, 0, 0, 0, 0, 0, 0, 0, 0, 0, 0, 0, 0, 0, 0, 0]

/-- One convolution sum of `Kernel::calculate`: the patch values (bytes)
multiplied pointwise with the kernel weights and summed.  The source
accumulates in `i32` after `i16` products, which cannot overflow for
byte inputs and these weights, so exact integers are a faithful model. -/
def convSum (patch : List Nat) (ker : List ℤ) : ℤ :=
  (patch.zip ker).foldl (fun acc vk => acc + (vk.1 : ℤ) * vk.2) 0

/-- Nearest integer to the square root of a natural number (the exact
value never falls halfway, since `4*n = (2*c+1)^2` is impossible).  This
models the `(gx^2 + gy^2) as f32`, `powf(0.5)`, `round()` tail of
`Kernel::calculate` by rounding the exact square root. -/
def sqrtRound (n : Nat) : Nat := (Nat.sqrt (4 * n) + 1) / 2

/-- `Kernel::calculate` in `src/sobel.rs`: truncate patch and both kernel
tables to the active `k*k` length, form the two convolution sums, and
return the rounded magnitude `sqrt(gx^2 + gy^2)`. -/
def Kernel.calculate (kt : KernelType) (patch : List Nat) : ℚ :=
  let klength := kt.size ^ 2
  let p := patch.take klength
  let gx := convSum p ((kernelX kt).take klength)
  let gy := convSum p ((kernelY kt).take klength)
  ((sqrtRound (gx ^ 2 + gy ^ 2).toNat : ℚ))

/-- The `k*k` patch that `Sobel::apply` assembles at centre `(x, y)`: row
`i` of the patch is the image row `y + b - i`, columns `x - b ..= x + b`
(the source computes `yi = y - (i - b)` in `isize` and casts back). -/
def patchAt (image : List Nat) (width x y b ksize : Nat) : List Nat :=
  (List.range ksize).flatMap
    (fun i => (image.drop (x - b + (y + b - i) * width)).take ksize)

/-- The Sobel estimator configuration (`pub struct Sobel` in
`src/sobel.rs`). -/
structure Sobel where
  kernel_type : KernelType
deriving DecidableEq, Repr

/-- `Sobel::new` in `src/sobel.rs`: selects the 5x5 kernel. -/
def Sobel.new : Sobel := { kernel_type := KernelType.X5 }

/-- The `Sobel::kernel` builder method. -/
def Sobel.kernel (s : Sobel) (kt : KernelType) : Sobel := { s with kernel_type := kt }

/-- `impl Default for Sobel` delegates to `Sobel::new`. -/
def Sobel.default : Sobel := Sobel.new

/-- The inner `for y in b..height - b` loop of `Sobel::apply` at a fixed
column `x`, writing the gradient magnitude of the patch centred at
`(x, y)` into flat position `x + y * width`. -/
def sobelYLoop (kt : KernelType) (image : List Nat) (width b ksize x : Nat) :
    Nat → Nat → List ℚ → List ℚ
  | 0, _, buf => buf
  | n + 1, y, buf =>
      sobelYLoop kt image width b ksize x n (y + 1)
        (buf.set (x + y * width) (Kernel.calculate kt (patchAt image width x y b ksize)))

/-- The outer `for x in b..width - b` loop of `Sobel::apply`. -/
def sobelXLoop (kt : KernelType) (image : List Nat) (width height b ksize : Nat) :
    Nat → Nat → List ℚ → List ℚ
  | 0, _, buf => buf
  | n + 1, x, buf =>
      sobelXLoop kt image width height b ksize n (x + 1)
        (sobelYLoop kt image width b ksize x (height - b - b) b buf)

/-- `Sobel::apply` in `src/sobel.rs`, over a raw 1-channel buffer with its
dimensions (the `GrayImage` argument of the source is exactly its raw
buffer plus dimensions; the copy of `sobel.rs` used by `src/seam.rs`
passes the raw buffer and dimensions directly).  Cells outside the
interior rectangle keep the initial value `0.0`. -/
def Sobel.apply (s : Sobel) (image : List Nat) (width height : Nat) : List ℚ :=
  let ksize := s.kernel_type.size
  let b := ksize / 2
  sobelXLoop s.kernel_type image width height b ksize (width - b - b) b
    (List.replicate image.length 0)

/-! ## Orchestrator (`src/seam.rs`) -/

/-- The decoded in-memory image handed to the engine: channel count,
dimensions and the flat row-major sample buffer.  This models the
`DynamicImage` variants the engine distinguishes (`ImageLuma8` has one
channel, `ImageRgb8` three; anything else hits the
`panic!("unsupported image format")` arm). -/
structure Image where
  channels : Nat
  width : Nat
  height : Nat
  data : List Nat
deriving DecidableEq, Repr

/-- Failure modes of the engine; each constructor models one `panic!` /
`unwrap` / implicit-check site of `src/seam.rs` and the code it calls.
`invalidTargetSize` is the `"Can only reduce img in size"` construction
panic, `unsupportedChannelLayout` the `"unsupported image format"` panic
in `remove_seam`, `emptySeam` the `path.pop().unwrap()` in
`remove_path_from_image_dir_row`, `missingImage` the
`self.img...unwrap()` calls, and `indexOutOfBounds` the implicit slice
bounds check / `usize` underflow panics of `build_cost_matrix` (hit when
the traversal's secondary dimension has a single cell but several lines
exist, or when a dimension is zero). -/
inductive CarveError where
  | invalidTargetSize : CarveError
  | unsupportedChannelLayout : CarveError
  | emptySeam : CarveError
  | missingImage : CarveError
  | indexOutOfBounds : CarveError
deriving DecidableEq, Repr

/-- Exact condition under which `build_cost_matrix` performs no
out-of-bounds access and no `usize` underflow on a buffer of shape
`width * height`: at least one line, at least one cell per line, and
either at least two cells per line or a single line (with one cell per
line and two or more lines, the first-cell step reads
`res[e_idx + offset]` one past the line's end; with zero lines or zero
cells per line the `idx` arithmetic underflows). -/
def cost_build_in_bounds (width height : Nat) (dir : Direction) : Prop :=
  1 ≤ (MapState.from_dir width height dir).outer
    ∧ 1 ≤ (MapState.from_dir width height dir).inner
    ∧ (2 ≤ (MapState.from_dir width height dir).inner
        ∨ (MapState.from_dir width height dir).outer = 1)

instance (width height : Nat) (dir : Direction) :
    Decidable (cost_build_in_bounds width height dir) := by
  unfold cost_build_in_bounds
  infer_instance

/-- Grayscale conversion `img.grayscale().into_luma8()` is performed by
the external `image` crate, not by this repository; it is modelled as the
integer Rec.601 luma of each 3-sample group (or the identity for a
1-channel image).  No verified claim depends on the produced values, only
on the pipeline structure around them. -/
def lumaOf : List Nat → List Nat
  | r :: g :: b :: rest => (r * 299 + g * 587 + b * 114) / 1000 :: lumaOf rest
  | _ => []

/-- Grayscale buffer taken at construction (see `lumaOf`). -/
def grayscaleOf (img : Image) : List Nat :=
  if img.channels = 1 then img.data else lumaOf img.data

/-- `pub struct SeamCarver` in `src/seam.rs` (the `Dims` pairs are
inlined as four fields). -/
structure SeamCarver where
  origW : Nat
  origH : Nat
  desW : Nat
  desH : Nat
  img : Option Image
  gray_buf : List Nat
  energy_buf : List ℚ
deriving DecidableEq, Repr

/-- `SeamCarver::new` in `src/seam.rs`: reject enlargement before any
buffer work, then compute the grayscale cache and, from it, the energy
buffer with the 3x3 kernel (`Sobel::new().kernel(Kernel::X3)`). -/
def SeamCarver.new (img : Image) (new_width new_height : Nat) :
    Except CarveError SeamCarver :=
  if new_height > img.height ∨ new_width > img.width then
    Except.error CarveError.invalidTargetSize
  else
    let gray_buf := grayscaleOf img
    let sobel := Sobel.new.kernel KernelType.X3
    let energy_buf := sobel.apply gray_buf img.width img.height
    Except.ok
      { origW := img.width, origH := img.height, desW := new_width, desH := new_height,
        img := some img, gray_buf := gray_buf, energy_buf := energy_buf }

/-- `SeamCarver::remove_seam` in `src/seam.rs`: build the cost matrix
from the cached energy buffer, extract the seam, split the pixel buffer
by channel layout (1 or 3 channels, anything else is the
`unsupported image format` panic), compact all three buffers with the
same seam, and shrink the stored dimensions.  The cost-matrix build runs
before the channel match and index-panics on degenerate geometries
(see `cost_build_in_bounds`); that panic, which preempts the channel
check, is modelled by the `indexOutOfBounds` error. -/
def SeamCarver.remove_seam (s : SeamCarver) (dir : Direction) :
    Except CarveError SeamCarver :=
  match s.img with
  | none => Except.error CarveError.missingImage
  | some img =>
      let width := img.width
      let height := img.height
      if cost_build_in_bounds width height dir then
      let cost_mat := build_cost_matrix s.energy_buf width height dir
      let path := find_shortest_path cost_mat width height dir
      if img.channels = 1 ∨ img.channels = 3 then
        let no_channels := img.channels
        match remove_path_from_image s.gray_buf path 1 dir width,
              remove_path_from_image s.energy_buf path 1 dir width,
              remove_path_from_image img.data path no_channels dir width with
        | some gray', some energy', some buf' =>
            let wh : Nat × Nat :=
              match dir with
              | Direction.Row => (width - 1, height)
              | Direction.Column => (width, height - 1)
            Except.ok
              { s with
                img := some (Image.mk no_channels wh.1 wh.2 buf'),
                gray_buf := gray', energy_buf := energy' }
        | _, _, _ => Except.error CarveError.emptySeam
      else Except.error CarveError.unsupportedChannelLayout
      else Except.error CarveError.indexOutOfBounds

/-- The `for _ in 0..diff` loops of `SeamCarver::apply`: remove `n` seams
in the given direction, propagating failure. -/
def iterateRemove : Nat → Direction → SeamCarver → Except CarveError SeamCarver
  | 0, _, s => Except.ok s
  | n + 1, dir, s => (s.remove_seam dir).bind (iterateRemove n dir)

/-- `SeamCarver::apply` in `src/seam.rs`: remove `origH - desH` Column
seams, then `origW - desW` Row seams, then unwrap the final image. -/
def SeamCarver.apply (s : SeamCarver) : Except CarveError Image :=
  let w_diff := s.origW - s.desW
  let h_diff := s.origH - s.desH
  (iterateRemove h_diff Direction.Column s).bind fun s1 =>
    (iterateRemove w_diff Direction.Row s1).bind fun s2 =>
      match s2.img with
      | some i => Except.ok i
      | none => Except.error CarveError.missingImage

/-! ## Helper lemmas about list reads and writes -/

theorem getD_set_self {α : Type} (l : List α) (i : Nat) (a d : α) (h : i < l.length) :
    (l.set i a).getD i d = a := by
  rw [List.getD_eq_getElem?_getD, List.getElem?_set_self h]
  rfl

theorem getD_set_ne {α : Type} (l : List α) {i j : Nat} (a d : α) (h : i ≠ j) :
    (l.set i a).getD j d = l.getD j d := by
  rw [List.getD_eq_getElem?_getD, List.getElem?_set_ne h, ← List.getD_eq_getElem?_getD]

/-! ## Cost-matrix DP characterization (C1) -/

theorem farCopy_length (energy : List ℚ) (offset : Nat) :
    ∀ (n idx : Nat) (res : List ℚ), (farCopy energy offset n idx res).length = res.length := by
  intro n
  induction n with
  | zero => intro idx res; rfl
  | succ n ih => intro idx res; rw [farCopy, ih, List.length_set]

theorem farCopy_getD_ne (energy : List ℚ) (offset : Nat) :
    ∀ (n idx : Nat) (res : List ℚ) (j : Nat), (∀ t, t < n → j ≠ idx + t * offset) →
      (farCopy energy offset n idx res).getD j 0 = res.getD j 0 := by
  intro n
  induction n with
  | zero => intro idx res j _; rfl
  | succ n ih =>
      intro idx res j hne
      rw [farCopy, ih (idx + offset) _ j (fun t ht hcon =>
        hne (t + 1) (by omega) (by rw [hcon]; ring))]
      exact getD_set_ne _ _ _ (fun hcon => hne 0 (by omega) (by rw [← hcon]; ring))

theorem farCopy_getD_hit (energy : List ℚ) (offset : Nat) (hoff : 1 ≤ offset) :
    ∀ (n idx : Nat) (res : List ℚ) (t : Nat), t < n → idx + t * offset < res.length →
      (farCopy energy offset n idx res).getD (idx + t * offset) 0
        = energy.getD (idx + t * offset) 0 := by
  intro n
  induction n with
  | zero => intro idx res t ht; omega
  | succ n ih =>
      intro idx res t ht hlt
      rcases Nat.eq_zero_or_pos t with h0 | hpos
      · subst h0
        simp only [Nat.zero_mul, Nat.add_zero] at hlt ⊢
        rw [farCopy, farCopy_getD_ne energy offset n (idx + offset) _ idx
          (fun u hu hcon => by
            have h1 : 1 ≤ offset := hoff
            generalize u * offset = A at hcon
            omega)]
        exact getD_set_self _ _ _ _ hlt
      · obtain ⟨t1, rfl⟩ : ∃ t1, t = t1 + 1 := ⟨t - 1, by omega⟩
        have hsh : idx + (t1 + 1) * offset = idx + offset + t1 * offset := by ring
        rw [hsh] at hlt ⊢
        rw [farCopy]
        exact ih (idx + offset) _ t1 (by omega) (by rw [List.length_set]; exact hlt)

theorem innerCells_length (energy : List ℚ) (offset : Nat) :
    ∀ (n idx eIdx : Nat) (res : List ℚ),
      (innerCells energy offset n idx eIdx res).length = res.length := by
  intro n
  induction n with
  | zero => intro idx eIdx res; rfl
  | succ n ih => intro idx eIdx res; rw [innerCells, ih, List.length_set]

theorem innerCells_getD_ne (energy : List ℚ) (offset : Nat) :
    ∀ (n idx eIdx : Nat) (res : List ℚ) (j : Nat), (∀ t, t < n → j ≠ idx + t * offset) →
      (innerCells energy offset n idx eIdx res).getD j 0 = res.getD j 0 := by
  intro n
  induction n with
  | zero => intro idx eIdx res j _; rfl
  | succ n ih =>
      intro idx eIdx res j hne
      rw [innerCells, ih (idx + offset) (eIdx + offset) _ j (fun t ht hcon =>
        hne (t + 1) (by omega) (by rw [hcon]; ring))]
      exact getD_set_ne _ _ _ (fun hcon => hne 0 (by omega) (by rw [← hcon]; ring))

theorem innerCells_getD_hit (energy : List ℚ) (offset : Nat) (hoff : 1 ≤ offset) :
    ∀ (n idx eIdx : Nat) (res : List ℚ) (t : Nat),
      t < n →
      (∀ a u, a < n + 2 → u < n → eIdx + a * offset ≠ idx + u * offset) →
      idx + t * offset < res.length →
      (innerCells energy offset n idx eIdx res).getD (idx + t * offset) 0
        = energy.getD (idx + t * offset) 0
          + min3 (res.getD (eIdx + t * offset) 0) (res.getD (eIdx + (t + 1) * offset) 0)
              (res.getD (eIdx + (t + 2) * offset) 0) := by
  intro n
  induction n with
  | zero => intro idx eIdx res t ht; omega
  | succ n ih =>
      intro idx eIdx res t ht hsep hlt
      rcases Nat.eq_zero_or_pos t with h0 | hpos
      · subst h0
        simp only [Nat.zero_mul, Nat.add_zero, Nat.zero_add, Nat.one_mul] at hlt ⊢
        rw [innerCells]
        rw [innerCells_getD_ne energy offset n (idx + offset) (eIdx + offset) _ idx
          (fun u hu hcon => by
            have h1 : 1 ≤ offset := hoff
            generalize u * offset = A at hcon
            omega)]
        rw [getD_set_self _ _ _ _ hlt]
      · obtain ⟨t1, rfl⟩ : ∃ t1, t = t1 + 1 := ⟨t - 1, by omega⟩
        have hw1 : idx + (t1 + 1) * offset = idx + offset + t1 * offset := by ring
        have hr1 : eIdx + (t1 + 1) * offset = eIdx + offset + t1 * offset := by ring
        have hr2 : eIdx + (t1 + 1 + 1) * offset = eIdx + offset + (t1 + 1) * offset := by ring
        have hr3 : eIdx + (t1 + 1 + 2) * offset = eIdx + offset + (t1 + 2) * offset := by ring
        rw [hw1] at hlt ⊢
        rw [hr1, hr2, hr3]
        rw [innerCells]
        have hsep2 : ∀ a u, a < n + 2 → u < n →
            eIdx + offset + a * offset ≠ idx + offset + u * offset := by
          intro a u ha hu hcon
          exact hsep (a + 1) (u + 1) (by omega) (by omega) (by
            rw [show eIdx + (a + 1) * offset = eIdx + offset + a * offset from by ring,
              show idx + (u + 1) * offset = idx + offset + u * offset from by ring, hcon])
        have hres := ih (idx + offset) (eIdx + offset)
          ((res.set idx (energy.getD idx 0 + min3 (res.getD eIdx 0)
            (res.getD (eIdx + offset) 0) (res.getD (eIdx + 2 * offset) 0)))) t1
          (by omega) hsep2 (by rw [List.length_set]; exact hlt)
        rw [hres]
        congr 2
        · exact getD_set_ne _ _ _ (fun hcon => hsep (t1 + 1) 0 (by omega) (by omega)
            (by rw [show eIdx + (t1 + 1) * offset = eIdx + offset + t1 * offset from by ring,
              hcon]; ring))
        · exact getD_set_ne _ _ _ (fun hcon => hsep (t1 + 2) 0 (by omega) (by omega)
            (by rw [show eIdx + (t1 + 2) * offset = eIdx + offset + (t1 + 1) * offset from by ring,
              hcon]; ring))
        · exact getD_set_ne _ _ _ (fun hcon => hsep (t1 + 3) 0 (by omega) (by omega)
            (by rw [show eIdx + (t1 + 3) * offset = eIdx + offset + (t1 + 2) * offset from by ring,
              hcon]; ring))

/-- The minimum over the (at most three) far-side neighbour costs that
`build_cost_matrix` combines with a cell's energy: same secondary index,
and the `-1` / `+1` secondary indices where those exist (only two
candidates at the secondary-dimension edges). -/
def minNbr (c : List ℚ) (offset stride inner k s : Nat) : ℚ :=
  if s = 0 then
    min2 (c.getD ((k + 1) * stride) 0) (c.getD ((k + 1) * stride + offset) 0)
  else if s + 1 = inner then
    min2 (c.getD ((k + 1) * stride + (s - 1) * offset) 0)
      (c.getD ((k + 1) * stride + s * offset) 0)
  else
    min3 (c.getD ((k + 1) * stride + (s - 1) * offset) 0)
      (c.getD ((k + 1) * stride + s * offset) 0)
      (c.getD ((k + 1) * stride + (s + 1) * offset) 0)

theorem cell_ne_of_sec_ne {offset : Nat} (hoff : 1 ≤ offset) {F s s' : Nat} (h : s ≠ s') :
    F + s * offset ≠ F + s' * offset := by
  intro hcon
  exact h (Nat.eq_of_mul_eq_mul_right hoff (by omega))

theorem lineOnce_spec (energy : List ℚ) (offset stride : Nat) (m : Nat)
    (hoff : 1 ≤ offset) (k : Nat) (res : List ℚ)
    (hlen : res.length = energy.length)
    (hcellk : ∀ s, s < m + 2 → k * stride + s * offset < energy.length)
    (hdisj : ∀ a s', a < m + 2 → s' < m + 2 →
      (k + 1) * stride + a * offset ≠ k * stride + s' * offset) :
    (lineLoop energy offset stride (m + 2) 1
        ((k + 1) * stride + (m + 1) * offset) res).length = res.length
    ∧ (∀ j, (∀ s, s < m + 2 → j ≠ k * stride + s * offset) →
        (lineLoop energy offset stride (m + 2) 1
          ((k + 1) * stride + (m + 1) * offset) res).getD j 0 = res.getD j 0)
    ∧ (∀ s, s < m + 2 →
        (lineLoop energy offset stride (m + 2) 1
          ((k + 1) * stride + (m + 1) * offset) res).getD (k * stride + s * offset) 0
          = energy.getD (k * stride + s * offset) 0
            + minNbr res offset stride (m + 2) k s) := by
  have hfirst : (k + 1) * stride + (m + 1) * offset - (m + 2 - 1) * offset - stride
      = k * stride := by
    rw [show (m + 2 - 1 : Nat) = m + 1 from rfl,
      show (k + 1) * stride = k * stride + stride from by ring]
    generalize k * stride = A
    generalize (m + 1) * offset = B
    omega
  have hst : k * stride + stride = (k + 1) * stride := by ring
  have hcnt : (m + 2 - 1 - 1 : Nat) = m := rfl
  have hidxL : k * stride + offset + m * offset = k * stride + (m + 1) * offset := by ring
  -- the untouched-cells clause, proved first and reused
  have hB : ∀ j, (∀ s, s < m + 2 → j ≠ k * stride + s * offset) →
      (lineLoop energy offset stride (m + 2) 1
        ((k + 1) * stride + (m + 1) * offset) res).getD j 0 = res.getD j 0 := by
    intro j hj
    simp only [lineLoop]
    rw [hfirst, hst, hcnt]
    rw [getD_set_ne _ _ _ (fun hcon => hj (m + 1) (by omega) (by rw [← hcon, hidxL]))]
    rw [innerCells_getD_ne energy offset m _ _ _ j (fun t ht hcon =>
      hj (1 + t) (by omega) (by
        rw [hcon, show k * stride + offset + t * offset = k * stride + (1 + t) * offset
          from by ring]))]
    exact getD_set_ne _ _ _ (fun hcon => hj 0 (by omega) (by
      rw [← hcon]; ring))
  refine ⟨?_, hB, ?_⟩
  · simp only [lineLoop]
    rw [List.length_set, innerCells_length, List.length_set]
  · intro s hs
    -- reads on line k+1 pass through both set-writes and the inner loop untouched
    have hread : ∀ a, a < m + 2 →
        (innerCells energy offset m (k * stride + offset) ((k + 1) * stride)
          (res.set (k * stride)
            (energy.getD (k * stride) 0 +
              min2 (res.getD ((k + 1) * stride) 0)
                (res.getD ((k + 1) * stride + offset) 0)))).getD
          ((k + 1) * stride + a * offset) 0
        = res.getD ((k + 1) * stride + a * offset) 0 := by
      intro a ha
      rw [innerCells_getD_ne energy offset m _ _ _ _ (fun t ht hcon =>
        hdisj a (1 + t) ha (by omega) (by
          rw [hcon, show k * stride + offset + t * offset = k * stride + (1 + t) * offset
            from by ring]))]
      exact getD_set_ne _ _ _ (fun hcon =>
        hdisj a 0 ha (by omega) (by
          rw [← hcon]; ring))
    rcases Nat.eq_zero_or_pos s with hs0 | hs1
    · -- first cell of the line
      subst hs0
      simp only [lineLoop]
      rw [hfirst, hst, hcnt]
      rw [show k * stride + 0 * offset = k * stride from by ring]
      rw [getD_set_ne _ _ _ (fun hcon => by
        rw [hidxL] at hcon
        exact cell_ne_of_sec_ne hoff (show m + 1 ≠ 0 from by omega)
          (by rw [hcon]; ring)),
        innerCells_getD_ne energy offset m _ _ _ _ (fun t ht hcon => by
          have := @cell_ne_of_sec_ne offset hoff (k * stride) (1 + t) 0
            (show (1 + t : Nat) ≠ 0 from by omega)
          exact this (by
            rw [show k * stride + (1 + t) * offset = k * stride + offset + t * offset
              from by ring, ← hcon]; ring)),
        getD_set_self _ _ _ _ (by
          rw [hlen]
          have := hcellk 0 (by omega)
          rw [show k * stride + 0 * offset = k * stride from by ring] at this
          exact this)]
      simp [minNbr]
    · -- the line has secondary index s ≥ 1
      obtain ⟨t, rfl⟩ : ∃ t, s = t + 1 := ⟨s - 1, by omega⟩
      rcases Nat.lt_or_ge t m with htm | htm
      · -- interior cell, three candidates
        simp only [lineLoop]
        rw [hfirst, hst, hcnt]
        rw [getD_set_ne _ _ _ (fun hcon => by
          rw [hidxL] at hcon
          exact cell_ne_of_sec_ne hoff (show m + 1 ≠ t + 1 from by omega) hcon)]
        rw [show k * stride + (t + 1) * offset = k * stride + offset + t * offset
          from by ring]
        rw [innerCells_getD_hit energy offset hoff m _ _ _ t htm
          (fun a u ha hu => by
            intro hcon
            exact hdisj a (1 + u) (by omega) (by omega) (by
              rw [hcon, show k * stride + offset + u * offset
                = k * stride + (1 + u) * offset from by ring]))
          (by
            rw [List.length_set, hlen,
              show k * stride + offset + t * offset = k * stride + (t + 1) * offset
                from by ring]
            exact hcellk (t + 1) (by omega))]
        rw [show k * stride + offset + t * offset = k * stride + (t + 1) * offset
          from by ring]
        congr 1
        · rw [getD_set_ne _ _ _ (fun hcon =>
            hdisj t 0 (by omega) (by omega) (by
              rw [← hcon]; ring))]
          rw [getD_set_ne _ _ _ (fun hcon =>
            hdisj (t + 1) 0 (by omega) (by omega) (by
              rw [← hcon]; ring))]
          rw [getD_set_ne _ _ _ (fun hcon =>
            hdisj (t + 2) 0 (by omega) (by omega) (by
              rw [← hcon]; ring))]
          simp only [minNbr, if_neg (show ¬(t + 1 = 0) from by omega),
            if_neg (show ¬(t + 1 + 1 = m + 2) from by omega)]
          rw [show (t + 1 - 1 : Nat) = t from rfl]
      · -- last cell of the line
        rw [show (t : Nat) = m from by omega]
        simp only [lineLoop]
        rw [hfirst, hst, hcnt]
        rw [show k * stride + (m + 1) * offset = k * stride + offset + m * offset
          from by ring]
        rw [getD_set_self _ _ _ _ (by
          rw [innerCells_length, List.length_set, hlen,
            show k * stride + offset + m * offset = k * stride + (m + 1) * offset
              from by ring]
          exact hcellk (m + 1) (by omega))]
        rw [show k * stride + offset + m * offset = k * stride + (m + 1) * offset
          from by ring]
        congr 1
        · rw [hread m (by omega),
            show (k + 1) * stride + m * offset + offset
              = (k + 1) * stride + (m + 1) * offset from by ring,
            hread (m + 1) (by omega)]
          simp only [minNbr, if_neg (show ¬(m + 1 = 0) from by omega),
            if_pos (show (m + 1) + 1 = m + 2 from rfl), if_true]
          rw [show (m + 1 - 1 : Nat) = m from rfl]

theorem minNbr_congr (c c' : List ℚ) (offset stride inner k s : Nat)
    (hin : 2 ≤ inner) (hs : s < inner)
    (h : ∀ u, u < inner → c.getD ((k + 1) * stride + u * offset) 0
      = c'.getD ((k + 1) * stride + u * offset) 0) :
    minNbr c offset stride inner k s = minNbr c' offset stride inner k s := by
  have h0 := h 0 (by omega)
  have h1 := h 1 (by omega)
  rw [show (k + 1) * stride + 0 * offset = (k + 1) * stride from by ring] at h0
  rw [one_mul] at h1
  unfold minNbr
  split_ifs with hA hB
  · rw [h0, h1]
  · rw [h (s - 1) (by omega), h s (by omega)]
  · rw [h (s - 1) (by omega), h s (by omega), h (s + 1) (by omega)]

theorem lineLoop_succ (energy : List ℚ) (offset stride inner n idxIn : Nat) (res : List ℚ) :
    lineLoop energy offset stride inner (n + 1) idxIn res
      = lineLoop energy offset stride inner n
          (idxIn - (inner - 1) * offset - stride + offset + (inner - 1 - 1) * offset)
          (lineLoop energy offset stride inner 1 idxIn res) := by
  simp only [lineLoop]

theorem lineLoop_spec (energy : List ℚ) (offset stride m : Nat) (hoff : 1 ≤ offset) :
    ∀ n k (res : List ℚ), n ≤ k + 1 →
      res.length = energy.length →
      (∀ a s, a ≤ k + 1 → s < m + 2 → a * stride + s * offset < energy.length) →
      (∀ a a' s s', a ≤ k + 1 → a' ≤ k + 1 → s < m + 2 → s' < m + 2 →
        a * stride + s * offset = a' * stride + s' * offset → a = a' ∧ s = s') →
      (lineLoop energy offset stride (m + 2) n
          ((k + 1) * stride + (m + 1) * offset) res).length = res.length
      ∧ (∀ j, (∀ a s, k + 1 - n ≤ a → a ≤ k → s < m + 2 → j ≠ a * stride + s * offset) →
          (lineLoop energy offset stride (m + 2) n
            ((k + 1) * stride + (m + 1) * offset) res).getD j 0 = res.getD j 0)
      ∧ (∀ a s, k + 1 - n ≤ a → a ≤ k → s < m + 2 →
          (lineLoop energy offset stride (m + 2) n
            ((k + 1) * stride + (m + 1) * offset) res).getD (a * stride + s * offset) 0
            = energy.getD (a * stride + s * offset) 0
              + minNbr (lineLoop energy offset stride (m + 2) n
                  ((k + 1) * stride + (m + 1) * offset) res) offset stride (m + 2) a s) := by
  intro n
  induction n with
  | zero =>
      intro k res hnk hlen hcell hinj
      exact ⟨rfl, fun j _ => rfl, fun a s ha1 ha2 hs => absurd ha2 (by omega)⟩
  | succ n IH =>
      intro k res hnk hlen hcell hinj
      rcases Nat.eq_zero_or_pos n with rfl | hn
      · -- a single line remains: line k itself
        obtain ⟨hL, hU, hV⟩ := lineOnce_spec energy offset stride m hoff k res hlen
          (fun s hs => hcell k s (by omega) hs)
          (fun a s' ha hs' hcon =>
            absurd (hinj (k + 1) k a s' (le_refl _) (by omega) ha hs' hcon).1 (by omega))
        refine ⟨hL, ?_, ?_⟩
        · intro j hj
          exact hU j (fun s hs => hj k s (by omega) (by omega) hs)
        · intro a s ha1 ha2 hs
          have hak : a = k := by omega
          subst hak
          refine Eq.trans (hV s hs) ?_
          congr 1
          refine minNbr_congr res _ offset stride (m + 2) a s (by omega) hs ?_
          intro u hu
          exact (hU ((a + 1) * stride + u * offset) (fun s' hs' hcon =>
            absurd (hinj (a + 1) a u s' (by omega) (by omega) hu hs' hcon).1
              (by omega))).symm
      · -- at least two lines remain: peel line k, recurse on lines below
        obtain ⟨n', rfl⟩ : ∃ n', n = n' + 1 := ⟨n - 1, by omega⟩
        obtain ⟨k2, rfl⟩ : ∃ k2, k = k2 + 1 := ⟨k - 1, by omega⟩
        have hidx : (k2 + 1 + 1) * stride + (m + 1) * offset - (m + 2 - 1) * offset
            - stride + offset + (m + 2 - 1 - 1) * offset
            = (k2 + 1) * stride + (m + 1) * offset := by
          rw [show (m + 2 - 1 - 1 : Nat) = m from rfl, show (m + 2 - 1 : Nat) = m + 1 from rfl,
            show (k2 + 1 + 1) * stride = (k2 + 1) * stride + stride from by ring]
          rw [show ((m + 1) * offset : Nat) = m * offset + offset from by ring]
          generalize (k2 + 1) * stride = A
          generalize m * offset = C
          omega
        obtain ⟨hL, hU, hV⟩ := lineOnce_spec energy offset stride m hoff (k2 + 1) res hlen
          (fun s hs => hcell (k2 + 1) s (by omega) hs)
          (fun a s' ha hs' hcon =>
            absurd (hinj (k2 + 1 + 1) (k2 + 1) a s' (le_refl _) (by omega) ha hs' hcon).1
              (by omega))
        obtain ⟨hIL, hIU, hIV⟩ := IH k2
          (lineLoop energy offset stride (m + 2) 1
            ((k2 + 1 + 1) * stride + (m + 1) * offset) res)
          (by omega) (hL.trans hlen)
          (fun a s ha hs => hcell a s (by omega) hs)
          (fun a a' s s' ha ha' hs hs' => hinj a a' s s' (by omega) (by omega) hs hs')
        refine ⟨?_, ?_, ?_⟩
        · rw [lineLoop_succ, hidx]
          exact hIL.trans hL
        · intro j hj
          rw [lineLoop_succ, hidx]
          rw [hIU j (fun a s ha1 ha2 hs => hj a s (by omega) (by omega) hs)]
          exact hU j (fun s hs => hj (k2 + 1) s (by omega) (by omega) hs)
        · intro a s ha1 ha2 hs
          rw [lineLoop_succ, hidx]
          rcases Nat.lt_or_ge a (k2 + 1) with hak | hak
          · exact hIV a s (by omega) (by omega) hs
          · have hak2 : a = k2 + 1 := by omega
            subst hak2
            rw [hIU ((k2 + 1) * stride + s * offset) (fun a' s' ha1' ha2' hs' hcon =>
              absurd (hinj (k2 + 1) a' s s' (by omega) (by omega) hs hs' hcon).1 (by omega))]
            rw [hV s hs]
            congr 1
            refine minNbr_congr res _ offset stride (m + 2) (k2 + 1) s (by omega) hs ?_
            intro u hu
            have hr1 := hU ((k2 + 1 + 1) * stride + u * offset) (fun s' hs' hcon =>
              absurd (hinj (k2 + 1 + 1) (k2 + 1) u s' (by omega) (by omega) hu hs' hcon).1
                (by omega))
            have hr2 := hIU ((k2 + 1 + 1) * stride + u * offset)
              (fun a' s' ha1' ha2' hs' hcon =>
                absurd (hinj (k2 + 1 + 1) a' u s' (by omega) (by omega) hu hs' hcon).1
                  (by omega))
            exact (hr1.symm.trans hr2.symm)

theorem build_generic (energy : List ℚ) (outer inner stride offset : Nat)
    (hoff : 1 ≤ offset) (hout : 1 ≤ outer) (hin : 2 ≤ inner)
    (hcell : ∀ a s, a < outer → s < inner → a * stride + s * offset < energy.length)
    (hinj : ∀ a a' s s', a < outer → a' < outer → s < inner → s' < inner →
      a * stride + s * offset = a' * stride + s' * offset → a = a' ∧ s = s') :
    (lineLoop energy offset stride inner (outer - 1)
        ((outer - 1) * stride + inner * offset - offset)
        (farCopy energy offset inner ((outer - 1) * stride)
          (List.replicate energy.length 0))).length = energy.length
    ∧ (∀ s, s < inner →
        (lineLoop energy offset stride inner (outer - 1)
          ((outer - 1) * stride + inner * offset - offset)
          (farCopy energy offset inner ((outer - 1) * stride)
            (List.replicate energy.length 0))).getD ((outer - 1) * stride + s * offset) 0
          = energy.getD ((outer - 1) * stride + s * offset) 0)
    ∧ (∀ a s, a < outer - 1 → s < inner →
        (lineLoop energy offset stride inner (outer - 1)
          ((outer - 1) * stride + inner * offset - offset)
          (farCopy energy offset inner ((outer - 1) * stride)
            (List.replicate energy.length 0))).getD (a * stride + s * offset) 0
          = energy.getD (a * stride + s * offset) 0
            + minNbr (lineLoop energy offset stride inner (outer - 1)
                ((outer - 1) * stride + inner * offset - offset)
                (farCopy energy offset inner ((outer - 1) * stride)
                  (List.replicate energy.length 0))) offset stride inner a s) := by
  obtain ⟨m, rfl⟩ : ∃ m, inner = m + 2 := ⟨inner - 2, by omega⟩
  rcases Nat.lt_or_ge outer 2 with h1 | h2
  · -- a single line: the whole result is the far-boundary copy
    have hone : outer = 1 := by omega
    subst hone
    simp only [show (1 - 1 : Nat) = 0 from rfl]
    refine ⟨?_, ?_, ?_⟩
    · show (farCopy energy offset (m + 2) (0 * stride) (List.replicate energy.length 0)).length
        = energy.length
      rw [farCopy_length, List.length_replicate]
    · intro s hs
      show (farCopy energy offset (m + 2) (0 * stride)
          (List.replicate energy.length 0)).getD (0 * stride + s * offset) 0
        = energy.getD (0 * stride + s * offset) 0
      exact farCopy_getD_hit energy offset hoff (m + 2) (0 * stride) _ s hs
        (by rw [List.length_replicate]; exact hcell 0 s (by omega) hs)
    · intro a s ha hs
      exact absurd ha (by omega)
  · obtain ⟨K2, rfl⟩ : ∃ K2, outer = K2 + 2 := ⟨outer - 2, by omega⟩
    simp only [show (K2 + 2 - 1 : Nat) = K2 + 1 from rfl]
    have hidx : (K2 + 1) * stride + (m + 2) * offset - offset
        = (K2 + 1) * stride + (m + 1) * offset := by
      rw [show ((m + 2) * offset : Nat) = (m + 1) * offset + offset from by ring]
      generalize (K2 + 1) * stride = A
      omega
    rw [hidx]
    have hlenF : (farCopy energy offset (m + 2) ((K2 + 1) * stride)
        (List.replicate energy.length 0)).length = energy.length := by
      rw [farCopy_length, List.length_replicate]
    obtain ⟨hL, hU, hV⟩ := lineLoop_spec energy offset stride m hoff (K2 + 1) K2
      (farCopy energy offset (m + 2) ((K2 + 1) * stride) (List.replicate energy.length 0))
      (by omega) hlenF
      (fun a s ha hs => hcell a s (by omega) hs)
      (fun a a' s s' ha ha' hs hs' => hinj a a' s s' (by omega) (by omega) hs hs')
    refine ⟨hL.trans hlenF, ?_, ?_⟩
    · intro s hs
      rw [hU ((K2 + 1) * stride + s * offset) (fun a s' ha1 ha2 hs' hcon =>
        absurd (hinj (K2 + 1) a s s' (by omega) (by omega) hs hs' hcon).1 (by omega))]
      exact farCopy_getD_hit energy offset hoff (m + 2) ((K2 + 1) * stride) _ s hs
        (by rw [List.length_replicate]; exact hcell (K2 + 1) s (by omega) hs)
    · intro a s ha hs
      exact hV a s (by omega) (by omega) hs

/-- The DP characterization of `build_cost_matrix` claimed by the spec:
the cost buffer has the energy buffer's length, the far-boundary line is
copied from the energy buffer verbatim, and every other cell equals its
energy plus the minimum over its existing far-side neighbours. -/
def costMatrixDP (energy : List ℚ) (width height : Nat) (dir : Direction) : Prop :=
  (build_cost_matrix energy width height dir).length = energy.length
  ∧ (∀ s, s < (MapState.from_dir width height dir).inner →
      (build_cost_matrix energy width height dir).getD
          (cellIdx (MapState.from_dir width height dir)
            ((MapState.from_dir width height dir).outer - 1) s) 0
        = energy.getD (cellIdx (MapState.from_dir width height dir)
            ((MapState.from_dir width height dir).outer - 1) s) 0)
  ∧ (∀ k s, k < (MapState.from_dir width height dir).outer - 1 →
      s < (MapState.from_dir width height dir).inner →
      (build_cost_matrix energy width height dir).getD
          (cellIdx (MapState.from_dir width height dir) k s) 0
        = energy.getD (cellIdx (MapState.from_dir width height dir) k s) 0
          + minNbr (build_cost_matrix energy width height dir)
              (MapState.from_dir width height dir).offset
              (MapState.from_dir width height dir).stride
              (MapState.from_dir width height dir).inner k s)

/-- C1: for every energy buffer matching the image dimensions and either
`Direction`, as long as the secondary dimension holds at least two cells
and the primary dimension at least one line (the amendment: with a single
secondary cell the source indexes `res[e_idx + offset]` past the end of
the buffer and panics), `build_cost_matrix` satisfies the claimed DP
characterization: the far-boundary line equals the energy line verbatim
and every other cell equals its energy plus the minimum of its at-most
three far-side neighbours' costs. -/
theorem C1_cost_matrix_dp (energy : List ℚ) (width height : Nat) (dir : Direction)
    (hlen : energy.length = width * height)
    (hin : 2 ≤ (MapState.from_dir width height dir).inner)
    (hout : 1 ≤ (MapState.from_dir width height dir).outer) :
    costMatrixDP energy width height dir := by
  cases dir
  · -- Row: outer = height, inner = width, stride = width, offset = 1
    simp only [MapState.from_dir] at hin hout
    have hcell : ∀ a s, a < height → s < width → a * width + s * 1 < energy.length := by
      intro a s ha hs
      rw [hlen]
      calc a * width + s * 1 = a * width + s := by ring
        _ < a * width + width := by omega
        _ = (a + 1) * width := by ring
        _ ≤ height * width := Nat.mul_le_mul_right width ha
        _ = width * height := by ring
    have hinj : ∀ a a' s s', a < height → a' < height → s < width → s' < width →
        a * width + s * 1 = a' * width + s' * 1 → a = a' ∧ s = s' := by
      intro a a' s s' ha ha' hs hs' heq
      rw [mul_one, mul_one] at heq
      have hss : s = s' := by
        have h1 := congrArg (fun x => x % width) heq
        simp only at h1
        rw [Nat.add_comm (a * width) s, Nat.add_comm (a' * width) s',
          Nat.add_mul_mod_self_right, Nat.add_mul_mod_self_right,
          Nat.mod_eq_of_lt hs, Nat.mod_eq_of_lt hs'] at h1
        exact h1
      subst hss
      refine ⟨?_, rfl⟩
      exact Nat.eq_of_mul_eq_mul_right (by omega)
        (show a * width = a' * width from by omega)
    simp only [costMatrixDP, build_cost_matrix, MapState.from_dir, cellIdx]
    exact build_generic energy height width width 1 (by omega) hout hin hcell hinj
  · -- Column: outer = width, inner = height, stride = 1, offset = width
    simp only [MapState.from_dir] at hin hout
    have hcell : ∀ a s, a < width → s < height → a * 1 + s * width < energy.length := by
      intro a s ha hs
      rw [hlen]
      calc a * 1 + s * width = s * width + a := by ring
        _ < s * width + width := by omega
        _ = (s + 1) * width := by ring
        _ ≤ height * width := Nat.mul_le_mul_right width hs
        _ = width * height := by ring
    have hinj : ∀ a a' s s', a < width → a' < width → s < height → s' < height →
        a * 1 + s * width = a' * 1 + s' * width → a = a' ∧ s = s' := by
      intro a a' s s' ha ha' hs hs' heq
      rw [mul_one, mul_one] at heq
      have haa : a = a' := by
        have h1 := congrArg (fun x => x % width) heq
        simp only at h1
        rw [Nat.add_mul_mod_self_right, Nat.add_mul_mod_self_right,
          Nat.mod_eq_of_lt ha, Nat.mod_eq_of_lt ha'] at h1
        exact h1
      subst haa
      refine ⟨rfl, ?_⟩
      exact Nat.eq_of_mul_eq_mul_right (by omega)
        (show s * width = s' * width from by omega)
    simp only [costMatrixDP, build_cost_matrix, MapState.from_dir, cellIdx]
    exact build_generic energy width height 1 width hout hout hin hcell hinj

/-- C1 counterexample to the unrestricted claim: a one-cell-wide `Row`
traversal (`width = 1`).  Cell 0 has exactly one far-side neighbour, cell
1 with cost 3, so the claimed characterization demands `5 + 3 = 8`; the
source instead reads `res[2]` out of bounds (a panic in Rust; the
modelled read yields the default 0) and the produced value stays `5`. -/
theorem C1_dp_counterexample :
    (build_cost_matrix [(5 : ℚ), 3] 1 2 Direction.Row).getD 0 0
      ≠ ([(5 : ℚ), 3]).getD 0 0
        + (build_cost_matrix [(5 : ℚ), 3] 1 2 Direction.Row).getD 1 0 := by
  norm_num [build_cost_matrix, MapState.from_dir, farCopy, lineLoop, innerCells, min2, min3]

/-- C1 witness: a concrete 2-by-2 `Row` instance of the amended claim. -/
theorem C1_cost_matrix_dp_witness :
    ([(1 : ℚ), 2, 3, 4] : List ℚ).length = 2 * 2
    ∧ 2 ≤ (MapState.from_dir 2 2 Direction.Row).inner
    ∧ 1 ≤ (MapState.from_dir 2 2 Direction.Row).outer
    ∧ costMatrixDP [(1 : ℚ), 2, 3, 4] 2 2 Direction.Row :=
  ⟨by norm_num, by norm_num [MapState.from_dir], by norm_num [MapState.from_dir],
    C1_cost_matrix_dp [(1 : ℚ), 2, 3, 4] 2 2 Direction.Row (by norm_num)
      (by norm_num [MapState.from_dir]) (by norm_num [MapState.from_dir])⟩


/-! ## Seam-removal compaction (C2) -/

theorem slice_eq_map {α : Type} [Inhabited α] (img : List α) (P n : Nat)
    (h : P + n ≤ img.length) :
    (img.drop P).take n = (List.range n).map (fun i => img.getD (P + i) default) := by
  apply List.ext_getElem
  · simp
    omega
  · intro i h1 h2
    have hi : i < n := by simp at h2; omega
    rw [List.getElem_take, List.getElem_drop, List.getElem_map, List.getElem_range,
      List.getD_eq_getElem img default (by omega)]

theorem copyRange_length {α : Type} [Inhabited α] (inc : Nat) :
    ∀ (n a : Nat) (img : List α), (copyRange inc a n img).length = img.length := by
  intro n
  induction n with
  | zero => intro a img; rfl
  | succ n ih => intro a img; rw [copyRange, ih, List.length_set]

theorem copyRange_getD_ne {α : Type} [Inhabited α] (inc : Nat) :
    ∀ (n a : Nat) (img : List α) (j : Nat), j < a ∨ a + n ≤ j →
      (copyRange inc a n img).getD j default = img.getD j default := by
  intro n
  induction n with
  | zero => intro a img j _; rfl
  | succ n ih =>
      intro a img j hj
      rw [copyRange, ih (a + 1) _ j (by omega)]
      exact getD_set_ne _ _ _ (by omega)

theorem copyRange_getD_hit {α : Type} [Inhabited α] (inc : Nat) :
    ∀ (n a : Nat) (img : List α) (j : Nat), a ≤ j → j < a + n →
      (copyRange inc a n img).getD j default = img.getD (j + inc) default := by
  intro n
  induction n with
  | zero => intro a img j h1 h2; omega
  | succ n ih =>
      intro a img j h1 h2
      rcases Nat.eq_or_lt_of_le h1 with rfl | hlt
      · rw [copyRange, copyRange_getD_ne inc n (a + 1) _ a (by omega)]
        rcases Nat.lt_or_ge a img.length with hin | hout
        · exact getD_set_self _ _ _ _ hin
        · rw [List.set_eq_of_length_le hout, List.getD_eq_default _ _ hout,
            List.getD_eq_default _ _ (by omega)]
      · rw [copyRange, ih (a + 1) _ j hlt (by omega)]
        exact getD_set_ne _ _ _ (by omega)

theorem copyRange_run {α : Type} [Inhabited α] (inc : Nat) :
    ∀ (n a : Nat) (img : List α), a + n ≤ img.length →
      copyRange inc a n img
        = img.take a ++ (List.range n).map (fun t => img.getD (a + t + inc) default)
          ++ img.drop (a + n) := by
  intro n
  induction n with
  | zero =>
      intro a img h
      show img = _
      rw [List.range_zero, List.map_nil, List.append_nil, Nat.add_zero,
        List.take_append_drop]
  | succ n ih =>
      intro a img h
      have hin : a < img.length := by omega
      rw [copyRange, ih (a + 1) _ (by rw [List.length_set]; omega)]
      have h1 : (img.set a (img.getD (a + inc) default)).take (a + 1)
          = img.take a ++ [img.getD (a + inc) default] := by
        rw [List.set_eq_take_append_cons_drop, if_pos hin]
        have hA : (img.take a).length = a := by
          rw [List.length_take]
          omega
        rw [show a + 1 = (img.take a).length + 1 from by rw [hA]]
        rw [List.take_append]
        rfl
      have h2 : (fun t => (img.set a (img.getD (a + inc) default)).getD (a + 1 + t + inc) default)
          = fun t => img.getD (a + 1 + t + inc) default :=
        funext (fun t => getD_set_ne _ _ _ (by omega))
      have h3 : (img.set a (img.getD (a + inc) default)).drop (a + 1 + n)
          = img.drop (a + 1 + n) := by
        apply List.drop_set_of_lt
        omega
      rw [h1, h2, h3]
      rw [List.range_succ_eq_map, List.map_cons, List.map_map]
      rw [show (a + 0 + inc) = a + inc from by omega]
      have h4 : ((fun t => img.getD (a + t + inc) default) ∘ Nat.succ)
          = fun t => img.getD (a + 1 + t + inc) default := by
        funext t
        simp only [Function.comp]
        rw [show a + Nat.succ t + inc = a + 1 + t + inc from by omega]
      rw [h4, show a + (n + 1) = a + 1 + n from by omega]
      simp [List.append_assoc]

/-- The spec's description of row-direction seam removal: keep, in order,
the `C`-wide sample group of every listed group index. -/
def keepGroups {α : Type} [Inhabited α] (img : List α) (C : Nat) : List Nat → List α
  | [] => []
  | g :: gs => (List.range C).map (fun i => img.getD (g * C + i) default) ++ keepGroups img C gs

/-- The ascending group indices in `[b, G)` that survive when the listed
(ascending) groups are removed. -/
def survivors (G : Nat) : Nat → List Nat → List Nat
  | b, [] => List.range' b (G - b)
  | b, q :: rest => List.range' b (q - b) ++ survivors G (q + 1) rest

theorem keepGroups_length {α : Type} [Inhabited α] (img : List α) (C : Nat) :
    ∀ gs : List Nat, (keepGroups img C gs).length = gs.length * C := by
  intro gs
  induction gs with
  | nil => simp [keepGroups]
  | cons g gs ih =>
      rw [keepGroups, List.length_append, List.length_map, List.length_range, ih,
        List.length_cons]
      ring

theorem keepGroups_append {α : Type} [Inhabited α] (img : List α) (C : Nat) :
    ∀ gs1 gs2 : List Nat,
      keepGroups img C (gs1 ++ gs2) = keepGroups img C gs1 ++ keepGroups img C gs2 := by
  intro gs1 gs2
  induction gs1 with
  | nil => rfl
  | cons g gs ih => rw [List.cons_append, keepGroups, keepGroups, ih, List.append_assoc]

theorem keepGroups_congr {α : Type} [Inhabited α] (img img2 : List α) (C : Nat) :
    ∀ gs : List Nat,
      (∀ g ∈ gs, ∀ i, i < C → img.getD (g * C + i) default = img2.getD (g * C + i) default) →
      keepGroups img C gs = keepGroups img2 C gs := by
  intro gs
  induction gs with
  | nil => intro _; rfl
  | cons g gs ih =>
      intro h
      rw [keepGroups, keepGroups, ih (fun g' hg' i hi => h g' (List.mem_cons_of_mem g hg') i hi)]
      congr 1
      exact List.map_congr_left (fun i hi =>
        h g (List.mem_cons_self g gs) i (List.mem_range.mp hi))

theorem keep_contig {α : Type} [Inhabited α] (img : List α) (C : Nat) :
    ∀ (n b : Nat), (b + n) * C ≤ img.length →
      keepGroups img C (List.range' b n) = (img.drop (b * C)).take (n * C) := by
  intro n
  induction n with
  | zero =>
      intro b _
      rw [show (0 * C : Nat) = 0 from by ring, List.take_zero]
      rfl
  | succ n ih =>
      intro b h
      show keepGroups img C (b :: List.range' (b + 1) n) = _
      rw [keepGroups, ih (b + 1) (by
        calc (b + 1 + n) * C = (b + (n + 1)) * C := by ring
          _ ≤ img.length := h)]
      rw [show ((n + 1) * C : Nat) = C + n * C from by ring, List.take_add, List.drop_drop,
        show (b * C + C : Nat) = (b + 1) * C from by ring]
      congr 1
      rw [slice_eq_map img (b * C) C (by
        calc b * C + C = (b + 1) * C := by ring
          _ ≤ (b + (n + 1)) * C := Nat.mul_le_mul_right C (by omega)
          _ ≤ img.length := h)]

theorem pairwise_lt_add_length_le (G : Nat) :
    ∀ (l : List Nat) (lo : Nat), List.Pairwise (· < ·) l → (∀ r ∈ l, r < G) →
      (∀ r ∈ l, lo ≤ r) → l ≠ [] → lo + l.length ≤ G := by
  intro l
  induction l with
  | nil => intro lo _ _ _ hne; exact absurd rfl hne
  | cons q rest ih =>
      intro lo hp hub hlo _
      obtain ⟨hq, hp'⟩ := List.pairwise_cons.mp hp
      have h1 := hlo q (List.mem_cons_self q rest)
      have h2 := hub q (List.mem_cons_self q rest)
      by_cases hr : rest = []
      · subst hr
        simp only [List.length_cons, List.length_nil]
        omega
      · have h3 := ih (q + 1) hp' (fun r hrr => hub r (List.mem_cons_of_mem q hrr))
          (fun r hrr => hq r hrr) hr
        simp only [List.length_cons]
        omega

theorem survivors_length (G : Nat) :
    ∀ (l : List Nat) (b : Nat), List.Pairwise (· < ·) l → (∀ q ∈ l, q < G) →
      (∀ q ∈ l, b ≤ q) → b ≤ G →
      (survivors G b l).length = G - b - l.length := by
  intro l
  induction l with
  | nil =>
      intro b _ _ _ _
      show (List.range' b (G - b)).length = G - b - 0
      simp
  | cons q rest ih =>
      intro b hp hub hlo hbG
      obtain ⟨hq, hp'⟩ := List.pairwise_cons.mp hp
      have h1 := hlo q (List.mem_cons_self q rest)
      have h2 := hub q (List.mem_cons_self q rest)
      have hcnt : q + 1 + rest.length ≤ G := by
        by_cases hr : rest = []
        · subst hr
          simp only [List.length_nil]
          omega
        · have := pairwise_lt_add_length_le G (q :: rest) q hp hub
            (fun r hrr => by
              rcases List.mem_cons.mp hrr with h | h
              · omega
              · exact Nat.le_of_lt (hq r h))
            (by simp)
          simp only [List.length_cons] at this
          omega
      show (List.range' b (q - b) ++ survivors G (q + 1) rest).length = _
      rw [List.length_append, ih (q + 1) hp' (fun r hrr => hub r (List.mem_cons_of_mem q hrr))
        (fun r hrr => hq r hrr) (by omega)]
      simp only [List.length_range', List.length_cons]
      omega

theorem survivors_mem_lb (G : Nat) :
    ∀ (l : List Nat) (b g : Nat), List.Pairwise (· < ·) l → (∀ q ∈ l, b ≤ q) →
      g ∈ survivors G b l → b ≤ g := by
  intro l
  induction l with
  | nil =>
      intro b g _ _ hg
      exact (List.mem_range'_1.mp hg).1
  | cons q rest ih =>
      intro b g hp hlo hg
      obtain ⟨hq, hp'⟩ := List.pairwise_cons.mp hp
      rcases List.mem_append.mp hg with hm | hm
      · exact (List.mem_range'_1.mp hm).1
      · have h1 := hlo q (List.mem_cons_self q rest)
        have h2 := ih (q + 1) g hp' (fun r hrr => hq r hrr) hm
        omega

theorem survivors_eq_filter (G : Nat) :
    ∀ (l : List Nat) (b : Nat), List.Pairwise (· < ·) l → (∀ q ∈ l, q < G) →
      (∀ q ∈ l, b ≤ q) → b ≤ G →
      survivors G b l = (List.range' b (G - b)).filter (fun g => decide (¬ g ∈ l)) := by
  intro l
  induction l with
  | nil =>
      intro b _ _ _ _
      show List.range' b (G - b) = _
      symm
      apply List.filter_eq_self.mpr
      intro a _
      simp
  | cons q rest ih =>
      intro b hp hub hlo hbG
      obtain ⟨hq, hp'⟩ := List.pairwise_cons.mp hp
      have h1 := hlo q (List.mem_cons_self q rest)
      have h2 := hub q (List.mem_cons_self q rest)
      have hsplit : List.range' b (G - b) = List.range' b (q - b) ++ List.range' q (G - q) := by
        have := List.range'_append b (q - b) (G - q) 1
        rw [show (b + 1 * (q - b) : Nat) = q from by omega] at this
        rw [show (G - b : Nat) = G - q + (q - b) from by omega]
        exact this.symm
      rw [hsplit, List.filter_append]
      show List.range' b (q - b) ++ survivors G (q + 1) rest = _
      congr 1
      · symm
        apply List.filter_eq_self.mpr
        intro a ha
        have hab := List.mem_range'_1.mp ha
        simp only [decide_eq_true_eq]
        intro hmem
        rcases List.mem_cons.mp hmem with h | h
        · omega
        · have := hq a h
          omega
      · have hGq : G - q = (G - q - 1) + 1 := by omega
        rw [hGq, show List.range' q (G - q - 1 + 1) = q :: List.range' (q + 1) (G - q - 1)
          from rfl]
        rw [List.filter_cons, if_neg (by simp)]
        rw [List.filter_congr (fun a ha => by
          have hab := List.mem_range'_1.mp ha
          show (decide (¬ a ∈ q :: rest)) = (decide (¬ a ∈ rest))
          simp only [List.mem_cons, decide_eq_decide]
          constructor
          · intro hcon hm
            exact hcon (Or.inr hm)
          · intro hcon hm
            rcases hm with h | h
            · omega
            · exact hcon h)]
        rw [ih (q + 1) hp' (fun r hrr => hub r (List.mem_cons_of_mem q hrr))
          (fun r hrr => hq r hrr) (by omega)]
        rw [show (G - (q + 1) : Nat) = G - q - 1 from by omega]

theorem rowLoop_spec {α : Type} [Inhabited α] (C G : Nat) :
    ∀ (rest : List Nat) (b idx inc newLen : Nat) (img : List α),
      img.length = G * C →
      idx + inc = b * C →
      List.Pairwise (· < ·) rest →
      (∀ q ∈ rest, b ≤ q) →
      (∀ q ∈ rest, q < G) →
      b ≤ G →
      newLen = idx + (G - b - rest.length) * C →
      rowLoop C newLen rest idx inc img
        = img.take idx ++ keepGroups img C (survivors G b rest) ++ img.drop newLen := by
  intro rest
  induction rest with
  | nil =>
      intro b idx inc newLen img hlen hbc _ _ _ hbG hnl
      simp only [List.length_nil, Nat.sub_zero] at hnl
      have hGbC : (G - b) * C = G * C - b * C := Nat.sub_mul G b C
      have hbCle : b * C ≤ G * C := Nat.mul_le_mul_right C hbG
      have hidxle : idx ≤ newLen := by omega
      have hnewle : newLen ≤ img.length := by rw [hlen]; omega
      rw [rowLoop, copyRange_run inc (newLen - idx) idx img (by omega)]
      rw [show idx + (newLen - idx) = newLen from by omega]
      have hX : (List.range (newLen - idx)).map (fun t => img.getD (idx + t + inc) default)
          = keepGroups img C (survivors G b []) := by
        rw [show survivors G b [] = List.range' b (G - b) from rfl]
        rw [keep_contig img C (G - b) b (by
          rw [show ((b + (G - b)) * C : Nat) = b * C + (G - b) * C from by ring, hlen]
          omega)]
        rw [slice_eq_map img (b * C) ((G - b) * C) (by rw [hlen]; omega)]
        rw [show newLen - idx = (G - b) * C from by omega]
        apply List.map_congr_left
        intro t _
        rw [show idx + t + inc = b * C + t from by omega]
      rw [hX]
  | cons q rest ih =>
      intro b idx inc newLen img hlen hbc hp hlo hub hbG hnl
      obtain ⟨hq, hp'⟩ := List.pairwise_cons.mp hp
      have h1 := hlo q (List.mem_cons_self q rest)
      have h2 := hub q (List.mem_cons_self q rest)
      have hbq : b * C ≤ q * C := Nat.mul_le_mul_right C h1
      have hqG : q * C ≤ G * C := Nat.mul_le_mul_right C (Nat.le_of_lt h2)
      have hq1G : (q + 1) * C ≤ G * C := Nat.mul_le_mul_right C h2
      have hq1C : ((q + 1) * C : Nat) = q * C + C := by ring
      have hcnt : q + 1 + rest.length ≤ G := by
        by_cases hr : rest = []
        · subst hr
          simp only [List.length_nil]
          omega
        · have := pairwise_lt_add_length_le G (q :: rest) q hp hub
            (fun r hrr => by
              rcases List.mem_cons.mp hrr with h | h
              · omega
              · exact Nat.le_of_lt (hq r h))
            (by simp)
          simp only [List.length_cons] at this
          omega
      have hcntC : (q + 1 + rest.length) * C ≤ G * C := Nat.mul_le_mul_right C hcnt
      have hcntC' : ((q + 1 + rest.length) * C : Nat) = q * C + C + rest.length * C := by ring
      have hqbC : (q - b) * C = q * C - b * C := Nat.sub_mul q b C
      have hd : q * C - inc = idx + (q - b) * C := by omega
      -- the remaining-to-keep count after this line
      have hsubC : (G - b - (q :: rest).length) * C
          = (q - b) * C + (G - (q + 1) - rest.length) * C := by
        simp only [List.length_cons]
        rw [Nat.sub_mul, Nat.sub_mul, Nat.sub_mul, Nat.sub_mul, Nat.sub_mul,
          Nat.add_mul, Nat.one_mul]
        omega
      have hnl' : newLen = (q * C - inc) + (G - (q + 1) - rest.length) * C := by
        rw [hd, hnl, hsubC]
        omega
      rw [rowLoop]
      rw [ih (q + 1) (q * C - inc) (inc + C)  newLen
        (copyRange inc idx (q * C - inc - idx) img)
        (by rw [copyRange_length, hlen])
        (by omega)
        hp'
        (fun r hrr => hq r hrr)
        (fun r hrr => hub r (List.mem_cons_of_mem q hrr))
        (by omega)
        hnl']
      have hdle : q * C - inc ≤ img.length := by rw [hlen]; omega
      have hidxd : idx ≤ q * C - inc := by omega
      have hrun := copyRange_run inc (q * C - inc - idx) idx img (by omega)
      rw [show idx + (q * C - inc - idx) = q * C - inc from by omega] at hrun
      have hA : (img.take idx).length = idx := by
        rw [List.length_take]
        rw [hlen]
        omega
      have hM : ((List.range (q * C - inc - idx)).map
          (fun t => img.getD (idx + t + inc) default)).length = q * C - inc - idx := by
        simp
      -- the written prefix of the intermediate buffer
      have hPlen : (img.take idx ++ (List.range (q * C - inc - idx)).map
          (fun t => img.getD (idx + t + inc) default)).length = q * C - inc := by
        rw [List.length_append, hA, hM]
        omega
      have htake : (copyRange inc idx (q * C - inc - idx) img).take (q * C - inc)
          = img.take idx ++ (List.range (q * C - inc - idx)).map
              (fun t => img.getD (idx + t + inc) default) := by
        rw [hrun]
        exact List.take_left' hPlen
      have hnld : q * C - inc ≤ newLen := by
        rw [hnl']
        omega
      have hdrop : (copyRange inc idx (q * C - inc - idx) img).drop newLen
          = img.drop newLen := by
        rw [hrun]
        nth_rewrite 1 [show newLen = ((img.take idx ++ (List.range (q * C - inc - idx)).map
          (fun t => img.getD (idx + t + inc) default)).length) + (newLen - (q * C - inc)) from by
            rw [List.length_append, hA, hM]
            omega]
        rw [List.drop_append, List.drop_drop]
        rw [show q * C - inc + (newLen - (q * C - inc)) = newLen from by omega]
      have hkeep : keepGroups (copyRange inc idx (q * C - inc - idx) img) C
          (survivors G (q + 1) rest) = keepGroups img C (survivors G (q + 1) rest) := by
        apply keepGroups_congr
        intro g hg i hi
        have hgb := survivors_mem_lb G rest (q + 1) g hp' (fun r hrr => hq r hrr) hg
        have hgC : (q + 1) * C ≤ g * C := Nat.mul_le_mul_right C hgb
        apply copyRange_getD_ne
        right
        omega
      have hB : (List.range (q * C - inc - idx)).map (fun t => img.getD (idx + t + inc) default)
          = keepGroups img C (List.range' b (q - b)) := by
        rw [keep_contig img C (q - b) b (by
          rw [show ((b + (q - b)) * C : Nat) = b * C + (q - b) * C from by ring, hlen]
          omega)]
        rw [slice_eq_map img (b * C) ((q - b) * C) (by rw [hlen]; omega)]
        rw [show q * C - inc - idx = (q - b) * C from by omega]
        apply List.map_congr_left
        intro t _
        rw [show idx + t + inc = b * C + t from by omega]
      rw [htake, hdrop, hkeep, hB]
      rw [show survivors G b (q :: rest)
        = List.range' b (q - b) ++ survivors G (q + 1) rest from rfl]
      rw [keepGroups_append]
      simp [List.append_assoc]

theorem remove_row_keeps {α : Type} [Inhabited α] (img : List α) (path : List Nat) (C G : Nat)
    (hlen : img.length = G * C)
    (hne : path ≠ [])
    (hnd : path.Nodup)
    (hub : ∀ p ∈ path, p < G) :
    remove_path_from_image_dir_row img path C
      = some (keepGroups img C ((List.range G).filter (fun g => decide (¬ g ∈ path))))
    ∧ (keepGroups img C ((List.range G).filter (fun g => decide (¬ g ∈ path)))).length
      = img.length - path.length * C := by
  have hperm : List.Perm (path.mergeSort (fun a b => decide (a ≤ b))) path :=
    List.mergeSort_perm path _
  have hsorted : List.Pairwise (fun a b => (decide (a ≤ b)) = true)
      (path.mergeSort (fun a b => decide (a ≤ b))) := by
    apply List.sorted_mergeSort
    · intro a b c hab hbc
      simp only [decide_eq_true_eq] at hab hbc ⊢
      omega
    · intro a b
      rcases Nat.le_total a b with h | h
      · simp [h]
      · simp [h]
  have hnd2 : (path.mergeSort (fun a b => decide (a ≤ b))).Nodup :=
    (List.Perm.nodup_iff hperm).mpr hnd
  have hlt : List.Pairwise (· < ·) (path.mergeSort (fun a b => decide (a ≤ b))) := by
    have hcomb := List.Pairwise.and hsorted hnd2
    exact hcomb.imp (fun h => by
      obtain ⟨h1, h2⟩ := h
      simp only [decide_eq_true_eq] at h1
      omega)
  have hub2 : ∀ p ∈ path.mergeSort (fun a b => decide (a ≤ b)), p < G :=
    fun p hp => hub p (hperm.mem_iff.mp hp)
  have hlenp : (path.mergeSort (fun a b => decide (a ≤ b))).length = path.length :=
    hperm.length_eq
  have hmemiff : ∀ g, (g ∈ path.mergeSort (fun a b => decide (a ≤ b))) ↔ g ∈ path :=
    fun g => hperm.mem_iff
  cases hms : path.mergeSort (fun a b => decide (a ≤ b)) with
  | nil =>
      rw [hms] at hperm
      exact absurd hperm.symm.eq_nil hne
  | cons p rest =>
      rw [hms] at hlt hub2 hlenp hmemiff
      obtain ⟨hq, hp'⟩ := List.pairwise_cons.mp hlt
      have h2 := hub2 p (List.mem_cons_self p rest)
      have hcnt : p + 1 + rest.length ≤ G := by
        by_cases hr : rest = []
        · subst hr
          simp only [List.length_nil]
          omega
        · have := pairwise_lt_add_length_le G (p :: rest) p hlt hub2
            (fun r hrr => by
              rcases List.mem_cons.mp hrr with h | h
              · omega
              · exact Nat.le_of_lt (hq r h))
            (by simp)
          simp only [List.length_cons] at this
          omega
      have hsurvlen : (survivors G (p + 1) rest).length = G - (p + 1) - rest.length :=
        survivors_length G rest (p + 1) hp' (fun r hrr => hub2 r (List.mem_cons_of_mem p hrr))
          (fun r hrr => hq r hrr) (by omega)
      have hcntC : (p + 1 + rest.length) * C ≤ G * C := Nat.mul_le_mul_right C hcnt
      have hcntC' : ((p + 1 + rest.length) * C : Nat) = p * C + C + rest.length * C := by ring
      have hLC : (G - (p + 1) - rest.length) * C
          = G * C - p * C - C - rest.length * C := by
        rw [Nat.sub_mul, Nat.sub_mul, Nat.add_mul, Nat.one_mul]
        omega
      have hnewlen : img.length - path.length * C
          = p * C + (G - (p + 1) - rest.length) * C := by
        rw [hlen, ← hlenp]
        simp only [List.length_cons]
        rw [Nat.add_mul, Nat.one_mul, hLC]
        omega
      have hfilter : survivors G 0 (p :: rest)
          = (List.range G).filter (fun g => decide (¬ g ∈ path)) := by
        rw [survivors_eq_filter G (p :: rest) 0 hlt hub2 (fun q _ => Nat.zero_le q)
          (Nat.zero_le G)]
        rw [Nat.sub_zero, ← List.range_eq_range']
        exact List.filter_congr (fun g _ => decide_eq_decide.mpr (by rw [hmemiff g]))
      have hrun := rowLoop_spec C G rest (p + 1) (p * C) C (img.length - path.length * C) img
        hlen (by ring) hp' (fun r hrr => hq r hrr)
        (fun r hrr => hub2 r (List.mem_cons_of_mem p hrr)) (by omega)
        (by rw [hnewlen])
      have hkeepfull : img.take (p * C) ++ keepGroups img C (survivors G (p + 1) rest)
          = keepGroups img C ((List.range G).filter (fun g => decide (¬ g ∈ path))) := by
        rw [← hfilter]
        rw [show survivors G 0 (p :: rest)
          = List.range' 0 (p - 0) ++ survivors G (p + 1) rest from rfl]
        rw [keepGroups_append, Nat.sub_zero]
        congr 1
        rw [keep_contig img C p 0 (by
          rw [Nat.zero_add, hlen]
          exact Nat.mul_le_mul_right C (by omega))]
        rw [show (0 * C : Nat) = 0 from by ring, List.drop_zero]
      have hklen : (keepGroups img C ((List.range G).filter
          (fun g => decide (¬ g ∈ path)))).length = img.length - path.length * C := by
        rw [← hkeepfull, List.length_append, keepGroups_length, hsurvlen, List.length_take,
          hnewlen, hlen]
        have : p * C ≤ G * C := Nat.mul_le_mul_right C (by omega)
        omega
      refine ⟨?_, hklen⟩
      simp only [remove_path_from_image_dir_row, hms]
      rw [hrun]
      have htk : (img.take (p * C) ++ keepGroups img C (survivors G (p + 1) rest)
          ++ img.drop (img.length - path.length * C)).take (img.length - path.length * C)
          = img.take (p * C) ++ keepGroups img C (survivors G (p + 1) rest) := by
        apply List.take_left'
        rw [List.length_append, keepGroups_length, hsurvlen, List.length_take, hnewlen, hlen]
        have : p * C ≤ G * C := Nat.mul_le_mul_right C (by omega)
        omega
      have hfull : (img.take (p * C) ++ keepGroups img C (survivors G (p + 1) rest)
          ++ img.drop (img.length - path.length * C)).length = img.length := by
        rw [List.length_append, List.length_append, keepGroups_length, hsurvlen,
          List.length_take, List.length_drop, hlen]
        have h3 : p * C ≤ G * C := Nat.mul_le_mul_right C (by omega)
        have h4 : G * C - path.length * C = p * C + (G - (p + 1) - rest.length) * C := by
          rw [← hlen, hnewlen]
        omega
      rw [htk, hfull, hkeepfull]
      rw [show img.length - path.length * C - img.length = 0 from by omega,
        List.replicate_zero, List.append_nil]

theorem mulAddInj {B q q' r r' : Nat} (hr : r < B) (hr' : r' < B)
    (heq : q * B + r = q' * B + r') : q = q' ∧ r = r' := by
  have hrr : r = r' := by
    have h1 := congrArg (fun x => x % B) heq
    simp only at h1
    rw [Nat.add_comm (q * B) r, Nat.add_comm (q' * B) r',
      Nat.add_mul_mod_self_right, Nat.add_mul_mod_self_right,
      Nat.mod_eq_of_lt hr, Nat.mod_eq_of_lt hr'] at h1
    exact h1
  subst hrr
  refine ⟨?_, rfl⟩
  exact Nat.eq_of_mul_eq_mul_right (by omega) (show q * B = q' * B from by omega)

theorem colShift_length {α : Type} [Inhabited α] (step C : Nat) :
    ∀ (fuel idx : Nat) (img : List α), (colShift step C fuel idx img).length = img.length := by
  intro fuel
  induction fuel with
  | zero => intro idx img; rfl
  | succ fuel ih =>
      intro idx img
      rw [colShift]
      split
      · rw [ih, copyRange_length]
      · rfl

theorem colShift_getD_ne {α : Type} [Inhabited α] (step C : Nat) :
    ∀ (fuel idx : Nat) (img : List α) (j : Nat),
      (∀ t i, i < C → j ≠ idx + t * step + i) →
      (colShift step C fuel idx img).getD j default = img.getD j default := by
  intro fuel
  induction fuel with
  | zero => intro idx img j _; rfl
  | succ fuel ih =>
      intro idx img j hne
      rw [colShift]
      split
      · rw [ih (idx + step) _ j (fun t i hi => by
          have := hne (t + 1) i hi
          intro hcon
          apply this
          rw [hcon]
          ring)]
        apply copyRange_getD_ne
        rcases Nat.lt_or_ge j idx with h | h
        · left
          exact h
        · right
          by_contra hcon
          push_neg at hcon
          exact hne 0 (j - idx) (by omega) (by
            rw [show (0 : Nat) * step = 0 from by ring]
            omega)
      · rfl

theorem colShift_getD_hit {α : Type} [Inhabited α] (step C : Nat) (hCs : C ≤ step) :
    ∀ (fuel : Nat), ∀ (idx : Nat) (img : List α) (t i : Nat), i < C → t < fuel →
      idx + t * step + step < img.length →
      (colShift step C fuel idx img).getD (idx + t * step + i) default
        = img.getD (idx + (t + 1) * step + i) default := by
  intro fuel
  induction fuel with
  | zero => intro idx img t i _ ht _; omega
  | succ fuel ih =>
      intro idx img t i hi ht hlt
      have htstep : 0 ≤ t * step := Nat.zero_le _
      have hcond : idx + step < img.length := by
        generalize t * step = A at hlt
        omega
      rw [colShift, if_pos hcond]
      rcases Nat.eq_zero_or_pos t with rfl | hpos
      · rw [show idx + 0 * step + i = idx + i from by ring]
        rw [colShift_getD_ne step C fuel (idx + step) _ (idx + i) (fun u i' hi' => by
          intro hcon
          have : idx + step ≤ idx + i := by
            rw [hcon]
            generalize u * step = A
            omega
          omega)]
        rw [copyRange_getD_hit step C idx _ (idx + i) (by omega) (by omega)]
        rw [show idx + i + step = idx + (0 + 1) * step + i from by ring]
      · obtain ⟨u, rfl⟩ : ∃ u, t = u + 1 := ⟨t - 1, by omega⟩
        rw [show idx + (u + 1) * step + i = (idx + step) + u * step + i from by ring]
        rw [ih (idx + step) _ u i hi (by omega) (by
          rw [copyRange_length]
          rw [show idx + step + u * step + step = idx + (u + 1) * step + step from by ring]
          exact hlt)]
        rw [copyRange_getD_ne step C idx _ (idx + step + (u + 1) * step + i) (by
          right
          have : step ≤ (u + 1) * step := by
            rw [Nat.add_mul, Nat.one_mul]
            omega
          generalize (u + 1) * step = A at this ⊢
          omega)]
        rw [show idx + step + (u + 1) * step + i = idx + (u + 1 + 1) * step + i from by ring]

theorem colsFold_spec {α : Type} [Inhabited α] (w h C : Nat) (f : Nat → Nat)
    (hw : 1 ≤ w) (hh : 1 ≤ h) (hC : 1 ≤ C) :
    ∀ (cols : List Nat) (img : List α),
      img.length = h * (w * C) →
      (∀ c ∈ cols, c < w) →
      (∀ c ∈ cols, f c < h) →
      List.Pairwise (· ≠ ·) cols →
      (List.foldl (fun im c => colShift (w * C) C (im.length + 1) ((f c * w + c) * C) im)
          img cols).length = img.length
      ∧ (∀ j, (∀ c ∈ cols, ∀ t i, i < C → j ≠ (f c * w + c) * C + t * (w * C) + i) →
          (List.foldl (fun im c => colShift (w * C) C (im.length + 1) ((f c * w + c) * C) im)
            img cols).getD j default = img.getD j default)
      ∧ (∀ c ∈ cols, ∀ r i, r + 1 < h → i < C →
          (List.foldl (fun im c => colShift (w * C) C (im.length + 1) ((f c * w + c) * C) im)
            img cols).getD ((r * w + c) * C + i) default
            = img.getD (((if r < f c then r else r + 1) * w + c) * C + i) default) := by
  intro cols
  induction cols with
  | nil =>
      intro img _ _ _ _
      exact ⟨rfl, fun j _ => rfl, fun c hc => absurd hc (List.not_mem_nil c)⟩
  | cons c cols ih =>
      intro img hlen hcw hfh hp
      obtain ⟨hcne, hp'⟩ := List.pairwise_cons.mp hp
      have hcw1 := hcw c (List.mem_cons_self c cols)
      have hfh1 := hfh c (List.mem_cons_self c cols)
      have hlen1 : (colShift (w * C) C (img.length + 1) ((f c * w + c) * C) img).length
          = img.length := colShift_length (w * C) C _ _ img
      obtain ⟨hIL, hIU, hIV⟩ := ih
        (colShift (w * C) C (img.length + 1) ((f c * w + c) * C) img)
        (by rw [hlen1, hlen])
        (fun c' hc' => hcw c' (List.mem_cons_of_mem c hc'))
        (fun c' hc' => hfh c' (List.mem_cons_of_mem c hc'))
        hp'
      -- positions of the head pass are exactly the column-c cells at rows ≥ f c
      have hpass : ∀ c0 t i : Nat,
          (f c0 * w + c0) * C + t * (w * C) + i = ((f c0 + t) * w + c0) * C + i := by
        intro c0 t i
        ring
      -- distinct columns occupy disjoint cells
      have hdisj : ∀ a c1 i1 a2 c2 i2, c1 < w → c2 < w → i1 < C → i2 < C → c1 ≠ c2 →
          (a * w + c1) * C + i1 ≠ (a2 * w + c2) * C + i2 := by
        intro a c1 i1 a2 c2 i2 hc1 hc2 hi1 hi2 hne hcon
        obtain ⟨hg, _⟩ := mulAddInj hi1 hi2 hcon
        obtain ⟨_, hcc⟩ := mulAddInj hc1 hc2 hg
        exact hne hcc
      refine ⟨by rw [List.foldl_cons, hIL, hlen1], ?_, ?_⟩
      · intro j hj
        rw [List.foldl_cons, hIU j (fun c' hc' t i hi =>
          hj c' (List.mem_cons_of_mem c hc') t i hi)]
        exact colShift_getD_ne (w * C) C _ _ img j
          (fun t i hi => hj c (List.mem_cons_self c cols) t i hi)
      · intro c' hc' r i hr hi
        rcases List.mem_cons.mp hc' with heq | hmem
        · subst heq
          rw [List.foldl_cons]
          rw [hIU ((r * w + c') * C + i) (fun c2 hc2 t i2 hi2 => by
            rw [hpass c2 t i2]
            exact hdisj r c' i (f c2 + t) c2 i2 hcw1
              (hcw c2 (List.mem_cons_of_mem c' hc2)) hi hi2 (hcne c2 hc2))]
          by_cases hrf : r < f c'
          · rw [if_pos hrf]
            apply colShift_getD_ne
            intro t i2 hi2
            rw [hpass c' t i2]
            intro hcon
            obtain ⟨hg, _⟩ := mulAddInj hi hi2 hcon
            obtain ⟨hrr, _⟩ := mulAddInj hcw1 hcw1 hg
            omega
          · rw [if_neg hrf]
            push_neg at hrf
            obtain ⟨t, rfl⟩ : ∃ t, r = f c' + t := ⟨r - f c', by omega⟩
            have hrow : (f c' + t + 1) * w + c' < h * w := by
              have hww : w ≤ h * w := Nat.le_mul_of_pos_left w hh
              have h1 : (f c' + t + 1) * w ≤ (h - 1) * w :=
                Nat.mul_le_mul_right w (by omega)
              have h2 : ((h - 1) * w : Nat) = h * w - w := by
                rw [Nat.sub_mul, Nat.one_mul]
              omega
            have hlt2 : ((f c' + t + 1) * w + c') * C < h * (w * C) := by
              have h2 : ((f c' + t + 1) * w + c') * C < (h * w) * C :=
                Nat.mul_lt_mul_of_pos_right hrow hC
              rw [show ((h * w) * C : Nat) = h * (w * C) from by ring] at h2
              exact h2
            rw [show ((f c' + t) * w + c') * C + i
              = (f c' * w + c') * C + t * (w * C) + i from by ring]
            rw [colShift_getD_hit (w * C) C (Nat.le_mul_of_pos_left C hw) (img.length + 1)
              ((f c' * w + c') * C) img t i hi
              (by
                have hwc : 1 ≤ w * C := Nat.mul_le_mul hw hC
                have hhl : h ≤ h * (w * C) := Nat.le_mul_of_pos_right h (by omega)
                rw [← hlen] at hhl
                omega)
              (by
                rw [hlen, show (f c' * w + c') * C + t * (w * C) + w * C
                  = ((f c' + t + 1) * w + c') * C from by ring]
                exact hlt2)]
            rw [show (f c' * w + c') * C + (t + 1) * (w * C) + i
              = ((f c' + t + 1) * w + c') * C + i from by ring]
        · rw [List.foldl_cons, hIV c' hmem r i hr hi]
          apply colShift_getD_ne
          intro t i2 hi2
          rw [hpass c t i2]
          exact hdisj (if r < f c' then r else r + 1) c' i (f c + t) c i2
            (hcw c' (List.mem_cons_of_mem c hmem)) hcw1 hi hi2
            (fun hcc => hcne c' hmem hcc.symm)

theorem getD_take {α : Type} [Inhabited α] (l : List α) (n j : Nat) (hj : j < n)
    (hl : j < l.length) :
    (l.take n).getD j default = l.getD j default := by
  rw [List.getD_eq_getElem _ _ (by simp; omega), List.getD_eq_getElem _ _ hl,
    List.getElem_take]

theorem remove_col_keeps {α : Type} [Inhabited α] (img : List α) (w h C : Nat) (f : Nat → Nat)
    (hw : 1 ≤ w) (hh : 1 ≤ h) (hC : 1 ≤ C)
    (hlen : img.length = h * (w * C))
    (hf : ∀ c, c < w → f c < h) :
    (remove_path_from_image_dir_col img ((List.range w).map (fun c => f c * w + c)) C w).length
      = img.length - w * C
    ∧ (∀ r c i, r + 1 < h → c < w → i < C →
        (remove_path_from_image_dir_col img ((List.range w).map (fun c => f c * w + c)) C w).getD
          ((r * w + c) * C + i) default
        = img.getD (((if r < f c then r else r + 1) * w + c) * C + i) default) := by
  have hpair : List.Pairwise (· ≠ ·) (List.range w) :=
    (List.pairwise_lt_range w).imp (fun h => Nat.ne_of_lt h)
  obtain ⟨hL, hU, hV⟩ := colsFold_spec w h C f hw hh hC (List.range w) img hlen
    (fun c hc => List.mem_range.mp hc) (fun c hc => hf c (List.mem_range.mp hc)) hpair
  have hwC : w * C ≤ img.length := by
    rw [hlen]
    exact Nat.le_mul_of_pos_left (w * C) (by omega)
  constructor
  · simp only [remove_path_from_image_dir_col, List.foldl_map, List.length_map,
      List.length_range]
    rw [List.length_append, List.length_take, List.length_replicate, hL]
    omega
  · intro r c i hr hc hi
    have hrow : r * w + c + 1 ≤ (h - 1) * w := by
      have h1 : (r + 1) * w ≤ (h - 1) * w := Nat.mul_le_mul_right w (by omega)
      rw [Nat.add_mul, Nat.one_mul] at h1
      omega
    have hP : (r * w + c) * C + i < img.length - w * C := by
      have h2 : (r * w + c + 1) * C ≤ ((h - 1) * w) * C := Nat.mul_le_mul_right C hrow
      rw [Nat.add_mul, Nat.one_mul] at h2
      have h3 : (((h - 1) * w) * C : Nat) = (h - 1) * (w * C) := by ring
      have h4 : ((h - 1) * (w * C) : Nat) = h * (w * C) - w * C := by
        rw [Nat.sub_mul, Nat.one_mul]
      rw [hlen]
      omega
    simp only [remove_path_from_image_dir_col, List.foldl_map, List.length_map,
      List.length_range]
    rw [show img.length - w * C - (List.foldl
        (fun im c => colShift (w * C) C (im.length + 1) ((f c * w + c) * C) im)
        img (List.range w)).length = 0 from by rw [hL]; omega,
      List.replicate_zero, List.append_nil]
    rw [getD_take _ _ _ hP (by rw [hL]; omega)]
    exact hV c (List.mem_range.mpr hc) r i hr hi

/-- C2: `remove_path_from_image` compacts the buffer exactly as claimed, in
both directions.  For the row direction (vertical seam), for any buffer of
`G` sample groups of `C` channels and any nonempty duplicate-free seam of
in-range group indices, the result is precisely the flat buffer with the
`C`-wide group at every seam index deleted (all other samples kept in
order), and the length shrinks by `seam.length * C`.  For the column
direction (horizontal seam, one cell per column at row `f c`), the length
shrinks by `seam.length * C` and every surviving pixel keeps its column
and relative row order: row `r` of the result holds the old row `r` below
the removed cell and the old row `r + 1` at and above it. -/
theorem C2_removal_compacts {α : Type} [Inhabited α] :
    (∀ (img : List α) (path : List Nat) (C G width : Nat),
      img.length = G * C → path ≠ [] → path.Nodup → (∀ p ∈ path, p < G) →
      remove_path_from_image img path C Direction.Row width
        = some (keepGroups img C ((List.range G).filter (fun g => decide (¬ g ∈ path))))
      ∧ (keepGroups img C ((List.range G).filter (fun g => decide (¬ g ∈ path)))).length
        = img.length - path.length * C)
    ∧ (∀ (img : List α) (w h C : Nat) (f : Nat → Nat),
      1 ≤ w → 1 ≤ h → 1 ≤ C → img.length = h * (w * C) → (∀ c, c < w → f c < h) →
      ∃ out, remove_path_from_image img ((List.range w).map (fun c => f c * w + c)) C
          Direction.Column w = some out
        ∧ out.length
          = img.length - ((List.range w).map (fun c => f c * w + c)).length * C
        ∧ (∀ r c i, r + 1 < h → c < w → i < C →
            out.getD ((r * w + c) * C + i) default
              = img.getD (((if r < f c then r else r + 1) * w + c) * C + i) default)) := by
  constructor
  · intro img path C G width hlen hne hnd hub
    exact remove_row_keeps img path C G hlen hne hnd hub
  · intro img w h C f hw hh hC hlen hf
    obtain ⟨h1, h2⟩ := remove_col_keeps img w h C f hw hh hC hlen hf
    refine ⟨remove_path_from_image_dir_col img
      ((List.range w).map (fun c => f c * w + c)) C w, rfl, ?_, h2⟩
    rw [h1]
    simp

/-- C2 witness: a four-group row removal and a 2-by-2 column removal. -/
theorem C2_removal_compacts_witness :
    (([(0 : ℚ), 1, 2, 3] : List ℚ).length = 4 * 1
      ∧ ([1, 3] : List Nat) ≠ []
      ∧ ([1, 3] : List Nat).Nodup
      ∧ (∀ p ∈ ([1, 3] : List Nat), p < 4)
      ∧ (remove_path_from_image ([(0 : ℚ), 1, 2, 3] : List ℚ) [1, 3] 1 Direction.Row 4
          = some (keepGroups ([(0 : ℚ), 1, 2, 3] : List ℚ) 1
              ((List.range 4).filter (fun g => decide (¬ g ∈ ([1, 3] : List Nat)))))
        ∧ (keepGroups ([(0 : ℚ), 1, 2, 3] : List ℚ) 1
            ((List.range 4).filter (fun g => decide (¬ g ∈ ([1, 3] : List Nat))))).length
          = ([(0 : ℚ), 1, 2, 3] : List ℚ).length - ([1, 3] : List Nat).length * 1))
    ∧ (([(0 : ℚ), 1, 2, 3] : List ℚ).length = 2 * (2 * 1)
      ∧ ∃ out, remove_path_from_image ([(0 : ℚ), 1, 2, 3] : List ℚ)
            ((List.range 2).map (fun c => 0 * 2 + c)) 1 Direction.Column 2 = some out
        ∧ out.length = ([(0 : ℚ), 1, 2, 3] : List ℚ).length
            - ((List.range 2).map (fun c => 0 * 2 + c)).length * 1
        ∧ (∀ r c i, r + 1 < 2 → c < 2 → i < 1 →
            out.getD ((r * 2 + c) * 1 + i) default
              = ([(0 : ℚ), 1, 2, 3] : List ℚ).getD
                  (((if r < 0 then r else r + 1) * 2 + c) * 1 + i) default)) :=
  ⟨⟨by norm_num, by decide, by decide, by decide,
    C2_removal_compacts.1 ([(0 : ℚ), 1, 2, 3] : List ℚ) [1, 3] 1 4 4 (by norm_num)
      (by decide) (by decide) (by decide)⟩,
   ⟨by norm_num,
    C2_removal_compacts.2 ([(0 : ℚ), 1, 2, 3] : List ℚ) 2 2 1 (fun _ => 0) (by norm_num)
      (by norm_num) (by norm_num) (by norm_num) (fun c _ => by norm_num)⟩⟩

/-! ## Orchestrator lemmas -/

theorem find_shortest_path_ne_nil (cost : List ℚ) (w h : Nat) (dir : Direction) :
    find_shortest_path cost w h dir ≠ [] := by
  simp [find_shortest_path]

theorem mergeSort_ne_nil {l : List Nat} (h : l ≠ []) :
    l.mergeSort (fun a b => decide (a ≤ b)) ≠ [] := by
  intro hcon
  have hp := List.mergeSort_perm l (fun a b => decide (a ≤ b))
  rw [hcon] at hp
  exact h (hp.symm.eq_nil)

theorem remove_path_some {α : Type} [Inhabited α] (img : List α) (path : List Nat)
    (C : Nat) (dir : Direction) (w : Nat) (hpath : path ≠ []) :
    ∃ r, remove_path_from_image img path C dir w = some r := by
  cases dir with
  | Row =>
      simp only [remove_path_from_image, remove_path_from_image_dir_row]
      rcases hms : path.mergeSort (fun a b => decide (a ≤ b)) with _ | ⟨p, rest⟩
      · exact absurd hms (mergeSort_ne_nil hpath)
      · exact ⟨_, rfl⟩
  | Column => exact ⟨_, rfl⟩

theorem remove_seam_ok (s : SeamCarver) (i : Image) (dir : Direction)
    (himg : s.img = some i) (hch : i.channels = 1 ∨ i.channels = 3)
    (hdim : match dir with
      | Direction.Row => 2 ≤ i.width ∧ 1 ≤ i.height
      | Direction.Column => 2 ≤ i.height ∧ 1 ≤ i.width) :
    ∃ (s' : SeamCarver) (i' : Image),
      s.remove_seam dir = Except.ok s'
        ∧ s'.img = some i'
        ∧ s'.origW = s.origW ∧ s'.origH = s.origH ∧ s'.desW = s.desW ∧ s'.desH = s.desH
        ∧ i'.channels = i.channels
        ∧ i'.width = (match dir with | Direction.Row => i.width - 1 | Direction.Column => i.width)
        ∧ i'.height =
            (match dir with | Direction.Row => i.height | Direction.Column => i.height - 1) := by
  obtain ⟨g', hg⟩ := remove_path_some s.gray_buf
    (find_shortest_path (build_cost_matrix s.energy_buf i.width i.height dir) i.width i.height dir)
    1 dir i.width (find_shortest_path_ne_nil _ _ _ _)
  obtain ⟨e', he⟩ := remove_path_some s.energy_buf
    (find_shortest_path (build_cost_matrix s.energy_buf i.width i.height dir) i.width i.height dir)
    1 dir i.width (find_shortest_path_ne_nil _ _ _ _)
  obtain ⟨b', hb⟩ := remove_path_some i.data
    (find_shortest_path (build_cost_matrix s.energy_buf i.width i.height dir) i.width i.height dir)
    i.channels dir i.width (find_shortest_path_ne_nil _ _ _ _)
  cases dir with
  | Row =>
      obtain ⟨hd1, hd2⟩ := hdim
      have hsafe : cost_build_in_bounds i.width i.height Direction.Row := by
        simp only [cost_build_in_bounds, MapState.from_dir]
        omega
      refine ⟨{ s with
          img := some (Image.mk i.channels (i.width - 1) i.height b'),
          gray_buf := g',
          energy_buf := e' },
        Image.mk i.channels (i.width - 1) i.height b',
        ?_, rfl, rfl, rfl, rfl, rfl, rfl, rfl, rfl⟩
      simp only [SeamCarver.remove_seam, himg, if_pos hsafe, if_pos hch, hg, he, hb]
  | Column =>
      obtain ⟨hd1, hd2⟩ := hdim
      have hsafe : cost_build_in_bounds i.width i.height Direction.Column := by
        simp only [cost_build_in_bounds, MapState.from_dir]
        omega
      refine ⟨{ s with
          img := some (Image.mk i.channels i.width (i.height - 1) b'),
          gray_buf := g',
          energy_buf := e' },
        Image.mk i.channels i.width (i.height - 1) b',
        ?_, rfl, rfl, rfl, rfl, rfl, rfl, rfl, rfl⟩
      simp only [SeamCarver.remove_seam, himg, if_pos hsafe, if_pos hch, hg, he, hb]

theorem iterateRemove_ok (dir : Direction) (n : Nat) :
    ∀ (s : SeamCarver) (i : Image), s.img = some i → (i.channels = 1 ∨ i.channels = 3) →
    (match dir with
      | Direction.Row => n + 1 ≤ i.width ∧ 1 ≤ i.height
      | Direction.Column => n + 1 ≤ i.height ∧ 1 ≤ i.width) →
    ∃ (s' : SeamCarver) (i' : Image),
      iterateRemove n dir s = Except.ok s'
        ∧ s'.img = some i'
        ∧ s'.origW = s.origW ∧ s'.origH = s.origH ∧ s'.desW = s.desW ∧ s'.desH = s.desH
        ∧ i'.channels = i.channels
        ∧ i'.width = (match dir with | Direction.Row => i.width - n | Direction.Column => i.width)
        ∧ i'.height =
            (match dir with | Direction.Row => i.height | Direction.Column => i.height - n) := by
  induction n with
  | zero =>
      intro s i himg hch _
      exact ⟨s, i, rfl, himg, rfl, rfl, rfl, rfl, rfl, by cases dir <;> simp, by
        cases dir <;> simp⟩
  | succ n ih =>
      intro s i himg hch hdim
      obtain ⟨s1, i1, hok, himg1, ho1, ho2, ho3, ho4, hch1, hw1, hh1⟩ :=
        remove_seam_ok s i dir himg hch (by
          cases dir
          · obtain ⟨h1, h2⟩ := hdim
            exact ⟨by omega, h2⟩
          · obtain ⟨h1, h2⟩ := hdim
            exact ⟨by omega, h2⟩)
      obtain ⟨s', i', hok', himg', ho1', ho2', ho3', ho4', hch', hw', hh'⟩ :=
        ih s1 i1 himg1 (by rw [hch1]; exact hch) (by
          cases dir
          · obtain ⟨h1, h2⟩ := hdim
            have hw1' : i1.width = i.width - 1 := hw1
            have hh1' : i1.height = i.height := hh1
            exact ⟨by omega, by omega⟩
          · obtain ⟨h1, h2⟩ := hdim
            have hw1' : i1.width = i.width := hw1
            have hh1' : i1.height = i.height - 1 := hh1
            exact ⟨by omega, by omega⟩)
      refine ⟨s', i', ?_, himg', by rw [ho1', ho1], by rw [ho2', ho2], by rw [ho3', ho3],
        by rw [ho4', ho4], by rw [hch', hch1], ?_, ?_⟩
      · show iterateRemove (n + 1) dir s = Except.ok s'
        simp only [iterateRemove, hok, Except.bind, hok']
      · cases dir <;> simp_all <;> omega
      · cases dir <;> simp_all <;> omega

/-- C3: `SeamCarver(img, w-dw, h-dh).apply()` removes height seams first,
then width seams — the definition of `SeamCarver.apply` performs
`origH - desH` Column removals before `origW - desW` Row removals — and
for a supported channel layout and any target `0 ≤ dw < w`, `0 ≤ dh < h`
it succeeds with an image of exactly the target width and height and the
original channel count. -/
theorem C3_round_trip_size (img : Image) (nw nh : Nat)
    (hch : img.channels = 1 ∨ img.channels = 3)
    (hw1 : 1 ≤ nw) (hw2 : nw ≤ img.width) (hh1 : 1 ≤ nh) (hh2 : nh ≤ img.height) :
    ∃ (c : SeamCarver) (out : Image),
      SeamCarver.new img nw nh = Except.ok c
        ∧ c.apply = Except.ok out
        ∧ out.width = nw ∧ out.height = nh ∧ out.channels = img.channels := by
  have hnew : SeamCarver.new img nw nh = Except.ok
      { origW := img.width, origH := img.height, desW := nw, desH := nh,
        img := some img, gray_buf := grayscaleOf img,
        energy_buf := (Sobel.new.kernel KernelType.X3).apply (grayscaleOf img)
          img.width img.height } := by
    simp only [SeamCarver.new, if_neg (by omega : ¬(nh > img.height ∨ nw > img.width))]
  set c : SeamCarver :=
    { origW := img.width, origH := img.height, desW := nw, desH := nh,
      img := some img, gray_buf := grayscaleOf img,
      energy_buf := (Sobel.new.kernel KernelType.X3).apply (grayscaleOf img)
        img.width img.height } with hc
  obtain ⟨s1, i1, hok1, himg1, ha1, hb1, hc1, hd1, hch1, hw1', hh1'⟩ :=
    iterateRemove_ok Direction.Column (img.height - nh) c img rfl hch
      ⟨by omega, by omega⟩
  obtain ⟨s2, i2, hok2, himg2, ha2, hb2, hc2, hd2, hch2, hw2', hh2'⟩ :=
    iterateRemove_ok Direction.Row (img.width - nw) s1 i1 himg1 (by rw [hch1]; exact hch)
      (by
        have hw1c : i1.width = img.width := hw1'
        have hh1c : i1.height = img.height - (img.height - nh) := hh1'
        exact ⟨by omega, by omega⟩)
  refine ⟨c, i2, hnew, ?_, ?_, ?_, by rw [hch2, hch1]⟩
  · show c.apply = Except.ok i2
    simp only [SeamCarver.apply, hc]
    simp only [hok1, Except.bind, hok2, himg2]
  · simp only [hw2', hw1']
    simp only [hc] at hc1 ⊢
    omega
  · simp only at hh2'
    rw [hh2', hh1']
    simp only [hc]
    omega

/-- Witness for C3 at a concrete 1x1 single-channel image with the
identity target size. -/
theorem C3_round_trip_size_witness :
    ∃ (c : SeamCarver) (out : Image),
      SeamCarver.new (Image.mk 1 1 1 [7]) 1 1 = Except.ok c
        ∧ c.apply = Except.ok out
        ∧ out.width = 1 ∧ out.height = 1 ∧ out.channels = (Image.mk 1 1 1 [7]).channels :=
  C3_round_trip_size (Image.mk 1 1 1 [7]) 1 1 (Or.inl rfl) (le_refl 1) (le_refl 1)
    (le_refl 1) (le_refl 1)

/-- C8: construction fails (with the dedicated failure, before any buffer
work — the guard in `SeamCarver.new` precedes the grayscale and energy
computations) exactly when the target exceeds the source in either
dimension, and a successful construction stores the target dimensions
verbatim, never clamped. -/
theorem C8_construction_rejects_enlargement (img : Image) (nw nh : Nat) :
    (SeamCarver.new img nw nh = Except.error CarveError.invalidTargetSize
        ↔ (img.width < nw ∨ img.height < nh))
      ∧ (∀ c : SeamCarver, SeamCarver.new img nw nh = Except.ok c →
          c.origW = img.width ∧ c.origH = img.height ∧ c.desW = nw ∧ c.desH = nh) := by
  constructor
  · constructor
    · intro h
      by_contra hcon
      simp only [SeamCarver.new, if_neg (by omega : ¬(nh > img.height ∨ nw > img.width))] at h
      exact Except.noConfusion h
    · intro h
      simp only [SeamCarver.new, if_pos (by omega : nh > img.height ∨ nw > img.width)]
  · intro c hok
    by_cases h : nh > img.height ∨ nw > img.width
    · simp only [SeamCarver.new, if_pos h] at hok
      exact Except.noConfusion hok
    · simp only [SeamCarver.new, if_neg h] at hok
      cases hok
      exact ⟨rfl, rfl, rfl, rfl⟩

/-- Witness for C8: a 2x2 image with target width 3 is rejected, and with
target 1x2 the stored desired dimensions are exactly 1 and 2. -/
theorem C8_construction_rejects_enlargement_witness :
    SeamCarver.new (Image.mk 1 2 2 [1, 2, 3, 4]) 3 2
        = Except.error CarveError.invalidTargetSize
      ∧ ∀ c : SeamCarver, SeamCarver.new (Image.mk 1 2 2 [1, 2, 3, 4]) 1 2 = Except.ok c →
          c.origW = 2 ∧ c.origH = 2 ∧ c.desW = 1 ∧ c.desH = 2 :=
  ⟨(C8_construction_rejects_enlargement (Image.mk 1 2 2 [1, 2, 3, 4]) 3 2).1.mpr
      (Or.inl (by norm_num)),
    fun c h => (C8_construction_rejects_enlargement (Image.mk 1 2 2 [1, 2, 3, 4]) 1 2).2 c h⟩

/-- C9 counterexample to the claim that the bad-channel layout is always
detected at the pixel-buffer split: on a 2-channel 1x2 image the `Row`
removal runs `build_cost_matrix` before the channel match, and with a
single cell per line but two lines the build reads `res[2]` out of a
length-2 buffer — in the source an index panic, here the
`indexOutOfBounds` error — so the run never reaches the channel check. -/
theorem C9_channel_detection_counterexample :
    ∃ c : SeamCarver,
      SeamCarver.new (Image.mk 2 1 2 [5, 6, 7, 8]) 1 2 = Except.ok c
        ∧ c.remove_seam Direction.Row ≠ Except.error CarveError.unsupportedChannelLayout
        ∧ c.remove_seam Direction.Row = Except.error CarveError.indexOutOfBounds := by
  refine ⟨SeamCarver.mk 1 2 1 2 (some (Image.mk 2 1 2 [5, 6, 7, 8]))
    (grayscaleOf (Image.mk 2 1 2 [5, 6, 7, 8]))
    ((Sobel.new.kernel KernelType.X3).apply
      (grayscaleOf (Image.mk 2 1 2 [5, 6, 7, 8])) 1 2), ?_, ?_, ?_⟩
  · simp only [SeamCarver.new, if_neg (by norm_num :
      ¬((2 : Nat) > (Image.mk 2 1 2 [5, 6, 7, 8]).height
        ∨ (1 : Nat) > (Image.mk 2 1 2 [5, 6, 7, 8]).width))]
  · simp only [SeamCarver.remove_seam,
      if_neg (by decide : ¬ cost_build_in_bounds 1 2 Direction.Row)]
    intro hcon
    exact CarveError.noConfusion (Except.error.inj hcon)
  · simp only [SeamCarver.remove_seam,
      if_neg (by decide : ¬ cost_build_in_bounds 1 2 Direction.Row)]

/-- C9 (amended): for a channel layout that is neither 1 nor 3,
construction itself succeeds for any in-range target; every seam removal
whose traversal geometry keeps the cost-matrix build in bounds (the build
runs before the channel match) fails with the typed
`unsupportedChannelLayout` failure, detected at the pixel-buffer split in
`remove_seam`; and a run performing zero removals succeeds without ever
detecting the bad layout. -/
theorem C9_unsupported_channel_layout (img : Image)
    (hch1 : img.channels ≠ 1) (hch3 : img.channels ≠ 3) :
    (∀ nw nh, nw ≤ img.width → nh ≤ img.height →
        ∃ c : SeamCarver, SeamCarver.new img nw nh = Except.ok c
          ∧ ∀ dir : Direction, cost_build_in_bounds img.width img.height dir →
              c.remove_seam dir = Except.error CarveError.unsupportedChannelLayout)
      ∧ ∃ c0 : SeamCarver, SeamCarver.new img img.width img.height = Except.ok c0
          ∧ c0.apply = Except.ok img := by
  have hconstr : ∀ nw nh, nw ≤ img.width → nh ≤ img.height →
      SeamCarver.new img nw nh = Except.ok
        { origW := img.width, origH := img.height, desW := nw, desH := nh,
          img := some img, gray_buf := grayscaleOf img,
          energy_buf := (Sobel.new.kernel KernelType.X3).apply (grayscaleOf img)
            img.width img.height } := by
    intro nw nh hw hh
    simp only [SeamCarver.new, if_neg (by omega : ¬(nh > img.height ∨ nw > img.width))]
  constructor
  · intro nw nh hw hh
    refine ⟨_, hconstr nw nh hw hh, ?_⟩
    intro dir hsafe
    simp only [SeamCarver.remove_seam, if_pos hsafe,
      if_neg (by tauto : ¬(img.channels = 1 ∨ img.channels = 3))]
  · refine ⟨_, hconstr img.width img.height (le_refl _) (le_refl _), ?_⟩
    simp only [SeamCarver.apply, Nat.sub_self, iterateRemove, Except.bind]

/-- Witness for C9 at a concrete 2-channel 2x2 image: both removal
directions keep the cost build in bounds and return the typed channel
failure, and the zero-removal run succeeds. -/
theorem C9_unsupported_channel_layout_witness :
    (Image.mk 2 2 2 [1, 2, 3, 4, 5, 6, 7, 8]).channels ≠ 1
    ∧ (Image.mk 2 2 2 [1, 2, 3, 4, 5, 6, 7, 8]).channels ≠ 3
    ∧ (∃ c : SeamCarver,
        SeamCarver.new (Image.mk 2 2 2 [1, 2, 3, 4, 5, 6, 7, 8]) 2 2 = Except.ok c
          ∧ c.remove_seam Direction.Row = Except.error CarveError.unsupportedChannelLayout
          ∧ c.remove_seam Direction.Column
              = Except.error CarveError.unsupportedChannelLayout)
    ∧ (∃ c0 : SeamCarver,
        SeamCarver.new (Image.mk 2 2 2 [1, 2, 3, 4, 5, 6, 7, 8]) 2 2 = Except.ok c0
          ∧ c0.apply = Except.ok (Image.mk 2 2 2 [1, 2, 3, 4, 5, 6, 7, 8])) := by
  have h := C9_unsupported_channel_layout (Image.mk 2 2 2 [1, 2, 3, 4, 5, 6, 7, 8])
    (by norm_num) (by norm_num)
  obtain ⟨c, hc, hrm⟩ := h.1 2 2 (le_refl 2) (le_refl 2)
  exact ⟨by norm_num, by norm_num,
    ⟨c, hc, hrm Direction.Row (by decide), hrm Direction.Column (by decide)⟩, h.2⟩

/-- C10: a standalone `Sobel::new()` (and `Default`) selects the 5x5
kernel, while the carving pipeline overrides it: the energy buffer of any
successfully constructed carver is computed with the 3x3 kernel
(`Sobel::new().kernel(Kernel::X3)` in `SeamCarver::new`). -/
theorem C10_sobel_kernel_defaults :
    Sobel.new.kernel_type = KernelType.X5
      ∧ Sobel.default = Sobel.new
      ∧ (Sobel.new.kernel KernelType.X3).kernel_type = KernelType.X3
      ∧ ∀ (img : Image) (nw nh : Nat) (c : SeamCarver),
          SeamCarver.new img nw nh = Except.ok c →
          c.energy_buf = (Sobel.new.kernel KernelType.X3).apply (grayscaleOf img)
            img.width img.height := by
  refine ⟨rfl, rfl, rfl, ?_⟩
  intro img nw nh c hok
  by_cases h : nh > img.height ∨ nw > img.width
  · simp only [SeamCarver.new, if_pos h] at hok
    exact Except.noConfusion hok
  · simp only [SeamCarver.new, if_neg h] at hok
    cases hok
    rfl

/-- Witness for C10 at a concrete construction. -/
theorem C10_sobel_kernel_defaults_witness :
    ∀ c : SeamCarver, SeamCarver.new (Image.mk 1 1 1 [7]) 1 1 = Except.ok c →
      c.energy_buf = (Sobel.new.kernel KernelType.X3).apply
        (grayscaleOf (Image.mk 1 1 1 [7])) 1 1 :=
  fun c h => C10_sobel_kernel_defaults.2.2.2 (Image.mk 1 1 1 [7]) 1 1 c h

/-! ## Sobel estimator lemmas -/

theorem sobelYLoop_length (kt : KernelType) (image : List Nat) (width b ksize x : Nat)
    (n y : Nat) (buf : List ℚ) :
    (sobelYLoop kt image width b ksize x n y buf).length = buf.length := by
  induction n generalizing y buf with
  | zero => rfl
  | succ n ih => rw [sobelYLoop, ih, List.length_set]

theorem sobelXLoop_length (kt : KernelType) (image : List Nat) (width height b ksize : Nat)
    (n x : Nat) (buf : List ℚ) :
    (sobelXLoop kt image width height b ksize n x buf).length = buf.length := by
  induction n generalizing x buf with
  | zero => rfl
  | succ n ih => rw [sobelXLoop, ih, sobelYLoop_length]

theorem sobelYLoop_getD_ne (kt : KernelType) (image : List Nat) (width b ksize x : Nat)
    (n : Nat) :
    ∀ (y : Nat) (buf : List ℚ) (j : Nat), (∀ t, t < n → j ≠ x + (y + t) * width) →
    (sobelYLoop kt image width b ksize x n y buf).getD j 0 = buf.getD j 0 := by
  induction n with
  | zero => intro y buf j _; rfl
  | succ n ih =>
      intro y buf j hne
      have h1 : ∀ t, t < n → j ≠ x + (y + 1 + t) * width := by
        intro t ht hcon
        exact hne (t + 1) (by omega) (by rw [hcon]; ring)
      rw [sobelYLoop, ih (y + 1) _ j h1]
      exact getD_set_ne _ _ _ (fun hcon => hne 0 (by omega) (by rw [← hcon]; ring))

theorem sobelYLoop_getD_hit (kt : KernelType) (image : List Nat) (width b ksize x : Nat)
    (hw : 1 ≤ width) (n : Nat) :
    ∀ (y : Nat) (buf : List ℚ) (t : Nat), t < n → x + (y + t) * width < buf.length →
    (sobelYLoop kt image width b ksize x n y buf).getD (x + (y + t) * width) 0
      = Kernel.calculate kt (patchAt image width x (y + t) b ksize) := by
  induction n with
  | zero => intro y buf t ht; omega
  | succ n ih =>
      intro y buf t ht hlt
      rcases Nat.eq_zero_or_pos t with h0 | hpos
      · subst h0
        simp only [Nat.add_zero] at hlt ⊢
        have hstep : ∀ u, y * width + width ≤ (y + 1 + u) * width := by
          intro u
          calc y * width + width = (y + 1) * width := by ring
          _ ≤ (y + 1 + u) * width := Nat.mul_le_mul_right width (by omega)
        rw [sobelYLoop]
        rw [sobelYLoop_getD_ne kt image width b ksize x n (y + 1) _ _
          (fun u hu hcon => by have := hstep u; omega)]
        exact getD_set_self _ _ _ _ hlt
      · obtain ⟨t1, rfl⟩ : ∃ t1, t = t1 + 1 := ⟨t - 1, by omega⟩
        have heq : y + (t1 + 1) = y + 1 + t1 := by omega
        rw [heq] at hlt ⊢
        rw [sobelYLoop]
        exact ih (y + 1) _ t1 (by omega) (by rw [List.length_set]; exact hlt)

theorem sobelXLoop_getD_ne (kt : KernelType) (image : List Nat) (width height b ksize : Nat)
    (n : Nat) :
    ∀ (x : Nat) (buf : List ℚ) (j : Nat),
    (∀ u t, u < n → t < height - b - b → j ≠ (x + u) + (b + t) * width) →
    (sobelXLoop kt image width height b ksize n x buf).getD j 0 = buf.getD j 0 := by
  induction n with
  | zero => intro x buf j _; rfl
  | succ n ih =>
      intro x buf j hne
      have h1 : ∀ u t, u < n → t < height - b - b → j ≠ (x + 1 + u) + (b + t) * width := by
        intro u t hu ht hcon
        exact hne (u + 1) t (by omega) ht (by rw [hcon]; ring_nf)
      rw [sobelXLoop, ih (x + 1) _ j h1]
      exact sobelYLoop_getD_ne kt image width b ksize x _ b buf j
        (fun t ht hcon => hne 0 t (by omega) ht (by rw [hcon]; ring_nf))

theorem sobelXLoop_getD_hit (kt : KernelType) (image : List Nat) (width height b ksize : Nat)
    (hw : 1 ≤ width) (n : Nat) :
    ∀ (x : Nat) (buf : List ℚ) (u t : Nat), u < n → t < height - b - b →
    x + n ≤ width → (x + u) + (b + t) * width < buf.length →
    (sobelXLoop kt image width height b ksize n x buf).getD ((x + u) + (b + t) * width) 0
      = Kernel.calculate kt (patchAt image width (x + u) (b + t) b ksize) := by
  induction n with
  | zero => intro x buf u t hu; omega
  | succ n ih =>
      intro x buf u t hu ht hxn hlt
      rcases Nat.eq_zero_or_pos u with h0 | hpos
      · subst h0
        simp only [Nat.add_zero] at hlt ⊢
        rw [sobelXLoop]
        rw [sobelXLoop_getD_ne kt image width height b ksize n (x + 1) _ _ ?hne]
        case hne =>
          intro u1 t1 hu1 ht1 hcon
          -- two distinct columns x and x+1+u1 (both < width) give distinct flat cells
          have hx1 : x < width := by omega
          have hx2 : x + 1 + u1 < width := by omega
          have hmod : ((x + 1 + u1) + (b + t1) * width) % width = x % width := by
            rw [← hcon]
            simp [Nat.add_mul_mod_self_right]
          rw [Nat.add_mul_mod_self_right, Nat.mod_eq_of_lt hx1, Nat.mod_eq_of_lt hx2] at hmod
          omega
        · exact sobelYLoop_getD_hit kt image width b ksize x hw (height - b - b) b buf t ht hlt
      · obtain ⟨u1, rfl⟩ : ∃ u1, u = u1 + 1 := ⟨u - 1, by omega⟩
        have heq : x + (u1 + 1) = x + 1 + u1 := by omega
        rw [heq] at hlt ⊢
        rw [sobelXLoop]
        exact ih (x + 1) _ u1 t (by omega) ht (by omega)
          (by rw [sobelYLoop_length]; exact hlt)

theorem sqrtRound_spec (n : Nat) :
    4 * n < (2 * sqrtRound n + 1) ^ 2
      ∧ (sqrtRound n = 0 ∨ (2 * sqrtRound n - 1) ^ 2 ≤ 4 * n) := by
  have h1 : Nat.sqrt (4 * n) ^ 2 ≤ 4 * n := Nat.sqrt_le' (4 * n)
  have h2 : 4 * n < (Nat.sqrt (4 * n) + 1) ^ 2 := Nat.lt_succ_sqrt' (4 * n)
  have hc : sqrtRound n = (Nat.sqrt (4 * n) + 1) / 2 := rfl
  have hcase : 2 * sqrtRound n = Nat.sqrt (4 * n) ∨ 2 * sqrtRound n = Nat.sqrt (4 * n) + 1 := by
    rw [hc]; omega
  constructor
  · calc 4 * n < (Nat.sqrt (4 * n) + 1) ^ 2 := h2
    _ ≤ (2 * sqrtRound n + 1) ^ 2 := Nat.pow_le_pow_left (by omega) 2
  · rcases Nat.eq_zero_or_pos (sqrtRound n) with h0 | hpos
    · exact Or.inl h0
    · refine Or.inr ?_
      calc (2 * sqrtRound n - 1) ^ 2 ≤ Nat.sqrt (4 * n) ^ 2 :=
        Nat.pow_le_pow_left (by omega) 2
      _ ≤ 4 * n := h1

theorem sqrtRound_eval (n s : Nat) (h1 : s * s ≤ 4 * n) (h2 : 4 * n < (s + 1) * (s + 1)) :
    sqrtRound n = (s + 1) / 2 := by
  have ha : s ≤ Nat.sqrt (4 * n) := Nat.le_sqrt.mpr h1
  have hb : Nat.sqrt (4 * n) < s + 1 := Nat.sqrt_lt.mpr h2
  rw [sqrtRound, show Nat.sqrt (4 * n) = s from by omega]

theorem getD_replicate_zero (n j : Nat) : (List.replicate n (0 : ℚ)).getD j 0 = 0 := by
  induction n generalizing j with
  | zero => cases j <;> rfl
  | succ n ih =>
      cases j with
      | zero => rfl
      | succ j => simpa [List.replicate] using ih j

theorem apply_interior_getD (kt : KernelType) (image : List Nat) (width height X Y : Nat)
    (hlen : image.length = width * height)
    (hx1 : kt.size / 2 ≤ X) (hx2 : X + kt.size / 2 < width)
    (hy1 : kt.size / 2 ≤ Y) (hy2 : Y + kt.size / 2 < height) :
    (Sobel.apply (Sobel.mk kt) image width height).getD (X + Y * width) 0
      = Kernel.calculate kt (patchAt image width X Y (kt.size / 2) kt.size) := by
  have hw : 1 ≤ width := by omega
  have hX : kt.size / 2 + (X - kt.size / 2) = X := by omega
  have hY : kt.size / 2 + (Y - kt.size / 2) = Y := by omega
  have hhit := sobelXLoop_getD_hit kt image width height (kt.size / 2) kt.size hw
    (width - kt.size / 2 - kt.size / 2) (kt.size / 2)
    (List.replicate image.length 0) (X - kt.size / 2) (Y - kt.size / 2)
    (by omega) (by omega) (by omega) ?hbound
  case hbound =>
    rw [List.length_replicate, hlen, hX, hY]
    calc X + Y * width < width + Y * width := by omega
    _ = (Y + 1) * width := by ring
    _ ≤ height * width := Nat.mul_le_mul_right width (by omega)
    _ = width * height := by ring
  rw [hX, hY] at hhit
  simpa only [Sobel.apply] using hhit

theorem apply_boundary_getD (kt : KernelType) (image : List Nat) (width height X Y : Nat)
    (hX : X < width) (hY : Y < height)
    (hbd : X < kt.size / 2 ∨ width ≤ X + kt.size / 2
      ∨ Y < kt.size / 2 ∨ height ≤ Y + kt.size / 2) :
    (Sobel.apply (Sobel.mk kt) image width height).getD (X + Y * width) 0 = 0 := by
  have hne : ∀ u t, u < width - kt.size / 2 - kt.size / 2 → t < height - kt.size / 2 - kt.size / 2 →
      X + Y * width ≠ (kt.size / 2 + u) + (kt.size / 2 + t) * width := by
    intro u t hu ht hcon
    have hcol : kt.size / 2 + u < width := by omega
    have hmod : (X + Y * width) % width = ((kt.size / 2 + u) + (kt.size / 2 + t) * width) % width :=
      by rw [hcon]
    rw [Nat.add_mul_mod_self_right, Nat.add_mul_mod_self_right,
      Nat.mod_eq_of_lt hX, Nat.mod_eq_of_lt hcol] at hmod
    rw [hmod] at hcon
    have hsec : Y = kt.size / 2 + t := by
      have := Nat.add_left_cancel hcon
      exact Nat.eq_of_mul_eq_mul_right (by omega) this
    omega
  have := sobelXLoop_getD_ne kt image width height (kt.size / 2) kt.size
    (width - kt.size / 2 - kt.size / 2) (kt.size / 2)
    (List.replicate image.length 0) (X + Y * width) hne
  simp only [Sobel.apply]
  rw [this, getD_replicate_zero]

/-- Modelled from the spec (section 4.1), for comparison only: the
boundary-clamped convolution the spec claims for edge pixels — kernel
positions whose image coordinates fall outside the image are excluded
from the two convolution sums, giving a smaller asymmetric kernel.  The
source `Sobel::apply` has no such computation (it skips boundary pixels
entirely); this definition exists to exhibit that divergence. -/
def specClampedEnergyCell (kt : KernelType) (image : List Nat)
    (width height X Y : Nat) : ℚ :=
  let k := kt.size
  let b := k / 2
  let valid : Nat → Nat → Bool := fun i j =>
    decide (i ≤ Y + b) && decide (Y + b - i < height)
      && decide (b ≤ X + j) && decide (X + j - b < width)
  let term : List ℤ → Nat → Nat → ℤ := fun ker i j =>
    if valid i j then
      (image.getD ((Y + b - i) * width + (X + j - b)) 0 : ℤ) * ker.getD (i * k + j) 0
    else 0
  let gx := ((List.range k).flatMap (fun i => (List.range k).map (term (kernelX kt) i))).sum
  let gy := ((List.range k).flatMap (fun i => (List.range k).map (term (kernelY kt) i))).sum
  ((sqrtRound (gx ^ 2 + gy ^ 2).toNat : ℚ))

/-- Counterexample to C4 as stated: on the 3x3 image
`[[0,0,0],[100,100,100],[200,200,200]]` the corner pixel `(0,0)` would
have a nonzero clamped-kernel gradient magnitude (316), but `Sobel::apply`
never computes boundary pixels and leaves the cell at `0.0`. -/
theorem C4_boundary_counterexample :
    (Sobel.apply (Sobel.mk KernelType.X3)
        [0, 0, 0, 100, 100, 100, 200, 200, 200] 3 3).getD 0 0 = 0
      ∧ specClampedEnergyCell KernelType.X3
          [0, 0, 0, 100, 100, 100, 200, 200, 200] 3 3 0 0 ≠ 0 := by
  constructor
  · norm_num [Sobel.apply, sobelXLoop, sobelYLoop, KernelType.size]
  · have hval : specClampedEnergyCell KernelType.X3
        [0, 0, 0, 100, 100, 100, 200, 200, 200] 3 3 0 0 = ((316 : ℕ) : ℚ) := by
      norm_num [specClampedEnergyCell, KernelType.size, kernelX, kernelY, List.range_succ]
      rw [show Int.toNat 100000 = 100000 from rfl,
        sqrtRound_eval 100000 632 (by norm_num) (by norm_num)]
      norm_num
    rw [hval]
    norm_num

/-- C4 (amended): the energy buffer has the same length as the input, each
interior cell (at distance at least `k/2` from every border) holds the
gradient magnitude of its `k x k` patch, and every boundary cell (within
`k/2` of any border) is left at `0.0` — the convolution is not clamped
there, contrary to the claim; boundary pixels are simply skipped. -/
theorem C4_energy_interior_boundary (kt : KernelType) (image : List Nat)
    (width height : Nat) (hlen : image.length = width * height) :
    (Sobel.apply (Sobel.mk kt) image width height).length = image.length
      ∧ (∀ X Y : Nat, kt.size / 2 ≤ X → X + kt.size / 2 < width →
          kt.size / 2 ≤ Y → Y + kt.size / 2 < height →
          (Sobel.apply (Sobel.mk kt) image width height).getD (X + Y * width) 0
            = Kernel.calculate kt (patchAt image width X Y (kt.size / 2) kt.size))
      ∧ (∀ X Y : Nat, X < width → Y < height →
          (X < kt.size / 2 ∨ width ≤ X + kt.size / 2
            ∨ Y < kt.size / 2 ∨ height ≤ Y + kt.size / 2) →
          (Sobel.apply (Sobel.mk kt) image width height).getD (X + Y * width) 0 = 0) := by
  refine ⟨?_, ?_, ?_⟩
  · simp only [Sobel.apply]
    rw [sobelXLoop_length, List.length_replicate]
  · intro X Y h1 h2 h3 h4
    exact apply_interior_getD kt image width height X Y hlen h1 h2 h3 h4
  · intro X Y h1 h2 h3
    exact apply_boundary_getD kt image width height X Y h1 h2 h3

/-- Witness for the amended C4 on a concrete 3x3 image: length preserved,
the single interior cell holds the patch magnitude, the corner stays 0. -/
theorem C4_energy_interior_boundary_witness :
    (Sobel.apply (Sobel.mk KernelType.X3) [1, 2, 3, 4, 5, 6, 7, 8, 9] 3 3).length = 9
      ∧ (Sobel.apply (Sobel.mk KernelType.X3) [1, 2, 3, 4, 5, 6, 7, 8, 9] 3 3).getD
          (1 + 1 * 3) 0
          = Kernel.calculate KernelType.X3 (patchAt [1, 2, 3, 4, 5, 6, 7, 8, 9] 3 1 1 1 3)
      ∧ (Sobel.apply (Sobel.mk KernelType.X3) [1, 2, 3, 4, 5, 6, 7, 8, 9] 3 3).getD
          (0 + 0 * 3) 0 = 0 := by
  obtain ⟨h1, h2, h3⟩ := C4_energy_interior_boundary KernelType.X3
    [1, 2, 3, 4, 5, 6, 7, 8, 9] 3 3 (by norm_num)
  exact ⟨by rw [h1]; rfl,
    h2 1 1 (by norm_num [KernelType.size]) (by norm_num [KernelType.size])
      (by norm_num [KernelType.size]) (by norm_num [KernelType.size]),
    h3 0 0 (by norm_num) (by norm_num)
      (Or.inl (by norm_num [KernelType.size]))⟩

/-- The horizontal convolution sum `gx` of `Kernel::calculate` on a given
patch (the `patch[..klength]` / `kernel_x[..klength]` zip of the source). -/
def gxOf (kt : KernelType) (patch : List Nat) : ℤ :=
  convSum (patch.take (kt.size ^ 2)) ((kernelX kt).take (kt.size ^ 2))

/-- The vertical convolution sum `gy` of `Kernel::calculate`. -/
def gyOf (kt : KernelType) (patch : List Nat) : ℤ :=
  convSum (patch.take (kt.size ^ 2)) ((kernelY kt).take (kt.size ^ 2))

theorem calculate_eq_sqrtRound (kt : KernelType) (patch : List Nat) :
    Kernel.calculate kt patch
      = ((sqrtRound ((gxOf kt patch) ^ 2 + (gyOf kt patch) ^ 2).toNat : ℕ) : ℚ) := rfl

/-- Counterexample to C5 as stated: at the interior pixel of the 3x3
image `[[0,0,1],[0,0,0],[0,0,0]]` both convolution sums are 1, so the
claimed exact output `sqrt(gx^2+gy^2) = sqrt 2` would square to 2; the
source instead stores the rounded value 1, whose square is 1. -/
theorem C5_exact_sqrt_counterexample :
    (Sobel.apply (Sobel.mk KernelType.X3) [0, 0, 1, 0, 0, 0, 0, 0, 0] 3 3).getD
        (1 + 1 * 3) 0 = 1
      ∧ gxOf KernelType.X3 (patchAt [0, 0, 1, 0, 0, 0, 0, 0, 0] 3 1 1 1 3) = 1
      ∧ gyOf KernelType.X3 (patchAt [0, 0, 1, 0, 0, 0, 0, 0, 0] 3 1 1 1 3) = 1
      ∧ ((Sobel.apply (Sobel.mk KernelType.X3) [0, 0, 1, 0, 0, 0, 0, 0, 0] 3 3).getD
          (1 + 1 * 3) 0) ^ 2 ≠ (1 : ℚ) ^ 2 + (1 : ℚ) ^ 2 := by
  have h1 : (Sobel.apply (Sobel.mk KernelType.X3) [0, 0, 1, 0, 0, 0, 0, 0, 0] 3 3).getD
      (1 + 1 * 3) 0 = 1 := by
    norm_num [Sobel.apply, sobelXLoop, sobelYLoop, Kernel.calculate, convSum, patchAt,
      kernelX, kernelY, KernelType.size, List.range_succ]
    rw [show Int.toNat 2 = 2 from rfl, sqrtRound_eval 2 2 (by norm_num) (by norm_num)]
  refine ⟨h1, ?_, ?_, ?_⟩
  · norm_num [gxOf, convSum, patchAt, kernelX, KernelType.size, List.range_succ]
  · norm_num [gyOf, convSum, patchAt, kernelY, KernelType.size, List.range_succ]
  · rw [h1]; norm_num

/-- C5 (amended): every value the estimator computes is the natural
number nearest to `sqrt(gx^2 + gy^2)` (the source rounds the square root;
the claimed exact equality fails, see the counterexample), with no
normalization or clipping — the final conjunct shows a computed value
exceeding 255. -/
theorem C5_magnitude_rounded :
    (∀ (kt : KernelType) (image : List Nat) (width height X Y : Nat),
        image.length = width * height →
        kt.size / 2 ≤ X → X + kt.size / 2 < width →
        kt.size / 2 ≤ Y → Y + kt.size / 2 < height →
        ∃ c : Nat,
          (Sobel.apply (Sobel.mk kt) image width height).getD (X + Y * width) 0 = (c : ℚ)
            ∧ 4 * (gxOf kt (patchAt image width X Y (kt.size / 2) kt.size) ^ 2
                  + gyOf kt (patchAt image width X Y (kt.size / 2) kt.size) ^ 2)
                < (2 * (c : ℤ) + 1) ^ 2
            ∧ (c = 0 ∨ (2 * (c : ℤ) - 1) ^ 2
                ≤ 4 * (gxOf kt (patchAt image width X Y (kt.size / 2) kt.size) ^ 2
                    + gyOf kt (patchAt image width X Y (kt.size / 2) kt.size) ^ 2)))
      ∧ 255 < (Sobel.apply (Sobel.mk KernelType.X3)
          [255, 255, 255, 0, 0, 0, 0, 0, 0] 3 3).getD (1 + 1 * 3) 0 := by
  constructor
  · intro kt image width height X Y hlen hx1 hx2 hy1 hy2
    set p := patchAt image width X Y (kt.size / 2) kt.size with hp
    set m : ℤ := gxOf kt p ^ 2 + gyOf kt p ^ 2 with hmdef
    have hmnn : 0 ≤ m := by positivity
    have hm : ((m.toNat : ℤ)) = m := Int.toNat_of_nonneg hmnn
    refine ⟨sqrtRound m.toNat, ?_, ?_, ?_⟩
    · rw [apply_interior_getD kt image width height X Y hlen hx1 hx2 hy1 hy2,
        calculate_eq_sqrtRound]
    · have hs := (sqrtRound_spec m.toNat).1
      rw [← hm]
      exact_mod_cast hs
    · rcases Nat.eq_zero_or_pos (sqrtRound m.toNat) with h0 | hpos
      · exact Or.inl h0
      · refine Or.inr ?_
        rcases (sqrtRound_spec m.toNat).2 with h | hle
        · omega
        · rw [← hm]
          have hcast : ((2 * sqrtRound m.toNat - 1 : ℕ) : ℤ)
              = 2 * (sqrtRound m.toNat : ℤ) - 1 := by
            have h2 : 1 ≤ 2 * sqrtRound m.toNat := by omega
            push_cast [Nat.cast_sub h2]
            ring
          calc (2 * (sqrtRound m.toNat : ℤ) - 1) ^ 2
              = ((2 * sqrtRound m.toNat - 1 : ℕ) : ℤ) ^ 2 := by rw [hcast]
          _ ≤ ((4 * m.toNat : ℕ) : ℤ) := by exact_mod_cast hle
          _ = 4 * (m.toNat : ℤ) := by push_cast; ring
  · norm_num [Sobel.apply, sobelXLoop, sobelYLoop, Kernel.calculate, convSum, patchAt,
      kernelX, kernelY, KernelType.size, List.range_succ]
    rw [show Int.toNat 1040400 = 1040400 from rfl,
      sqrtRound_eval 1040400 2040 (by norm_num) (by norm_num)]
    norm_num

/-- Witness for C5 at the interior pixel of a concrete 3x3 image. -/
theorem C5_magnitude_rounded_witness :
    ∃ c : Nat,
      (Sobel.apply (Sobel.mk KernelType.X3)
          [255, 255, 255, 0, 0, 0, 0, 0, 0] 3 3).getD (1 + 1 * 3) 0 = (c : ℚ)
        ∧ 4 * (gxOf KernelType.X3 (patchAt [255, 255, 255, 0, 0, 0, 0, 0, 0] 3 1 1 1 3) ^ 2
              + gyOf KernelType.X3 (patchAt [255, 255, 255, 0, 0, 0, 0, 0, 0] 3 1 1 1 3) ^ 2)
            < (2 * (c : ℤ) + 1) ^ 2
        ∧ (c = 0 ∨ (2 * (c : ℤ) - 1) ^ 2
            ≤ 4 * (gxOf KernelType.X3 (patchAt [255, 255, 255, 0, 0, 0, 0, 0, 0] 3 1 1 1 3) ^ 2
                + gyOf KernelType.X3 (patchAt [255, 255, 255, 0, 0, 0, 0, 0, 0] 3 1 1 1 3) ^ 2)) :=
  C5_magnitude_rounded.1 KernelType.X3 [255, 255, 255, 0, 0, 0, 0, 0, 0] 3 3 1 1
    (by norm_num) (by norm_num [KernelType.size]) (by norm_num [KernelType.size])
    (by norm_num [KernelType.size]) (by norm_num [KernelType.size])

/-! ## Seam extractor lemmas -/

theorem stepChoice_row (cost : List ℚ) (w k s : Nat) (hs : s < w) :
    (cost.getD (stepChoice cost 1 w w (k * w + s)) 0 ≤ cost.getD ((k + 1) * w + s) 0)
      ∧ (1 ≤ s → cost.getD (stepChoice cost 1 w w (k * w + s)) 0
          ≤ cost.getD ((k + 1) * w + (s - 1)) 0)
      ∧ (s + 1 < w → cost.getD (stepChoice cost 1 w w (k * w + s)) 0
          ≤ cost.getD ((k + 1) * w + (s + 1)) 0)
      ∧ (stepChoice cost 1 w w (k * w + s) = (k + 1) * w + s
          ∨ (1 ≤ s ∧ stepChoice cost 1 w w (k * w + s) = (k + 1) * w + (s - 1)
              ∧ cost.getD ((k + 1) * w + (s - 1)) 0 < cost.getD ((k + 1) * w + s) 0)
          ∨ (s + 1 < w ∧ stepChoice cost 1 w w (k * w + s) = (k + 1) * w + (s + 1)
              ∧ cost.getD ((k + 1) * w + (s + 1)) 0 < cost.getD ((k + 1) * w + s) 0
              ∧ (1 ≤ s → cost.getD ((k + 1) * w + (s + 1)) 0
                  < cost.getD ((k + 1) * w + (s - 1)) 0))) := by
  have hidx : k * w + s + w = (k + 1) * w + s := by ring
  have hsec : ((k + 1) * w + s) % w = s := by
    rw [Nat.add_comm, Nat.add_mul_mod_self_right, Nat.mod_eq_of_lt hs]
  have hL : 1 ≤ s → (k + 1) * w + s - 1 = (k + 1) * w + (s - 1) := by
    intro h; generalize (k + 1) * w = A; omega
  simp only [stepChoice, hidx, Nat.div_one, hsec, ne_eq]
  by_cases hs0 : s = 0
  · rw [if_neg (by omega : ¬¬(s = 0))]
    by_cases hsw : s = w - 1
    · rw [if_neg (by omega : ¬¬(s = w - 1))]
      exact ⟨le_refl _, by omega, by omega, Or.inl rfl⟩
    · rw [if_pos (by omega : ¬(s = w - 1))]
      split_ifs with h1
      · exact ⟨le_of_lt h1, by omega, fun _ => le_refl _,
          Or.inr (Or.inr ⟨by omega, rfl, h1, by omega⟩)⟩
      · exact ⟨le_refl _, by omega, fun _ => not_lt.mp h1, Or.inl rfl⟩
  · have hs1 : 1 ≤ s := by omega
    rw [if_pos (by omega : ¬(s = 0)), hL hs1]
    by_cases hsw : s = w - 1
    · rw [if_neg (by omega : ¬¬(s = w - 1))]
      have hsw2 : ¬(s + 1 < w) := by omega
      split_ifs with h1
      · exact ⟨le_of_lt h1, fun _ => le_refl _, by omega,
          Or.inr (Or.inl ⟨hs1, rfl, h1⟩)⟩
      · exact ⟨le_refl _, fun _ => not_lt.mp h1, by omega, Or.inl rfl⟩
    · rw [if_pos (by omega : ¬(s = w - 1))]
      have hsw2 : s + 1 < w := by omega
      split_ifs with h1 h2 h3
      · exact ⟨le_of_lt (lt_trans h2 h1), fun _ => le_of_lt h2, fun _ => le_refl _,
          Or.inr (Or.inr ⟨hsw2, rfl, lt_trans h2 h1, fun _ => h2⟩)⟩
      · exact ⟨le_of_lt h1, fun _ => le_refl _, fun _ => not_lt.mp h2,
          Or.inr (Or.inl ⟨hs1, rfl, h1⟩)⟩
      · exact ⟨le_of_lt h3, fun _ => le_trans (le_of_lt h3) (not_lt.mp h1),
          fun _ => le_refl _,
          Or.inr (Or.inr ⟨hsw2, rfl, h3, fun _ => lt_of_lt_of_le h3 (not_lt.mp h1)⟩)⟩
      · exact ⟨le_refl _, fun _ => not_lt.mp h1, fun _ => not_lt.mp h3, Or.inl rfl⟩

theorem stepChoice_col (cost : List ℚ) (w h k s : Nat) (hk : k + 1 < w) (hs : s < h) :
    (cost.getD (stepChoice cost w 1 h (s * w + k)) 0 ≤ cost.getD (s * w + (k + 1)) 0)
      ∧ (1 ≤ s → cost.getD (stepChoice cost w 1 h (s * w + k)) 0
          ≤ cost.getD ((s - 1) * w + (k + 1)) 0)
      ∧ (s + 1 < h → cost.getD (stepChoice cost w 1 h (s * w + k)) 0
          ≤ cost.getD ((s + 1) * w + (k + 1)) 0)
      ∧ (stepChoice cost w 1 h (s * w + k) = s * w + (k + 1)
          ∨ (1 ≤ s ∧ stepChoice cost w 1 h (s * w + k) = (s - 1) * w + (k + 1)
              ∧ cost.getD ((s - 1) * w + (k + 1)) 0 < cost.getD (s * w + (k + 1)) 0)
          ∨ (s + 1 < h ∧ stepChoice cost w 1 h (s * w + k) = (s + 1) * w + (k + 1)
              ∧ cost.getD ((s + 1) * w + (k + 1)) 0 < cost.getD (s * w + (k + 1)) 0
              ∧ (1 ≤ s → cost.getD ((s + 1) * w + (k + 1)) 0
                  < cost.getD ((s - 1) * w + (k + 1)) 0))) := by
  have hw0 : 0 < w := by omega
  have hidx : s * w + k + 1 = s * w + (k + 1) := by ring
  have hsec : (s * w + (k + 1)) / w % h = s := by
    rw [Nat.add_comm, Nat.add_mul_div_right _ _ hw0, Nat.div_eq_of_lt hk]
    rw [Nat.zero_add, Nat.mod_eq_of_lt hs]
  have hL : 1 ≤ s → s * w + (k + 1) - w = (s - 1) * w + (k + 1) := by
    intro h1
    obtain ⟨s1, rfl⟩ : ∃ s1, s = s1 + 1 := ⟨s - 1, by omega⟩
    have he : (s1 + 1) * w = s1 * w + w := by ring
    have he2 : (s1 + 1 - 1) * w = s1 * w := by simp
    rw [he, he2]
    generalize s1 * w = A
    omega
  have hR : s * w + (k + 1) + w = (s + 1) * w + (k + 1) := by ring
  simp only [stepChoice, hidx, hsec, hR, ne_eq]
  by_cases hs0 : s = 0
  · rw [if_neg (by omega : ¬¬(s = 0))]
    by_cases hsw : s = h - 1
    · rw [if_neg (by omega : ¬¬(s = h - 1))]
      exact ⟨le_refl _, by omega, by omega, Or.inl rfl⟩
    · rw [if_pos (by omega : ¬(s = h - 1))]
      split_ifs with h1
      · exact ⟨le_of_lt h1, by omega, fun _ => le_refl _,
          Or.inr (Or.inr ⟨by omega, rfl, h1, by omega⟩)⟩
      · exact ⟨le_refl _, by omega, fun _ => not_lt.mp h1, Or.inl rfl⟩
  · have hs1 : 1 ≤ s := by omega
    rw [if_pos (by omega : ¬(s = 0)), hL hs1]
    by_cases hsw : s = h - 1
    · rw [if_neg (by omega : ¬¬(s = h - 1))]
      have hsw2 : ¬(s + 1 < h) := by omega
      split_ifs with h1
      · exact ⟨le_of_lt h1, fun _ => le_refl _, by omega,
          Or.inr (Or.inl ⟨hs1, rfl, h1⟩)⟩
      · exact ⟨le_refl _, fun _ => not_lt.mp h1, by omega, Or.inl rfl⟩
    · rw [if_pos (by omega : ¬(s = h - 1))]
      have hsw2 : s + 1 < h := by omega
      split_ifs with h1 h2 h3
      · exact ⟨le_of_lt (lt_trans h2 h1), fun _ => le_of_lt h2, fun _ => le_refl _,
          Or.inr (Or.inr ⟨hsw2, rfl, lt_trans h2 h1, fun _ => h2⟩)⟩
      · exact ⟨le_of_lt h1, fun _ => le_refl _, fun _ => not_lt.mp h2,
          Or.inr (Or.inl ⟨hs1, rfl, h1⟩)⟩
      · exact ⟨le_of_lt h3, fun _ => le_trans (le_of_lt h3) (not_lt.mp h1),
          fun _ => le_refl _,
          Or.inr (Or.inr ⟨hsw2, rfl, h3, fun _ => lt_of_lt_of_le h3 (not_lt.mp h1)⟩)⟩
      · exact ⟨le_refl _, fun _ => not_lt.mp h1, fun _ => not_lt.mp h3, Or.inl rfl⟩

theorem stepLoop_row_spec (cost : List ℚ) (w : Nat) :
    ∀ (n k s : Nat), s < w →
      (stepLoop cost 1 w w n (k * w + s)).length = n
      ∧ (∀ j, j < n →
          ∃ sp s' : Nat, sp < w ∧ s' < w
            ∧ (if j = 0 then sp = s
                else (stepLoop cost 1 w w n (k * w + s)).getD (j - 1) 0 = (k + j) * w + sp)
            ∧ (stepLoop cost 1 w w n (k * w + s)).getD j 0 = (k + 1 + j) * w + s'
            ∧ cost.getD ((stepLoop cost 1 w w n (k * w + s)).getD j 0) 0
                ≤ cost.getD ((k + 1 + j) * w + sp) 0
            ∧ (1 ≤ sp → cost.getD ((stepLoop cost 1 w w n (k * w + s)).getD j 0) 0
                ≤ cost.getD ((k + 1 + j) * w + (sp - 1)) 0)
            ∧ (sp + 1 < w → cost.getD ((stepLoop cost 1 w w n (k * w + s)).getD j 0) 0
                ≤ cost.getD ((k + 1 + j) * w + (sp + 1)) 0)
            ∧ (s' = sp
                ∨ (1 ≤ sp ∧ s' = sp - 1
                    ∧ cost.getD ((k + 1 + j) * w + (sp - 1)) 0
                        < cost.getD ((k + 1 + j) * w + sp) 0)
                ∨ (sp + 1 < w ∧ s' = sp + 1
                    ∧ cost.getD ((k + 1 + j) * w + (sp + 1)) 0
                        < cost.getD ((k + 1 + j) * w + sp) 0
                    ∧ (1 ≤ sp → cost.getD ((k + 1 + j) * w + (sp + 1)) 0
                        < cost.getD ((k + 1 + j) * w + (sp - 1)) 0)))) := by
  intro n
  induction n with
  | zero => intro k s hs; exact ⟨rfl, fun j hj => absurd hj (by omega)⟩
  | succ n ih =>
      intro k s hs
      obtain ⟨hA, hB, hC, hD⟩ := stepChoice_row cost w k s hs
      -- name the chosen cell and its secondary coordinate
      obtain ⟨s0, hs0lt, hs0eq, hs0disj⟩ :
          ∃ s0, s0 < w ∧ stepChoice cost 1 w w (k * w + s) = (k + 1) * w + s0
            ∧ (s0 = s
              ∨ (1 ≤ s ∧ s0 = s - 1
                  ∧ cost.getD ((k + 1) * w + (s - 1)) 0 < cost.getD ((k + 1) * w + s) 0)
              ∨ (s + 1 < w ∧ s0 = s + 1
                  ∧ cost.getD ((k + 1) * w + (s + 1)) 0 < cost.getD ((k + 1) * w + s) 0
                  ∧ (1 ≤ s → cost.getD ((k + 1) * w + (s + 1)) 0
                      < cost.getD ((k + 1) * w + (s - 1)) 0))) := by
        rcases hD with h | h | h
        · exact ⟨s, hs, h, Or.inl rfl⟩
        · exact ⟨s - 1, by omega, h.2.1, Or.inr (Or.inl ⟨h.1, rfl, h.2.2⟩)⟩
        · exact ⟨s + 1, h.1, h.2.1, Or.inr (Or.inr ⟨h.1, rfl, h.2.2.1, h.2.2.2⟩)⟩
      obtain ⟨ihlen, ihspec⟩ := ih (k + 1) s0 hs0lt
      rw [show (k + 1) * w + s0 = ((k + 1) * w + s0) from rfl] at ihlen ihspec
      constructor
      · show (stepChoice cost 1 w w (k * w + s) :: _).length = n + 1
        rw [List.length_cons, hs0eq, ihlen]
      · intro j hj
        cases j with
        | zero =>
            refine ⟨s, s0, hs, hs0lt, if_pos rfl ▸ rfl, ?_, ?_, ?_, ?_, ?_⟩
            · show stepChoice cost 1 w w (k * w + s) = (k + 1 + 0) * w + s0
              rw [hs0eq]
            · show cost.getD (stepChoice cost 1 w w (k * w + s)) 0
                ≤ cost.getD ((k + 1 + 0) * w + s) 0
              exact hA
            · exact hB
            · exact hC
            · exact hs0disj
        | succ j1 =>
            have hj1 : j1 < n := by omega
            obtain ⟨sp, s', h1, h2, h3, h4, h5, h6, h7, h8⟩ := ihspec j1 hj1
            have harith : k + 1 + (j1 + 1) = k + 1 + 1 + j1 := by omega
            have hcons : stepLoop cost 1 w w (n + 1) (k * w + s)
                = ((k + 1) * w + s0) :: stepLoop cost 1 w w n ((k + 1) * w + s0) := by
              show stepChoice cost 1 w w (k * w + s)
                :: stepLoop cost 1 w w n (stepChoice cost 1 w w (k * w + s)) = _
              rw [hs0eq]
            refine ⟨sp, s', h1, h2, ?_, ?_, ?_, ?_, ?_, ?_⟩
            · rw [hcons, if_neg (show ¬(j1 + 1 = 0) from by omega),
                show (j1 + 1 : Nat) - 1 = j1 from rfl,
                show k + (j1 + 1) = k + 1 + j1 from by omega]
              cases j1 with
              | zero =>
                  rw [if_pos rfl] at h3
                  show (k + 1) * w + s0 = (k + 1 + 0) * w + sp
                  rw [h3]
              | succ j2 =>
                  rw [if_neg (show ¬(j2 + 1 = 0) from by omega),
                    show (j2 + 1 : Nat) - 1 = j2 from rfl] at h3
                  rw [List.getD_cons_succ]
                  exact h3
            · rw [hcons, List.getD_cons_succ, harith]; exact h4
            · rw [hcons, List.getD_cons_succ, harith]; exact h5
            · rw [hcons, List.getD_cons_succ, harith]; exact h6
            · rw [hcons, List.getD_cons_succ, harith]; exact h7
            · rw [harith]; exact h8

theorem stepLoop_col_spec (cost : List ℚ) (w h : Nat) :
    ∀ (n k s : Nat), k + n < w → s < h →
      (stepLoop cost w 1 h n (s * w + k)).length = n
      ∧ (∀ j, j < n →
          ∃ sp s' : Nat, sp < h ∧ s' < h
            ∧ (if j = 0 then sp = s
                else (stepLoop cost w 1 h n (s * w + k)).getD (j - 1) 0 = sp * w + (k + j))
            ∧ (stepLoop cost w 1 h n (s * w + k)).getD j 0 = s' * w + (k + 1 + j)
            ∧ cost.getD ((stepLoop cost w 1 h n (s * w + k)).getD j 0) 0
                ≤ cost.getD (sp * w + (k + 1 + j)) 0
            ∧ (1 ≤ sp → cost.getD ((stepLoop cost w 1 h n (s * w + k)).getD j 0) 0
                ≤ cost.getD ((sp - 1) * w + (k + 1 + j)) 0)
            ∧ (sp + 1 < h → cost.getD ((stepLoop cost w 1 h n (s * w + k)).getD j 0) 0
                ≤ cost.getD ((sp + 1) * w + (k + 1 + j)) 0)
            ∧ (s' = sp
                ∨ (1 ≤ sp ∧ s' = sp - 1
                    ∧ cost.getD ((sp - 1) * w + (k + 1 + j)) 0
                        < cost.getD (sp * w + (k + 1 + j)) 0)
                ∨ (sp + 1 < h ∧ s' = sp + 1
                    ∧ cost.getD ((sp + 1) * w + (k + 1 + j)) 0
                        < cost.getD (sp * w + (k + 1 + j)) 0
                    ∧ (1 ≤ sp → cost.getD ((sp + 1) * w + (k + 1 + j)) 0
                        < cost.getD ((sp - 1) * w + (k + 1 + j)) 0)))) := by
  intro n
  induction n with
  | zero => intro k s _ hs; exact ⟨rfl, fun j hj => absurd hj (by omega)⟩
  | succ n ih =>
      intro k s hkn hs
      obtain ⟨hA, hB, hC, hD⟩ := stepChoice_col cost w h k s (by omega) hs
      obtain ⟨s0, hs0lt, hs0eq, hs0disj⟩ :
          ∃ s0, s0 < h ∧ stepChoice cost w 1 h (s * w + k) = s0 * w + (k + 1)
            ∧ (s0 = s
              ∨ (1 ≤ s ∧ s0 = s - 1
                  ∧ cost.getD ((s - 1) * w + (k + 1)) 0 < cost.getD (s * w + (k + 1)) 0)
              ∨ (s + 1 < h ∧ s0 = s + 1
                  ∧ cost.getD ((s + 1) * w + (k + 1)) 0 < cost.getD (s * w + (k + 1)) 0
                  ∧ (1 ≤ s → cost.getD ((s + 1) * w + (k + 1)) 0
                      < cost.getD ((s - 1) * w + (k + 1)) 0))) := by
        rcases hD with hh | hh | hh
        · exact ⟨s, hs, hh, Or.inl rfl⟩
        · exact ⟨s - 1, by omega, hh.2.1, Or.inr (Or.inl ⟨hh.1, rfl, hh.2.2⟩)⟩
        · exact ⟨s + 1, hh.1, hh.2.1, Or.inr (Or.inr ⟨hh.1, rfl, hh.2.2.1, hh.2.2.2⟩)⟩
      obtain ⟨ihlen, ihspec⟩ := ih (k + 1) s0 (by omega) hs0lt
      have hcons : stepLoop cost w 1 h (n + 1) (s * w + k)
          = (s0 * w + (k + 1)) :: stepLoop cost w 1 h n (s0 * w + (k + 1)) := by
        show stepChoice cost w 1 h (s * w + k)
          :: stepLoop cost w 1 h n (stepChoice cost w 1 h (s * w + k)) = _
        rw [hs0eq]
      constructor
      · rw [hcons, List.length_cons, ihlen]
      · intro j hj
        cases j with
        | zero =>
            refine ⟨s, s0, hs, hs0lt, if_pos rfl ▸ rfl, ?_, ?_, ?_, ?_, ?_⟩
            · rw [hcons]
              show s0 * w + (k + 1) = s0 * w + (k + 1 + 0)
              rfl
            · rw [hcons]
              show cost.getD (s0 * w + (k + 1)) 0 ≤ cost.getD (s * w + (k + 1 + 0)) 0
              rw [← hs0eq]
              exact hA
            · rw [hcons]
              intro hsp
              show cost.getD (s0 * w + (k + 1)) 0 ≤ cost.getD ((s - 1) * w + (k + 1 + 0)) 0
              rw [← hs0eq]
              exact hB hsp
            · rw [hcons]
              intro hsp
              show cost.getD (s0 * w + (k + 1)) 0 ≤ cost.getD ((s + 1) * w + (k + 1 + 0)) 0
              rw [← hs0eq]
              exact hC hsp
            · exact hs0disj
        | succ j1 =>
            have hj1 : j1 < n := by omega
            obtain ⟨sp, s', h1, h2, h3, h4, h5, h6, h7, h8⟩ := ihspec j1 hj1
            have harith : k + 1 + (j1 + 1) = k + 1 + 1 + j1 := by omega
            refine ⟨sp, s', h1, h2, ?_, ?_, ?_, ?_, ?_, ?_⟩
            · rw [hcons, if_neg (show ¬(j1 + 1 = 0) from by omega),
                show (j1 + 1 : Nat) - 1 = j1 from rfl,
                show k + (j1 + 1) = k + 1 + j1 from by omega]
              cases j1 with
              | zero =>
                  rw [if_pos rfl] at h3
                  show s0 * w + (k + 1) = sp * w + (k + 1 + 0)
                  rw [h3]
              | succ j2 =>
                  rw [if_neg (show ¬(j2 + 1 = 0) from by omega),
                    show (j2 + 1 : Nat) - 1 = j2 from rfl] at h3
                  rw [List.getD_cons_succ]
                  exact h3
            · rw [hcons, List.getD_cons_succ, harith]; exact h4
            · rw [hcons, List.getD_cons_succ, harith]; exact h5
            · rw [hcons, List.getD_cons_succ, harith]; exact h6
            · rw [hcons, List.getD_cons_succ, harith]; exact h7
            · rw [harith]; exact h8

theorem scanMin_spec (cost : List ℚ) (offset : Nat) :
    ∀ (n idx0 minIdx : Nat) (curMin : ℚ),
      (scanMin cost offset n idx0 minIdx curMin = minIdx
          ∧ ∀ u, u < n → curMin ≤ cost.getD (idx0 + u * offset) 0)
        ∨ (∃ t, t < n ∧ scanMin cost offset n idx0 minIdx curMin = idx0 + t * offset
            ∧ cost.getD (idx0 + t * offset) 0 < curMin
            ∧ (∀ u, u < t →
                cost.getD (idx0 + t * offset) 0 < cost.getD (idx0 + u * offset) 0)
            ∧ (∀ u, u < n →
                cost.getD (idx0 + t * offset) 0 ≤ cost.getD (idx0 + u * offset) 0)) := by
  intro n
  induction n with
  | zero => intro idx0 minIdx curMin; exact Or.inl ⟨rfl, fun u hu => absurd hu (by omega)⟩
  | succ n ih =>
      intro idx0 minIdx curMin
      have hsh : ∀ u : Nat, idx0 + offset + u * offset = idx0 + (u + 1) * offset := by
        intro u; ring
      by_cases hlt : curMin > cost.getD idx0 0
      · have hunf : scanMin cost offset (n + 1) idx0 minIdx curMin
            = scanMin cost offset n (idx0 + offset) idx0 (cost.getD idx0 0) := by
          rw [scanMin, if_pos hlt]
        rcases ih (idx0 + offset) idx0 (cost.getD idx0 0) with ⟨heq, hall⟩ | ⟨t, ht, heq, hlt2, hfirst, hmin⟩
        · refine Or.inr ⟨0, by omega, ?_, ?_, fun u hu => absurd hu (by omega), ?_⟩
          · rw [hunf, heq]; simp
          · simpa using hlt
          · intro u hu
            simp only [Nat.zero_mul, Nat.add_zero]
            cases u with
            | zero => simp
            | succ u1 =>
                have := hall u1 (by omega)
                rw [hsh u1] at this
                exact this
        · refine Or.inr ⟨t + 1, by omega, ?_, ?_, ?_, ?_⟩
          · rw [hunf, heq, hsh t]
          · rw [← hsh t]
            exact lt_trans hlt2 hlt
          · intro u hu
            rw [← hsh t]
            cases u with
            | zero =>
                rw [show idx0 + 0 * offset = idx0 from by ring]
                exact hlt2
            | succ u1 =>
                rw [← hsh u1]
                exact hfirst u1 (by omega)
          · intro u hu
            rw [← hsh t]
            cases u with
            | zero =>
                rw [show idx0 + 0 * offset = idx0 from by ring]
                exact le_of_lt hlt2
            | succ u1 =>
                rw [← hsh u1]
                exact hmin u1 (by omega)
      · have hunf : scanMin cost offset (n + 1) idx0 minIdx curMin
            = scanMin cost offset n (idx0 + offset) minIdx curMin := by
          rw [scanMin, if_neg hlt]
        rcases ih (idx0 + offset) minIdx curMin with ⟨heq, hall⟩ | ⟨t, ht, heq, hlt2, hfirst, hmin⟩
        · refine Or.inl ⟨by rw [hunf, heq], ?_⟩
          intro u hu
          cases u with
          | zero => simpa using not_lt.mp hlt
          | succ u1 =>
              have := hall u1 (by omega)
              rw [hsh u1] at this
              exact this
        · refine Or.inr ⟨t + 1, by omega, ?_, ?_, ?_, ?_⟩
          · rw [hunf, heq, hsh t]
          · rw [← hsh t]
            exact hlt2
          · intro u hu
            rw [← hsh t]
            cases u with
            | zero =>
                rw [show idx0 + 0 * offset = idx0 from by ring]
                exact lt_of_lt_of_le hlt2 (not_lt.mp hlt)
            | succ u1 =>
                rw [← hsh u1]
                exact hfirst u1 (by omega)
          · intro u hu
            rw [← hsh t]
            cases u with
            | zero =>
                rw [show idx0 + 0 * offset = idx0 from by ring]
                exact le_of_lt (lt_of_lt_of_le hlt2 (not_lt.mp hlt))
            | succ u1 =>
                rw [← hsh u1]
                exact hmin u1 (by omega)

theorem scanMin_head (cost : List ℚ) (offset inner : Nat) (hin : 1 ≤ inner) :
    ∃ t, t < inner ∧ scanMin cost offset inner 0 0 f32MAX = t * offset := by
  rcases scanMin_spec cost offset inner 0 0 f32MAX with ⟨heq, _⟩ | ⟨t, ht, heq, _, _, _⟩
  · exact ⟨0, by omega, by rw [heq]; ring⟩
  · exact ⟨t, ht, by rw [heq]; ring⟩

theorem scanMin_head_min (cost : List ℚ) (offset inner : Nat) (hin : 1 ≤ inner)
    (hmax : ∀ u, u < inner → cost.getD (u * offset) 0 ≤ f32MAX) :
    ∃ t, t < inner ∧ scanMin cost offset inner 0 0 f32MAX = t * offset
      ∧ (∀ u, u < t → cost.getD (t * offset) 0 < cost.getD (u * offset) 0)
      ∧ (∀ u, u < inner → cost.getD (t * offset) 0 ≤ cost.getD (u * offset) 0) := by
  rcases scanMin_spec cost offset inner 0 0 f32MAX with ⟨heq, hall⟩
    | ⟨t, ht, heq, _, hfirst, hmin⟩
  · refine ⟨0, by omega, by rw [heq]; ring, fun u hu => absurd hu (by omega), ?_⟩
    intro u hu
    have h1 := hall u hu
    rw [Nat.zero_add] at h1
    calc cost.getD (0 * offset) 0 ≤ f32MAX := hmax 0 (by omega)
    _ ≤ cost.getD (u * offset) 0 := h1
  · refine ⟨t, ht, by rw [heq]; ring, ?_, ?_⟩
    · intro u hu
      have := hfirst u hu
      rw [Nat.zero_add, Nat.zero_add] at this
      exact this
    · intro u hu
      have := hmin u hu
      rw [Nat.zero_add, Nat.zero_add] at this
      exact this

/-- C7: for a nonempty cost buffer of the stated shape, the extracted
seam has exactly `outer` entries, entry `j` lies on traversal line `j`
with a valid secondary coordinate, and the secondary coordinates of
consecutive entries differ by at most one. -/
theorem C7_seam_length_connectivity (cost : List ℚ) (w h : Nat) (dir : Direction)
    (hw : 1 ≤ w) (hh : 1 ≤ h) (hlen : cost.length = w * h) :
    (find_shortest_path cost w h dir).length = (MapState.from_dir w h dir).outer
      ∧ (∀ j, j < (MapState.from_dir w h dir).outer →
          lineOf w dir ((find_shortest_path cost w h dir).getD j 0) = j
            ∧ secOf w dir ((find_shortest_path cost w h dir).getD j 0)
                < (MapState.from_dir w h dir).inner)
      ∧ (∀ j, j + 1 < (MapState.from_dir w h dir).outer →
          secOf w dir ((find_shortest_path cost w h dir).getD (j + 1) 0)
              ≤ secOf w dir ((find_shortest_path cost w h dir).getD j 0) + 1
            ∧ secOf w dir ((find_shortest_path cost w h dir).getD j 0)
              ≤ secOf w dir ((find_shortest_path cost w h dir).getD (j + 1) 0) + 1) := by
  have hw0 : 0 < w := hw
  cases dir with
  | Row =>
      obtain ⟨t, ht, heq⟩ := scanMin_head cost 1 w hw
      have hform : scanMin cost 1 w 0 0 f32MAX = 0 * w + t := by rw [heq]; ring
      have hpath : find_shortest_path cost w h Direction.Row
          = (0 * w + t) :: stepLoop cost 1 w w (h - 1) (0 * w + t) := by
        show scanMin cost 1 w 0 0 f32MAX
          :: stepLoop cost 1 w w (h - 1) (scanMin cost 1 w 0 0 f32MAX) = _
        rw [hform]
      obtain ⟨hlen2, hspec⟩ := stepLoop_row_spec cost w (h - 1) 0 t ht
      refine ⟨?_, ?_, ?_⟩
      · rw [hpath, List.length_cons, hlen2]
        show h - 1 + 1 = h
        omega
      · intro j hj
        simp only [MapState.from_dir] at hj ⊢
        cases j with
        | zero =>
            rw [hpath]
            constructor
            · show (0 * w + t) / w = 0
              rw [show 0 * w + t = t from by ring]
              exact Nat.div_eq_of_lt ht
            · show (0 * w + t) % w < w
              rw [show 0 * w + t = t from by ring, Nat.mod_eq_of_lt ht]
              exact ht
        | succ j1 =>
            have hj1 : j1 < h - 1 := by omega
            obtain ⟨sp, s', h1, h2, h3, h4, h5x, h6x, h7x, h8⟩ := hspec j1 hj1
            rw [hpath, List.getD_cons_succ, h4]
            constructor
            · show ((0 + 1 + j1) * w + s') / w = j1 + 1
              rw [show (0 + 1 + j1) = j1 + 1 from by omega,
                Nat.add_comm ((j1 + 1) * w) s',
                Nat.add_mul_div_right _ _ hw0, Nat.div_eq_of_lt h2, Nat.zero_add]
            · show ((0 + 1 + j1) * w + s') % w < w
              rw [Nat.add_comm ((0 + 1 + j1) * w) s', Nat.add_mul_mod_self_right,
                Nat.mod_eq_of_lt h2]
              exact h2
      · intro j hj
        simp only [MapState.from_dir] at hj ⊢
        have hjlt : j < h - 1 := by omega
        obtain ⟨sp, s', h1, h2, h3, h4, h5x, h6x, h7x, h8⟩ := hspec j hjlt
        have hsec1 : secOf w Direction.Row
            ((find_shortest_path cost w h Direction.Row).getD (j + 1) 0) = s' := by
          rw [hpath, List.getD_cons_succ, h4]
          show ((0 + 1 + j) * w + s') % w = s'
          rw [Nat.add_comm ((0 + 1 + j) * w) s', Nat.add_mul_mod_self_right,
            Nat.mod_eq_of_lt h2]
        have hsec0 : secOf w Direction.Row
            ((find_shortest_path cost w h Direction.Row).getD j 0) = sp := by
          cases j with
          | zero =>
              rw [if_pos rfl] at h3
              rw [hpath]
              show (0 * w + t) % w = sp
              rw [show 0 * w + t = t from by ring, Nat.mod_eq_of_lt ht, h3]
          | succ j2 =>
              rw [if_neg (show ¬(j2 + 1 = 0) from by omega),
                show (j2 + 1 : Nat) - 1 = j2 from rfl] at h3
              rw [hpath, List.getD_cons_succ, h3]
              show ((0 + (j2 + 1)) * w + sp) % w = sp
              rw [Nat.add_comm ((0 + (j2 + 1)) * w) sp, Nat.add_mul_mod_self_right,
                Nat.mod_eq_of_lt h1]
        rw [hsec1, hsec0]
        rcases h8 with he | ⟨ha, hb, _⟩ | ⟨ha, hb, _, _⟩ <;> omega
  | Column =>
      obtain ⟨t, ht, heq⟩ := scanMin_head cost w h hh
      have hform : scanMin cost w h 0 0 f32MAX = t * w + 0 := by rw [heq]; ring
      have hpath : find_shortest_path cost w h Direction.Column
          = (t * w + 0) :: stepLoop cost w 1 h (w - 1) (t * w + 0) := by
        show scanMin cost w h 0 0 f32MAX
          :: stepLoop cost w 1 h (w - 1) (scanMin cost w h 0 0 f32MAX) = _
        rw [hform]
      obtain ⟨hlen2, hspec⟩ := stepLoop_col_spec cost w h (w - 1) 0 t (by omega) ht
      refine ⟨?_, ?_, ?_⟩
      · rw [hpath, List.length_cons, hlen2]
        show w - 1 + 1 = w
        omega
      · intro j hj
        simp only [MapState.from_dir] at hj ⊢
        cases j with
        | zero =>
            rw [hpath]
            constructor
            · show (t * w + 0) % w = 0
              rw [Nat.add_zero, Nat.mul_mod_left]
            · show (t * w + 0) / w < h
              rw [show t * w + 0 = 0 + t * w from by ring, Nat.add_mul_div_right _ _ hw0,
                Nat.zero_div, Nat.zero_add]
              exact ht
        | succ j1 =>
            have hj1 : j1 < w - 1 := by omega
            obtain ⟨sp, s', h1, h2, h3, h4, h5x, h6x, h7x, h8⟩ := hspec j1 hj1
            rw [hpath, List.getD_cons_succ, h4]
            constructor
            · show (s' * w + (0 + 1 + j1)) % w = j1 + 1
              rw [Nat.add_comm (s' * w) _, Nat.add_mul_mod_self_right,
                show (0 + 1 + j1) = j1 + 1 from by omega,
                Nat.mod_eq_of_lt (show j1 + 1 < w from by omega)]
            · show (s' * w + (0 + 1 + j1)) / w < h
              rw [Nat.add_comm (s' * w) _, Nat.add_mul_div_right _ _ hw0,
                Nat.div_eq_of_lt (show 0 + 1 + j1 < w from by omega), Nat.zero_add]
              exact h2
      · intro j hj
        simp only [MapState.from_dir] at hj ⊢
        have hjlt : j < w - 1 := by omega
        obtain ⟨sp, s', h1, h2, h3, h4, h5x, h6x, h7x, h8⟩ := hspec j hjlt
        have hsec1 : secOf w Direction.Column
            ((find_shortest_path cost w h Direction.Column).getD (j + 1) 0) = s' := by
          rw [hpath, List.getD_cons_succ, h4]
          show (s' * w + (0 + 1 + j)) / w = s'
          rw [Nat.add_comm (s' * w) _, Nat.add_mul_div_right _ _ hw0,
            Nat.div_eq_of_lt (show 0 + 1 + j < w from by omega), Nat.zero_add]
        have hsec0 : secOf w Direction.Column
            ((find_shortest_path cost w h Direction.Column).getD j 0) = sp := by
          cases j with
          | zero =>
              rw [if_pos rfl] at h3
              rw [hpath]
              show (t * w + 0) / w = sp
              rw [show t * w + 0 = 0 + t * w from by ring, Nat.add_mul_div_right _ _ hw0,
                Nat.zero_div, Nat.zero_add, h3]
          | succ j2 =>
              rw [if_neg (show ¬(j2 + 1 = 0) from by omega),
                show (j2 + 1 : Nat) - 1 = j2 from rfl] at h3
              rw [hpath, List.getD_cons_succ, h3]
              show (sp * w + (0 + (j2 + 1))) / w = sp
              rw [Nat.add_comm (sp * w) _, Nat.add_mul_div_right _ _ hw0,
                Nat.div_eq_of_lt (show 0 + (j2 + 1) < w from by omega), Nat.zero_add]
        rw [hsec1, hsec0]
        rcases h8 with he | ⟨ha, hb, _⟩ | ⟨ha, hb, _, _⟩ <;> omega

/-- Counterexample to C6 as stated: on the 2x2 Row-direction cost buffer
`[[5,0],[1,1]]` the walk starts at flat index 1 and the two second-line
candidates (flat 2, secondary 0, and flat 3, secondary 1) tie at cost 1;
the claimed rule prefers the lowest secondary index (flat 2), but the
source keeps the same-secondary candidate (flat 3): ties go to the same
position first, not to the lower index. -/
theorem C6_tie_break_counterexample :
    find_shortest_path [5, 0, 1, 1] 2 2 Direction.Row = [1, 3]
      ∧ ([5, 0, 1, 1] : List ℚ).getD 2 0 = ([5, 0, 1, 1] : List ℚ).getD 3 0
      ∧ secOf 2 Direction.Row 3 = 1 ∧ secOf 2 Direction.Row 2 = 0 := by
  refine ⟨?_, by norm_num, by norm_num [secOf], by norm_num [secOf]⟩
  norm_num [find_shortest_path, MapState.from_dir, scanMin, stepLoop, stepChoice, f32MAX]

/-- C6 (amended): the extractor picks on the near-boundary line the
lowest-index first strict minimum, and at every subsequent line the
minimum-cost existing neighbour of the previous choice, with ties broken
by preferring the same secondary position, then the `-1` neighbour, then
the `+1` neighbour (not by lowest secondary index, see the
counterexample). -/
theorem C6_extractor_greedy (cost : List ℚ) (w h : Nat) (dir : Direction)
    (hw : 1 ≤ w) (hh : 1 ≤ h)
    (hmax : ∀ i : Nat, cost.getD i 0 ≤ f32MAX) :
    (∃ t, t < (MapState.from_dir w h dir).inner
      ∧ (find_shortest_path cost w h dir).getD 0 0 = t * (MapState.from_dir w h dir).offset
      ∧ (∀ u, u < t →
          cost.getD ((find_shortest_path cost w h dir).getD 0 0) 0
            < cost.getD (u * (MapState.from_dir w h dir).offset) 0)
      ∧ (∀ u, u < (MapState.from_dir w h dir).inner →
          cost.getD ((find_shortest_path cost w h dir).getD 0 0) 0
            ≤ cost.getD (u * (MapState.from_dir w h dir).offset) 0))
    ∧ (∀ j, j + 1 < (MapState.from_dir w h dir).outer →
        cost.getD ((find_shortest_path cost w h dir).getD (j + 1) 0) 0
            ≤ cost.getD ((find_shortest_path cost w h dir).getD j 0
                + (MapState.from_dir w h dir).stride) 0
          ∧ (1 ≤ secOf w dir ((find_shortest_path cost w h dir).getD j 0) →
              cost.getD ((find_shortest_path cost w h dir).getD (j + 1) 0) 0
                ≤ cost.getD ((find_shortest_path cost w h dir).getD j 0
                    + (MapState.from_dir w h dir).stride
                    - (MapState.from_dir w h dir).offset) 0)
          ∧ (secOf w dir ((find_shortest_path cost w h dir).getD j 0) + 1
                < (MapState.from_dir w h dir).inner →
              cost.getD ((find_shortest_path cost w h dir).getD (j + 1) 0) 0
                ≤ cost.getD ((find_shortest_path cost w h dir).getD j 0
                    + (MapState.from_dir w h dir).stride
                    + (MapState.from_dir w h dir).offset) 0)
          ∧ ((find_shortest_path cost w h dir).getD (j + 1) 0
                = (find_shortest_path cost w h dir).getD j 0
                  + (MapState.from_dir w h dir).stride
              ∨ (1 ≤ secOf w dir ((find_shortest_path cost w h dir).getD j 0)
                  ∧ (find_shortest_path cost w h dir).getD (j + 1) 0
                      = (find_shortest_path cost w h dir).getD j 0
                        + (MapState.from_dir w h dir).stride
                        - (MapState.from_dir w h dir).offset
                  ∧ cost.getD ((find_shortest_path cost w h dir).getD j 0
                      + (MapState.from_dir w h dir).stride
                      - (MapState.from_dir w h dir).offset) 0
                    < cost.getD ((find_shortest_path cost w h dir).getD j 0
                      + (MapState.from_dir w h dir).stride) 0)
              ∨ (secOf w dir ((find_shortest_path cost w h dir).getD j 0) + 1
                    < (MapState.from_dir w h dir).inner
                  ∧ (find_shortest_path cost w h dir).getD (j + 1) 0
                      = (find_shortest_path cost w h dir).getD j 0
                        + (MapState.from_dir w h dir).stride
                        + (MapState.from_dir w h dir).offset
                  ∧ cost.getD ((find_shortest_path cost w h dir).getD j 0
                      + (MapState.from_dir w h dir).stride
                      + (MapState.from_dir w h dir).offset) 0
                    < cost.getD ((find_shortest_path cost w h dir).getD j 0
                      + (MapState.from_dir w h dir).stride) 0
                  ∧ (1 ≤ secOf w dir ((find_shortest_path cost w h dir).getD j 0) →
                      cost.getD ((find_shortest_path cost w h dir).getD j 0
                          + (MapState.from_dir w h dir).stride
                          + (MapState.from_dir w h dir).offset) 0
                        < cost.getD ((find_shortest_path cost w h dir).getD j 0
                          + (MapState.from_dir w h dir).stride
                          - (MapState.from_dir w h dir).offset) 0)))) := by
  have hw0 : 0 < w := hw
  cases dir with
  | Row =>
      obtain ⟨t, ht, heq, hfirst, hmin⟩ := scanMin_head_min cost 1 w hw
        (fun u _ => hmax (u * 1))
      have hform : scanMin cost 1 w 0 0 f32MAX = 0 * w + t := by rw [heq]; ring
      have hpath : find_shortest_path cost w h Direction.Row
          = (0 * w + t) :: stepLoop cost 1 w w (h - 1) (0 * w + t) := by
        show scanMin cost 1 w 0 0 f32MAX
          :: stepLoop cost 1 w w (h - 1) (scanMin cost 1 w 0 0 f32MAX) = _
        rw [hform]
      obtain ⟨hlen2, hspec⟩ := stepLoop_row_spec cost w (h - 1) 0 t ht
      constructor
      · simp only [MapState.from_dir]
        refine ⟨t, ht, ?_, ?_, ?_⟩
        · rw [hpath]
          show 0 * w + t = t * 1
          ring
        · intro u hu
          rw [hpath]
          show cost.getD (0 * w + t) 0 < cost.getD (u * 1) 0
          rw [show 0 * w + t = t * 1 from by ring]
          exact hfirst u hu
        · intro u hu
          rw [hpath]
          show cost.getD (0 * w + t) 0 ≤ cost.getD (u * 1) 0
          rw [show 0 * w + t = t * 1 from by ring]
          exact hmin u hu
      · intro j hj
        simp only [MapState.from_dir] at hj ⊢
        have hjlt : j < h - 1 := by omega
        obtain ⟨sp, s', h1, h2, h3, h4, h5x, h6x, h7x, h8⟩ := hspec j hjlt
        simp only [Nat.zero_add] at h3 h4 h5x h6x h7x h8
        have hprevEq : (find_shortest_path cost w h Direction.Row).getD j 0
            = j * w + sp := by
          cases j with
          | zero =>
              rw [if_pos rfl] at h3
              rw [hpath]
              show 0 * w + t = 0 * w + sp
              rw [h3]
          | succ j2 =>
              rw [if_neg (show ¬(j2 + 1 = 0) from by omega),
                show (j2 + 1 : Nat) - 1 = j2 from rfl] at h3
              rw [hpath, List.getD_cons_succ, h3]
        have hnext : (find_shortest_path cost w h Direction.Row).getD (j + 1) 0
            = (stepLoop cost 1 w w (h - 1) (0 * w + t)).getD j 0 := by
          rw [hpath, List.getD_cons_succ]
        have hsecprev : secOf w Direction.Row
            ((find_shortest_path cost w h Direction.Row).getD j 0) = sp := by
          rw [hprevEq]
          show (j * w + sp) % w = sp
          rw [Nat.add_comm (j * w) sp, Nat.add_mul_mod_self_right, Nat.mod_eq_of_lt h1]
        have hmid : j * w + sp + w = (1 + j) * w + sp := by ring
        have hrightE : j * w + sp + w + 1 = (1 + j) * w + (sp + 1) := by ring
        have hleftE : 1 ≤ sp → j * w + sp + w - 1 = (1 + j) * w + (sp - 1) := by
          intro hsp
          have hmul : (1 + j) * w = w + j * w := by ring
          rw [hmul]
          generalize j * w = A
          omega
        rw [hnext, hsecprev, hprevEq]
        refine ⟨?_, ?_, ?_, ?_⟩
        · rw [hmid]; exact h5x
        · intro hsp; rw [hleftE hsp]; exact h6x hsp
        · intro hsp; rw [hrightE]; exact h7x hsp
        · rcases h8 with he | ⟨ha, hb, hc⟩ | ⟨ha, hb, hc, hd2⟩
          · exact Or.inl (by rw [h4, he, hmid])
          · exact Or.inr (Or.inl ⟨ha, by rw [h4, hb, hleftE ha],
              by rw [hleftE ha, hmid]; exact hc⟩)
          · exact Or.inr (Or.inr ⟨ha, by rw [h4, hb, hrightE],
              by rw [hrightE, hmid]; exact hc,
              fun hsp => by rw [hrightE, hleftE hsp]; exact hd2 hsp⟩)
  | Column =>
      obtain ⟨t, ht, heq, hfirst, hmin⟩ := scanMin_head_min cost w h hh
        (fun u _ => hmax (u * w))
      have hform : scanMin cost w h 0 0 f32MAX = t * w + 0 := by rw [heq]; ring
      have hpath : find_shortest_path cost w h Direction.Column
          = (t * w + 0) :: stepLoop cost w 1 h (w - 1) (t * w + 0) := by
        show scanMin cost w h 0 0 f32MAX
          :: stepLoop cost w 1 h (w - 1) (scanMin cost w h 0 0 f32MAX) = _
        rw [hform]
      obtain ⟨hlen2, hspec⟩ := stepLoop_col_spec cost w h (w - 1) 0 t (by omega) ht
      constructor
      · simp only [MapState.from_dir]
        refine ⟨t, ht, ?_, ?_, ?_⟩
        · rw [hpath]
          show t * w + 0 = t * w
          ring
        · intro u hu
          rw [hpath]
          show cost.getD (t * w + 0) 0 < cost.getD (u * w) 0
          rw [show t * w + 0 = t * w from by ring]
          exact hfirst u hu
        · intro u hu
          rw [hpath]
          show cost.getD (t * w + 0) 0 ≤ cost.getD (u * w) 0
          rw [show t * w + 0 = t * w from by ring]
          exact hmin u hu
      · intro j hj
        simp only [MapState.from_dir] at hj ⊢
        have hjlt : j < w - 1 := by omega
        obtain ⟨sp, s', h1, h2, h3, h4, h5x, h6x, h7x, h8⟩ := hspec j hjlt
        simp only [Nat.zero_add] at h3 h4 h5x h6x h7x h8
        have hprevEq : (find_shortest_path cost w h Direction.Column).getD j 0
            = sp * w + j := by
          cases j with
          | zero =>
              rw [if_pos rfl] at h3
              rw [hpath]
              show t * w + 0 = sp * w + 0
              rw [h3]
          | succ j2 =>
              rw [if_neg (show ¬(j2 + 1 = 0) from by omega),
                show (j2 + 1 : Nat) - 1 = j2 from rfl] at h3
              rw [hpath, List.getD_cons_succ, h3]
        have hnext : (find_shortest_path cost w h Direction.Column).getD (j + 1) 0
            = (stepLoop cost w 1 h (w - 1) (t * w + 0)).getD j 0 := by
          rw [hpath, List.getD_cons_succ]
        have hsecprev : secOf w Direction.Column
            ((find_shortest_path cost w h Direction.Column).getD j 0) = sp := by
          rw [hprevEq]
          show (sp * w + j) / w = sp
          rw [Nat.add_comm (sp * w) j, Nat.add_mul_div_right _ _ hw0,
            Nat.div_eq_of_lt (show j < w from by omega), Nat.zero_add]
        have hmid : sp * w + j + 1 = sp * w + (1 + j) := by ring
        have hrightE : sp * w + j + 1 + w = (sp + 1) * w + (1 + j) := by ring
        have hleftE : 1 ≤ sp → sp * w + j + 1 - w = (sp - 1) * w + (1 + j) := by
          intro hsp
          obtain ⟨sq, rfl⟩ : ∃ sq, sp = sq + 1 := ⟨sp - 1, by omega⟩
          rw [show (sq + 1 : Nat) - 1 = sq from rfl,
            show (sq + 1) * w = sq * w + w from by ring]
          generalize sq * w = A
          omega
        rw [hnext, hsecprev, hprevEq]
        refine ⟨?_, ?_, ?_, ?_⟩
        · rw [hmid]; exact h5x
        · intro hsp; rw [hleftE hsp]; exact h6x hsp
        · intro hsp; rw [hrightE]; exact h7x hsp
        · rcases h8 with he | ⟨ha, hb, hc⟩ | ⟨ha, hb, hc, hd2⟩
          · exact Or.inl (by rw [h4, he, hmid])
          · exact Or.inr (Or.inl ⟨ha, by rw [h4, hb, hleftE ha],
              by rw [hleftE ha, hmid]; exact hc⟩)
          · exact Or.inr (Or.inr ⟨ha, by rw [h4, hb, hrightE],
              by rw [hrightE, hmid]; exact hc,
              fun hsp => by rw [hrightE, hleftE hsp]; exact hd2 hsp⟩)

theorem getD_le_f32MAX (l : List ℚ) (h : ∀ x ∈ l, x ≤ f32MAX) (i : Nat) :
    l.getD i 0 ≤ f32MAX := by
  rcases Nat.lt_or_ge i l.length with hlt | hge
  · rw [List.getD_eq_getElem?_getD, List.getElem?_eq_getElem hlt]
    exact h _ (List.getElem_mem hlt)
  · rw [List.getD_eq_getElem?_getD, List.getElem?_eq_none (by omega)]
    norm_num [f32MAX]

/-- Witness for C7 on a concrete 2x2 cost buffer. -/
theorem C7_seam_length_connectivity_witness :
    (find_shortest_path [5, 0, 1, 1] 2 2 Direction.Row).length
        = (MapState.from_dir 2 2 Direction.Row).outer
      ∧ (∀ j, j < (MapState.from_dir 2 2 Direction.Row).outer →
          lineOf 2 Direction.Row ((find_shortest_path [5, 0, 1, 1] 2 2 Direction.Row).getD j 0)
              = j
            ∧ secOf 2 Direction.Row ((find_shortest_path [5, 0, 1, 1] 2 2 Direction.Row).getD j 0)
                < (MapState.from_dir 2 2 Direction.Row).inner)
      ∧ (∀ j, j + 1 < (MapState.from_dir 2 2 Direction.Row).outer →
          secOf 2 Direction.Row
              ((find_shortest_path [5, 0, 1, 1] 2 2 Direction.Row).getD (j + 1) 0)
              ≤ secOf 2 Direction.Row
                ((find_shortest_path [5, 0, 1, 1] 2 2 Direction.Row).getD j 0) + 1
            ∧ secOf 2 Direction.Row
                ((find_shortest_path [5, 0, 1, 1] 2 2 Direction.Row).getD j 0)
              ≤ secOf 2 Direction.Row
                ((find_shortest_path [5, 0, 1, 1] 2 2 Direction.Row).getD (j + 1) 0) + 1) :=
  C7_seam_length_connectivity [5, 0, 1, 1] 2 2 Direction.Row (by norm_num) (by norm_num)
    (by norm_num)

/-- Witness for the amended C6 on a concrete 2x2 cost buffer. -/
theorem C6_extractor_greedy_witness :
    ∃ t, t < (MapState.from_dir 2 2 Direction.Row).inner
      ∧ (find_shortest_path [5, 0, 1, 1] 2 2 Direction.Row).getD 0 0
          = t * (MapState.from_dir 2 2 Direction.Row).offset
      ∧ (∀ u, u < t →
          ([5, 0, 1, 1] : List ℚ).getD
              ((find_shortest_path [5, 0, 1, 1] 2 2 Direction.Row).getD 0 0) 0
            < ([5, 0, 1, 1] : List ℚ).getD
              (u * (MapState.from_dir 2 2 Direction.Row).offset) 0)
      ∧ (∀ u, u < (MapState.from_dir 2 2 Direction.Row).inner →
          ([5, 0, 1, 1] : List ℚ).getD
              ((find_shortest_path [5, 0, 1, 1] 2 2 Direction.Row).getD 0 0) 0
            ≤ ([5, 0, 1, 1] : List ℚ).getD
              (u * (MapState.from_dir 2 2 Direction.Row).offset) 0) :=
  (C6_extractor_greedy [5, 0, 1, 1] 2 2 Direction.Row (by norm_num) (by norm_num)
    (getD_le_f32MAX _ (by
      intro x hx
      simp only [List.mem_cons, List.not_mem_nil, or_false] at hx
      rcases hx with h | h | h | h <;> rw [h] <;> norm_num [f32MAX]))).1

end SeamCarving
